import Mathlib

/-!
# memory-serializer: `utils::wmemory_t`, `alloc_`, `free_`, `format` and `group_digit` (src/serializer.h)

Shallow embedding of the typed buffer, of the arena allocator and of the two string
helpers of `serializer.h`.

Conventions of the embedding of the typed buffer (those of the allocator stand at
its definitions).

* `uintmax_t` and `size_t` are 64 bits wide (the wire format has an 8-byte
  length prefix); they are natural numbers and every addition the source
  performs on them is reduced modulo `2 ^ 64`.
* The header only compiles where `_STD` is defined (MSVC, MinGW), so the
  object representation of an integer is little-endian two's complement,
  `char` is signed and `sizeof(long) = 4`.
* `buffer` is the storage reserved behind `buffer.data()`; the source only
  ever calls `reserve`, so the vector's own element count stays `0` and the
  list below is that reserved region.  `buffer.data()` is the null pointer
  exactly when nothing was reserved (the list is empty).
* A `memcpy` or a pointer read that leaves the reserved region, or whose
  address `buffer.data() + m_lens` wraps, has no defined behaviour in C++.
  Here a byte written outside the region is dropped and a byte read outside
  the region is `0`; what is proved below about such a call is its error
  result and its cursor, never the bytes it reads or writes.
* The setters are declared `noexcept` and forward to `insert`, which throws.
  `Except.error` is the exception `insert` throws, before it has written
  anything; the caller never sees a state changed by a failing call.
* `float` and `double` values are carried as their IEEE-754 bit patterns.
-/

namespace utils

/-- One `uint8_t` of storage. -/
abbrev Byte := Fin 256

/-- Exceptions thrown by `wmemory_t`: `std::invalid_argument` and
`std::runtime_error` ("maximum buffer size exceeded"). -/
inductive Error where
  | invalid_argument
  | runtime_error
  deriving DecidableEq, Repr

/-- The alternatives of `utils::variant`, in declaration order; strings are byte
lists, signed integers are `Int`, unsigned ones `Nat`, floating point values
are bit patterns. -/
inductive variant where
  | str (v : List Byte)
  | strview (v : List Byte)
  | int8 (v : Int)
  | uint8 (v : Nat)
  | int16 (v : Int)
  | uint16 (v : Nat)
  | int32 (v : Int)
  | uint32 (v : Nat)
  | int64 (v : Int)
  | uint64 (v : Nat)
  | bool (v : Bool)
  | float (bits : Nat)
  | double (bits : Nat)
  deriving DecidableEq, Repr

/-- The tags of `class support_t`. -/
inductive support_t where
  | variant_str
  | variant_strview
  | variant_int8
  | variant_uint8
  | variant_int16
  | variant_uint16
  | variant_int32
  | variant_uint32
  | variant_int64
  | variant_uint64
  | variant_bool
  | variant_float
  | variant_double
  deriving DecidableEq, Repr

/-- The alternative held by a variant (`var.index()`). -/
def variant.index : variant → support_t
  | .str _ => .variant_str
  | .strview _ => .variant_strview
  | .int8 _ => .variant_int8
  | .uint8 _ => .variant_uint8
  | .int16 _ => .variant_int16
  | .uint16 _ => .variant_uint16
  | .int32 _ => .variant_int32
  | .uint32 _ => .variant_uint32
  | .int64 _ => .variant_int64
  | .uint64 _ => .variant_uint64
  | .bool _ => .variant_bool
  | .float _ => .variant_float
  | .double _ => .variant_double

/-- The value of `sizeof(_typename)` for the fixed-width alternatives (`0` for the two
string alternatives, which never reach the `sizeof` branch). -/
def support_t.sizeof : support_t → Nat
  | .variant_str => 0
  | .variant_strview => 0
  | .variant_int8 => 1
  | .variant_uint8 => 1
  | .variant_int16 => 2
  | .variant_uint16 => 2
  | .variant_int32 => 4
  | .variant_uint32 => 4
  | .variant_int64 => 8
  | .variant_uint64 => 8
  | .variant_bool => 1
  | .variant_float => 4
  | .variant_double => 8

/-- Whether the tag is one of the fixed-width alternatives. -/
def support_t.isFixed : support_t → Bool
  | .variant_str => false
  | .variant_strview => false
  | _ => true

/-- Two's complement bit pattern of a signed integer stored in `w` bytes. -/
def encodeInt (w : Nat) (v : Int) : Nat :=
  (v % (2 ^ (8 * w) : Int)).toNat

/-- The signed integer denoted by a `w`-byte two's complement bit pattern. -/
def toSigned (w : Nat) (n : Nat) : Int :=
  if n < 2 ^ (8 * w - 1) then (n : Int) else (n : Int) - 2 ^ (8 * w)

/-- The object representation of a fixed-width value, as a number (`0` for strings). -/
def variant.bits : variant → Nat
  | .str _ => 0
  | .strview _ => 0
  | .int8 v => encodeInt 1 v
  | .uint8 v => v
  | .int16 v => encodeInt 2 v
  | .uint16 v => v
  | .int32 v => encodeInt 4 v
  | .uint32 v => v
  | .int64 v => encodeInt 8 v
  | .uint64 v => v
  | .bool v => if v then 1 else 0
  | .float b => b
  | .double b => b

/-- The value lies in the range of its C++ type. -/
def variant.inRange : variant → Prop
  | .str v => v.length < 2 ^ 64
  | .strview v => v.length < 2 ^ 64
  | .int8 v => -128 ≤ v ∧ v < 128
  | .uint8 v => v < 256
  | .int16 v => -32768 ≤ v ∧ v < 32768
  | .uint16 v => v < 65536
  | .int32 v => -2147483648 ≤ v ∧ v < 2147483648
  | .uint32 v => v < 4294967296
  | .int64 v => -9223372036854775808 ≤ v ∧ v < 9223372036854775808
  | .uint64 v => v < 18446744073709551616
  | .bool _ => True
  | .float b => b < 4294967296
  | .double b => b < 18446744073709551616

instance variant.decidableInRange (v : variant) : Decidable v.inRange := by
  cases v <;> unfold variant.inRange <;> infer_instance

/-- Little-endian bytes of the low `w` bytes of `n`. -/
def toLE : Nat → Nat → List Byte
  | 0, _ => []
  | w + 1, n => ⟨n % 256, Nat.mod_lt n (by decide)⟩ :: toLE w (n / 256)

/-- The number whose little-endian bytes are given. -/
def fromLE : List Byte → Nat
  | [] => 0
  | b :: bs => b.val + 256 * fromLE bs

/-- Byte-wise `memcpy(dst + off, src, src.size)` into the reserved region `dst`. -/
def memcpy (dst : List Byte) (off : Nat) : List Byte → List Byte
  | [] => dst
  | b :: bs => memcpy (dst.set off b) (off + 1) bs

/-- The `n` bytes found at `src + off`. -/
def readBytes (src : List Byte) (off n : Nat) : List Byte :=
  (List.range n).map (fun i => src.getD (off + i) 0)

/-- The state of a `wmemory_t`: reserved storage, `m_size` (capacity) and `m_lens`
(cursor). -/
structure wmemory_t where
  buffer : List Byte
  m_size : Nat
  m_lens : Nat
  deriving DecidableEq, Repr

namespace wmemory_t

/-- Constructor `wmemory_t(const std::nullptr_t &)`. -/
def ctor_nullptr : wmemory_t :=
  { buffer := [], m_size := 0, m_lens := 0 }

/-- Constructor `wmemory_t(const uintmax_t &size)`. -/
def ctor_size (size : Nat) : Except Error wmemory_t :=
  if size ≤ 0 then .error .invalid_argument
  else .ok { buffer := List.replicate size 0, m_size := size, m_lens := 0 }

/-- Constructor `wmemory_t(const std::vector<uint8_t> &con)`: reserves `con.size()`
bytes and zero-fills them; `con`'s elements are not read. -/
def ctor_vector (con : List Byte) : Except Error wmemory_t :=
  .ok { buffer := List.replicate con.length 0, m_size := con.length, m_lens := 0 }

/-- Constructor `wmemory_t(uint8_t *data, const uintmax_t &size)`; `none` is the null
pointer, `some d` points at the bytes `d`. -/
def ctor_data (data : Option (List Byte)) (size : Nat) : Except Error wmemory_t :=
  match data with
  | some d =>
    if size ≥ 1 then
      .ok { buffer := readBytes d 0 size, m_size := size, m_lens := 0 }
    else .error .invalid_argument
  | none => .error .invalid_argument

/-- Method `cleanup()`: `buffer.clear()` leaves the reserved region in place. -/
def cleanup (s : wmemory_t) : wmemory_t :=
  if s.buffer ≠ [] then { s with m_lens := 0, m_size := 0 } else s

/-- Method `is_enough(size)`: `m_lens + size <= m_size` in `uintmax_t` arithmetic. -/
def is_enough (s : wmemory_t) (size : Nat) : Bool :=
  decide ((s.m_lens + size) % 2 ^ 64 ≤ s.m_size)

/-- Method `skip(size)`. -/
def skip (s : wmemory_t) (size : Nat) : wmemory_t :=
  if size ≤ 0 then s else { s with m_lens := (s.m_lens + size) % 2 ^ 64 }

/-- The private template `insert<_typename>(value)`. -/
def insert (value : variant) (s : wmemory_t) : Except Error wmemory_t :=
  match value with
  | .str str =>
    if (s.m_lens + str.length) % 2 ^ 64 > s.m_size then .error .runtime_error
    else
      let lens := str.length
      let b1 := memcpy s.buffer s.m_lens (toLE 8 lens)
      let l1 := (s.m_lens + 8) % 2 ^ 64
      let b2 := memcpy b1 l1 str
      .ok { s with buffer := b2, m_lens := (l1 + lens) % 2 ^ 64 }
  | .strview str =>
    if (s.m_lens + str.length) % 2 ^ 64 > s.m_size then .error .runtime_error
    else
      let lens := str.length
      let b1 := memcpy s.buffer s.m_lens (toLE 8 lens)
      let l1 := (s.m_lens + 8) % 2 ^ 64
      let b2 := memcpy b1 l1 str
      .ok { s with buffer := b2, m_lens := (l1 + lens) % 2 ^ 64 }
  | object =>
    if (s.m_lens + object.index.sizeof) % 2 ^ 64 > s.m_size then .error .runtime_error
    else
      .ok { s with
        buffer := memcpy s.buffer s.m_lens (toLE object.index.sizeof object.bits)
        m_lens := (s.m_lens + object.index.sizeof) % 2 ^ 64 }

/-- Method `setBytes(const char &)`. -/
def setBytes (value : Int) (s : wmemory_t) : Except Error wmemory_t := insert (.int8 value) s
/-- Method `setShort(const short &)`. -/
def setShort (value : Int) (s : wmemory_t) : Except Error wmemory_t := insert (.int16 value) s
/-- Method `setInt(const int &)`. -/
def setInt (value : Int) (s : wmemory_t) : Except Error wmemory_t := insert (.int32 value) s
/-- Method `setLong(const long long &)`. -/
def setLong (value : Int) (s : wmemory_t) : Except Error wmemory_t := insert (.int64 value) s
/-- Method `setFloat(const float &)`. -/
def setFloat (value : Nat) (s : wmemory_t) : Except Error wmemory_t := insert (.float value) s
/-- Method `setDouble(const double &)`. -/
def setDouble (value : Nat) (s : wmemory_t) : Except Error wmemory_t := insert (.double value) s
/-- Method `setUBytes(const uint8_t &)`. -/
def setUBytes (value : Nat) (s : wmemory_t) : Except Error wmemory_t := insert (.uint8 value) s
/-- Method `setUShort(const uint16_t &)`. -/
def setUShort (value : Nat) (s : wmemory_t) : Except Error wmemory_t := insert (.uint16 value) s
/-- Method `setUInt(const uint32_t &)`. -/
def setUInt (value : Nat) (s : wmemory_t) : Except Error wmemory_t := insert (.uint32 value) s
/-- Method `setULong(const uint64_t &)`. -/
def setULong (value : Nat) (s : wmemory_t) : Except Error wmemory_t := insert (.uint64 value) s
/-- Method `setString(const std::string_view &)`: the argument converts to the
`std::string_view` alternative. -/
def setString (value : List Byte) (s : wmemory_t) : Except Error wmemory_t :=
  insert (.strview value) s
/-- Method `setStringView(const std::string_view &)`. -/
def setStringView (value : List Byte) (s : wmemory_t) : Except Error wmemory_t :=
  insert (.strview value) s
/-- Method `setBool(const bool &)`. -/
def setBool (value : Bool) (s : wmemory_t) : Except Error wmemory_t := insert (.bool value) s

/-- The number read by `*(T *) &buffer.data()[m_lens]` for a `w`-byte `T`. -/
def load (s : wmemory_t) (w : Nat) : Nat :=
  fromLE (readBytes s.buffer s.m_lens w)

/-- The state after `m_lens += w`. -/
def advance (s : wmemory_t) (w : Nat) : wmemory_t :=
  { s with m_lens := (s.m_lens + w) % 2 ^ 64 }

/-- Method `get_string()`: what the call returns and the state it leaves.  The
construction `std::string(ptr, size)` is taken to succeed, as it does for a `size`
that is the length of a string held in the storage; for a decoded `size` that
`std::string` cannot hold the constructor throws inside this `noexcept` method and the
program ends, and nothing is stated below about `get_string` on such a prefix. -/
def get_string (s : wmemory_t) : List Byte × wmemory_t :=
  if s.m_size ≠ 0 then
    let size := load s 8
    let s1 := advance s 8
    (readBytes s1.buffer s1.m_lens size, advance s1 size)
  else ([], s)

/-- Method `get_string_view()`. -/
def get_string_view (s : wmemory_t) : List Byte × wmemory_t :=
  if s.m_size ≠ 0 then
    let size := load s 8
    let s1 := advance s 8
    (readBytes s1.buffer s1.m_lens size, advance s1 size)
  else ([], s)

/-- Method `get_bytes()`. -/
def get_bytes (s : wmemory_t) : Int × wmemory_t :=
  if s.m_size ≠ 0 then (toSigned 1 (load s 1), advance s 1) else (-1, s)

/-- Method `get_short()`. -/
def get_short (s : wmemory_t) : Int × wmemory_t :=
  if s.m_size ≠ 0 then (toSigned 2 (load s 2), advance s 2) else (-1, s)

/-- Method `get_int()`. -/
def get_int (s : wmemory_t) : Int × wmemory_t :=
  if s.m_size ≠ 0 then (toSigned 4 (load s 4), advance s 4) else (-1, s)

/-- Method `get_long()`, with `sizeof(long) = 4`. -/
def get_long (s : wmemory_t) : Int × wmemory_t :=
  if s.m_size ≠ 0 then (toSigned 4 (load s 4), advance s 4) else (-1, s)

/-- Method `get_llong()`. -/
def get_llong (s : wmemory_t) : Int × wmemory_t :=
  if s.m_size ≠ 0 then (toSigned 8 (load s 8), advance s 8) else (-1, s)

/-- Method `get_ushort()`: `return -1` converts to `uint16_t`. -/
def get_ushort (s : wmemory_t) : Nat × wmemory_t :=
  if s.m_size ≠ 0 then (load s 2, advance s 2) else (((-1 : Int) % 2 ^ 16).toNat, s)

/-- Method `get_uint()`: `return -1` converts to `uint32_t`. -/
def get_uint (s : wmemory_t) : Nat × wmemory_t :=
  if s.m_size ≠ 0 then (load s 4, advance s 4) else (((-1 : Int) % 2 ^ 32).toNat, s)

/-- Method `get_uint64()`: `return -1` converts to `uint64_t`. -/
def get_uint64 (s : wmemory_t) : Nat × wmemory_t :=
  if s.m_size ≠ 0 then (load s 8, advance s 8) else (((-1 : Int) % 2 ^ 64).toNat, s)

/-- Method `get_bool()`: a stored byte other than `0` reads as `true`. -/
def get_bool (s : wmemory_t) : Bool × wmemory_t :=
  if s.m_size ≠ 0 then (decide (load s 1 ≠ 0), advance s 1) else (false, s)

/-- Method `get_float()`; the result is the bit pattern, `0.0f` is pattern `0`. -/
def get_float (s : wmemory_t) : Nat × wmemory_t :=
  if s.m_size ≠ 0 then (load s 4, advance s 4) else (0, s)

/-- Method `get_double()`; the result is the bit pattern, `0.0` is pattern `0`. -/
def get_double (s : wmemory_t) : Nat × wmemory_t :=
  if s.m_size ≠ 0 then (load s 8, advance s 8) else (0, s)

/-- Accessor `data()`. -/
def data (s : wmemory_t) : Option (List Byte) :=
  if s.buffer = [] then none else some s.buffer

/-- Accessor `size()`. -/
def size (s : wmemory_t) : Nat := s.m_size

/-- Accessor `lens()`. -/
def lens (s : wmemory_t) : Nat := s.m_lens


/-- The public getter whose return type is the alternative `T`, with its result wrapped
in that alternative; `uint8_t` has a setter but no public getter.  The private template
`get<_typename>()` is not embedded: no member calls it, and its body assigns a string
to `value` under a plain `if`, so it is well-formed for the two string types only. -/
def getter : support_t → Option (wmemory_t → variant × wmemory_t)
  | .variant_str => some (fun s => (.str (get_string s).1, (get_string s).2))
  | .variant_strview => some (fun s => (.strview (get_string_view s).1, (get_string_view s).2))
  | .variant_int8 => some (fun s => (.int8 (get_bytes s).1, (get_bytes s).2))
  | .variant_uint8 => none
  | .variant_int16 => some (fun s => (.int16 (get_short s).1, (get_short s).2))
  | .variant_uint16 => some (fun s => (.uint16 (get_ushort s).1, (get_ushort s).2))
  | .variant_int32 => some (fun s => (.int32 (get_int s).1, (get_int s).2))
  | .variant_uint32 => some (fun s => (.uint32 (get_uint s).1, (get_uint s).2))
  | .variant_int64 => some (fun s => (.int64 (get_llong s).1, (get_llong s).2))
  | .variant_uint64 => some (fun s => (.uint64 (get_uint64 s).1, (get_uint64 s).2))
  | .variant_bool => some (fun s => (.bool (get_bool s).1, (get_bool s).2))
  | .variant_float => some (fun s => (.float (get_float s).1, (get_float s).2))
  | .variant_double => some (fun s => (.double (get_double s).1, (get_double s).2))

/-- The public setter taking the type of `value`; a `std::string` argument of `setString`
converts to `std::string_view`. -/
def put (value : variant) (s : wmemory_t) : Except Error wmemory_t :=
  match value with
  | .str v => setString v s
  | .strview v => setStringView v s
  | .int8 v => setBytes v s
  | .uint8 v => setUBytes v s
  | .int16 v => setShort v s
  | .uint16 v => setUShort v s
  | .int32 v => setInt v s
  | .uint32 v => setUInt v s
  | .int64 v => setLong v s
  | .uint64 v => setULong v s
  | .bool v => setBool v s
  | .float v => setFloat v s
  | .double v => setDouble v s

/-- A run of setter calls; the first throw ends the run. -/
def puts : List variant → wmemory_t → Except Error wmemory_t
  | [], s => .ok s
  | v :: vs, s =>
    match put v s with
    | .ok s1 => puts vs s1
    | .error e => .error e

/-- Bytes a run of fixed-width setter calls writes. -/
def totalSize : List variant → Nat
  | [] => 0
  | v :: vs => v.index.sizeof + totalSize vs

/-- The calls of the public interface that touch the cursor. -/
inductive Op where
  | put (value : variant)
  | get_string
  | get_string_view
  | get_bytes
  | get_short
  | get_int
  | get_long
  | get_llong
  | get_ushort
  | get_uint
  | get_uint64
  | get_bool
  | get_float
  | get_double
  | skip (size : Nat)
  | cleanup
  deriving DecidableEq, Repr

/-- One call on the buffer; the value a getter returns is dropped. -/
def step (op : Op) (s : wmemory_t) : Except Error wmemory_t :=
  match op with
  | .put value => put value s
  | .get_string => .ok (get_string s).2
  | .get_string_view => .ok (get_string_view s).2
  | .get_bytes => .ok (get_bytes s).2
  | .get_short => .ok (get_short s).2
  | .get_int => .ok (get_int s).2
  | .get_long => .ok (get_long s).2
  | .get_llong => .ok (get_llong s).2
  | .get_ushort => .ok (get_ushort s).2
  | .get_uint => .ok (get_uint s).2
  | .get_uint64 => .ok (get_uint64 s).2
  | .get_bool => .ok (get_bool s).2
  | .get_float => .ok (get_float s).2
  | .get_double => .ok (get_double s).2
  | .skip size => .ok (skip s size)
  | .cleanup => .ok (cleanup s)

/-- The number of bytes a call steps over in state `s`: what a setter writes, what a
getter on a non-empty buffer reads, what `skip` is asked to skip. -/
def Op.span (op : Op) (s : wmemory_t) : Nat :=
  match op with
  | .put (.str v) => 8 + v.length
  | .put (.strview v) => 8 + v.length
  | .put value => value.index.sizeof
  | .get_string => if s.m_size ≠ 0 then 8 + load s 8 else 0
  | .get_string_view => if s.m_size ≠ 0 then 8 + load s 8 else 0
  | .get_bytes => if s.m_size ≠ 0 then 1 else 0
  | .get_short => if s.m_size ≠ 0 then 2 else 0
  | .get_int => if s.m_size ≠ 0 then 4 else 0
  | .get_long => if s.m_size ≠ 0 then 4 else 0
  | .get_llong => if s.m_size ≠ 0 then 8 else 0
  | .get_ushort => if s.m_size ≠ 0 then 2 else 0
  | .get_uint => if s.m_size ≠ 0 then 4 else 0
  | .get_uint64 => if s.m_size ≠ 0 then 8 else 0
  | .get_bool => if s.m_size ≠ 0 then 1 else 0
  | .get_float => if s.m_size ≠ 0 then 4 else 0
  | .get_double => if s.m_size ≠ 0 then 8 else 0
  | .skip size => size
  | .cleanup => 0

/-- Representation invariant of the embedding: the reserved region covers the capacity
and both counters fit `uintmax_t`. -/
def wf (s : wmemory_t) : Prop :=
  s.m_size ≤ s.buffer.length ∧ s.m_size < 2 ^ 64 ∧ s.m_lens < 2 ^ 64

/-- The data-model invariant `0 ≤ cursor ≤ capacity`. -/
def inv (s : wmemory_t) : Prop := s.m_lens ≤ s.m_size

instance decidableInv (s : wmemory_t) : Decidable (inv s) := by
  unfold inv; infer_instance

end wmemory_t

/-! ## The arena allocator (`alloc_`, `free_`)

Conventions of the embedding.

* A pointer into `heap` is its offset from the start of `heap`; the null pointer is
  `none`.  `heap` is declared `alignas(ALIGNMENT)`, so an offset is a multiple of 8
  exactly when the address is.
* `BlockHeader` is `size_t size; bool is_free; BlockHeader *next;` on the 64-bit
  target: 24 bytes.
* The chain of headers reached from `free_list` through `next` is kept as a list in
  chain order: the `next` of a header is the element after it, `nullptr` after the
  last one.  `free_list` itself is never reassigned, it points at `heap`.
* `free_` is modelled for a null pointer and for a pointer that is the payload address
  of a header of the chain; for another pointer the write to `is_free` lands outside
  the headers of the chain and only the coalescing walk is modelled.
-/

/-- The constant `HEAP_SIZE`. -/
def HEAP_SIZE : Nat := 1024 * 1024

/-- The constant `ALIGNMENT`. -/
def ALIGNMENT : Nat := 8

/-- The value of `sizeof(BlockHeader)`. -/
def sizeof_BlockHeader : Nat := 24

/-- Function `align(size)`: `(size + (ALIGNMENT - 1)) & ~(ALIGNMENT - 1)` in `size_t`. -/
def align (size : Nat) : Nat :=
  ((size + (ALIGNMENT - 1)) % 2 ^ 64) &&& (2 ^ 64 - 1 - (ALIGNMENT - 1))

/-- A `BlockHeader` of the chain: the offset `addr` of the header in `heap`, and its
fields `size` and `is_free`; `next` is the following element of the list. -/
structure BlockHeader where
  addr : Nat
  size : Nat
  is_free : Bool
  deriving DecidableEq, Repr

/-- The allocator state: the flag `static bool initialized` of `alloc_` and the chain of
headers that starts at `free_list`. -/
structure Arena where
  initialized : Bool
  free_list : List BlockHeader
  deriving DecidableEq, Repr

/-- The arena before the first call: zero-initialised static storage, so the header
at `heap` reads `size = 0`, `is_free = false`, `next = nullptr`. -/
def Arena.fresh : Arena :=
  { initialized := false, free_list := [{ addr := 0, size := 0, is_free := false }] }

/-- Function `initialize()`: one free block spanning the arena after its header. -/
def initialize_ : List BlockHeader :=
  [{ addr := 0, size := HEAP_SIZE - sizeof_BlockHeader, is_free := true }]

/-- The first statement of `alloc_`: `if (!initialized) { initialize(); initialized = true; }`. -/
def lazy_init (st : Arena) : Arena :=
  if st.initialized then st else { initialized := true, free_list := initialize_ }

/-- The `while` loop of `alloc_` for an already aligned `size`: the returned pointer and
the chain after the call, or `none` when the loop runs off the end. -/
def alloc_loop (size : Nat) : List BlockHeader → Option (Nat × List BlockHeader)
  | [] => none
  | current :: rest =>
    if current.is_free = true ∧ current.size ≥ size then
      if current.size ≥ (size + sizeof_BlockHeader + ALIGNMENT) % 2 ^ 64 then
        let new_block : BlockHeader :=
          { addr := current.addr + sizeof_BlockHeader + size
            size := (current.size - size + 2 ^ 64 - sizeof_BlockHeader) % 2 ^ 64
            is_free := true }
        some (current.addr + sizeof_BlockHeader,
          { current with size := size, is_free := false } :: new_block :: rest)
      else
        some (current.addr + sizeof_BlockHeader, { current with is_free := false } :: rest)
    else
      match alloc_loop size rest with
      | some (p, rest1) => some (p, current :: rest1)
      | none => none

/-- Function `alloc_(size)`: the returned pointer and the state after the call. -/
def alloc_ (size : Nat) (st : Arena) : Option Nat × Arena :=
  let st1 := lazy_init st
  if size = 0 then (none, st1)
  else
    match alloc_loop (align size) st1.free_list with
    | some (p, chain) => (some p, { st1 with free_list := chain })
    | none => (none, st1)

/-- The write `block->is_free = true` for the header at offset `block`. -/
def mark_free (block : Nat) (chain : List BlockHeader) : List BlockHeader :=
  chain.map (fun b => if b.addr = block then { b with is_free := true } else b)

/-- The coalescing `while` loop of `free_`, at `current` with the rest of the chain
after it: a free `next` is folded into `current` and `current` stays, otherwise the
walk moves on to `next`. -/
def coalesce : BlockHeader → List BlockHeader → List BlockHeader
  | current, [] => [current]
  | current, next :: rest =>
    if next.is_free = true then
      coalesce
        { current with
          size := (current.size + (next.size + sizeof_BlockHeader) % 2 ^ 64) % 2 ^ 64 }
        rest
    else current :: coalesce next rest

/-- Function `free_(ptr)`. -/
def free_ (ptr : Option Nat) (st : Arena) : Arena :=
  match ptr with
  | none => st
  | some p =>
    let chain :=
      if sizeof_BlockHeader ≤ p then mark_free (p - sizeof_BlockHeader) st.free_list
      else st.free_list
    match chain with
    | [] => { st with free_list := [] }
    | current :: rest => { st with free_list := coalesce current rest }

/-- The states reachable from the arena before the first call by `alloc_` calls (any
`size_t` argument) and `free_` calls on live handles, together with the live handles:
the pointers returned by `alloc_` and not yet passed to `free_`. -/
inductive Reachable : Arena → List Nat → Prop where
  | fresh : Reachable Arena.fresh []
  | alloc (st : Arena) (live : List Nat) (size : Nat) :
      Reachable st live → size < 2 ^ 64 →
      Reachable (alloc_ size st).2
        (match (alloc_ size st).1 with
          | some h => h :: live
          | none => live)
  | free (st : Arena) (live : List Nat) (h : Nat) :
      Reachable st live → h ∈ live →
      Reachable (free_ (some h) st) (live.erase h)

/-- Bytes covered by a chain: each block's header and payload. -/
def span : List BlockHeader → Nat
  | [] => 0
  | b :: rest => sizeof_BlockHeader + b.size + span rest

/-- Each header of the chain sits where its predecessor's payload ends; the first one
sits at `start`. -/
def Chain : Nat → List BlockHeader → Prop
  | _, [] => True
  | start, b :: rest => b.addr = start ∧ Chain (start + sizeof_BlockHeader + b.size) rest

/-- The chain tiles the arena: it starts at offset 0, is contiguous and ends at
`HEAP_SIZE`. -/
def Tiles (chain : List BlockHeader) : Prop :=
  chain ≠ [] ∧ Chain 0 chain ∧ span chain = HEAP_SIZE

/-- The invariant of an initialised arena with live handles `live`: the chain tiles the
arena, headers and sizes are multiples of 8, the allocated blocks are exactly the
blocks of the live handles, and at most one block is free. -/
structure Inv (chain : List BlockHeader) (live : List Nat) : Prop where
  tiles : Tiles chain
  aligned : ∀ b ∈ chain, 8 ∣ b.addr ∧ 8 ∣ b.size
  alloc_live : ∀ b ∈ chain, b.is_free = false ↔ b.addr + sizeof_BlockHeader ∈ live
  live_block : ∀ h ∈ live, ∃ b ∈ chain, b.addr + sizeof_BlockHeader = h
  nodup : live.Nodup
  one_free : chain.countP (fun b => b.is_free) ≤ 1

/-- The size rounded up to the next multiple of 8, as an exact natural number. -/
def roundUp8 (size : Nat) : Nat := (size + 7) / 8 * 8

/-- A run of `alloc_` calls: the returned pointers in call order and the final state. -/
def allocAll : List Nat → Arena → List (Option Nat) × Arena
  | [], st => ([], st)
  | size :: sizes, st =>
    ((alloc_ size st).1 :: (allocAll sizes (alloc_ size st).2).1,
      (allocAll sizes (alloc_ size st).2).2)

/-- A run of `free_` calls. -/
def freeAll : List Nat → Arena → Arena
  | [], st => st
  | h :: hs, st => freeAll hs (free_ (some h) st)

/-- The states reachable from the arena before the first call by `alloc_` calls with a
size between 1 and `HEAP_SIZE` and `free_` calls on live handles, together with the
live allocations: each pointer returned by `alloc_` and not yet passed to `free_`,
paired with the aligned size `align(size)` of its request. -/
inductive ReachableSized : Arena → List (Nat × Nat) → Prop where
  | fresh : ReachableSized Arena.fresh []
  | alloc (st : Arena) (live : List (Nat × Nat)) (size : Nat) :
      ReachableSized st live → 1 ≤ size → size ≤ HEAP_SIZE →
      ReachableSized (alloc_ size st).2
        (match (alloc_ size st).1 with
          | some h => (h, align size) :: live
          | none => live)
  | free (st : Arena) (live : List (Nat × Nat)) (h : Nat) :
      ReachableSized st live → h ∈ live.map Prod.fst →
      ReachableSized (free_ (some h) st) (live.filter (fun p => p.1 != h))

/-- Each live allocation is the payload of a block of the chain that is at least as
large as the aligned request, and the aligned request is not empty. -/
def Sized (chain : List BlockHeader) (live : List (Nat × Nat)) : Prop :=
  ∀ p ∈ live, 0 < p.2 ∧ ∃ b ∈ chain, b.addr + sizeof_BlockHeader = p.1 ∧ p.2 ≤ b.size

/-! ## The string helpers (`format`, `group_digit`)

A `std::string` is the list of its characters.  An argument of `format` is given as the
characters that `ss << value` writes for it.  `group_digit` is modelled for an
`IntegerType` in which `-number` does not overflow. -/

/-- The token searched for by `format_helper`: an opening brace followed by a closing
brace. -/
def placeholder : List Char := [Char.ofNat 123, Char.ofNat 125]

/-- The call `format.find(token)` for the two-character token: the index of its first
occurrence, `none` for `npos`. -/
def find : List Char → Option Nat
  | [] => none
  | [_] => none
  | c :: d :: cs =>
    if c = Char.ofNat 123 ∧ d = Char.ofNat 125 then some 0
    else (find (d :: cs)).map (fun pos => pos + 1)

/-- The function `detail::format_helper`, by recursion on the argument pack: what has
been appended to the stream when it returns, or the exception thrown. -/
def format_helper : List Char → List (List Char) → Except Error (List Char)
  | format, [] => .ok format
  | format, value :: args =>
    match find format with
    | none => .error .invalid_argument
    | some pos =>
      match format_helper (format.drop (pos + 2)) args with
      | .error e => .error e
      | .ok rest => .ok (format.take pos ++ value ++ rest)

/-- The function `format(fmt, args...)`. -/
def format (fmt : List Char) (args : List (List Char)) : Except Error (List Char) :=
  format_helper fmt args

/-- Specification side of `format`: the number of occurrences of the token in `fmt`,
scanning left to right without overlap. -/
def spec_occurrences : List Char → Nat
  | [] => 0
  | [_] => 0
  | c :: d :: cs =>
    if c = Char.ofNat 123 ∧ d = Char.ofNat 125 then 1 + spec_occurrences cs
    else spec_occurrences (d :: cs)

/-- Specification side of `format`: `spec_substituted fmt args out` says that `out` is
`fmt` with its first `args.length` occurrences of the token replaced, in order, by
`args` and everything else unchanged.  With no argument `out` is `fmt`; otherwise `fmt`
is a part `p`, the token, and a remainder, where no occurrence of the token in `fmt`
starts before the end of `p`, and `out` is `p`, the first argument, and the remainder
with the other arguments substituted. -/
inductive spec_substituted : List Char → List (List Char) → List Char → Prop where
  | done (fmt : List Char) : spec_substituted fmt [] fmt
  | step (p rest value : List Char) (args : List (List Char)) (out : List Char) :
      (∀ q r : List Char, p ++ placeholder ++ rest = q ++ placeholder ++ r →
        p.length ≤ q.length) →
      spec_substituted rest args out →
      spec_substituted (p ++ placeholder ++ rest) (value :: args) (p ++ value ++ out)

/-- The `do ... while (number > 0)` loop of `group_digit`: the characters stored in
`temp`, least significant digit first.  The bound is the capacity of `temp`. -/
def group_digit_temp : Nat → Nat → List Char
  | 0, _ => []
  | fuel + 1, number =>
    Char.ofNat (48 + number % 10) ::
      (if number / 10 > 0 then group_digit_temp fuel (number / 10) else [])

/-- The copy loop of `group_digit`, which reads `temp[len - 1 - i]` for `i = 0, 1, ...`:
the argument is `temp` from its last character down to its first, and the result is
what the loop stores in `buffer`. -/
def group_digit_copy (separator : Char) : List Char → Nat → List Char
  | [], _ => []
  | c :: cs, group_count =>
    if group_count = 3 then separator :: c :: group_digit_copy separator cs 1
    else c :: group_digit_copy separator cs (group_count + 1)

/-- The function `group_digit(number, separator)`.  The returned `std::string(buffer)`
ends before the first NUL character of `buffer`. -/
def group_digit (number : Int) (separator : Char) : String :=
  let is_negative : Bool := decide (number < 0)
  let number : Int := if is_negative then -number else number
  let temp := group_digit_temp 50 number.toNat
  let buffer := group_digit_copy separator temp.reverse 0 ++ (if is_negative then ['-'] else [])
  String.mk (buffer.reverse.takeWhile (fun c => c != Char.ofNat 0))

/-! ## Runs of setter and getter calls -/

/-- The bytes a setter call copies to the cursor: for a string the 8-byte length and
then the characters, for a fixed-width value its object representation. -/
def variant.encode : variant → List Byte
  | .str v => toLE 8 v.length ++ v
  | .strview v => toLE 8 v.length ++ v
  | object => toLE object.index.sizeof object.bits

/-- The number of bytes the setter calls of a run copy: `8 + length` for a string,
`sizeof` for a fixed-width value. -/
def wmemory_t.encodedSize : List variant → Nat
  | [] => 0
  | v :: vs => v.encode.length + wmemory_t.encodedSize vs

/-- A run of public getter calls, one per tag: the values in call order and the final
state; `none` when a tag has no public getter. -/
def wmemory_t.gets : List support_t → wmemory_t → Option (List variant × wmemory_t)
  | [], s => some ([], s)
  | T :: Ts, s =>
    match wmemory_t.getter T with
    | none => none
    | some g =>
      match wmemory_t.gets Ts (g s).2 with
      | none => none
      | some (vs, s1) => some ((g s).1 :: vs, s1)

/-! ## Byte-level lemmas -/

theorem memcpy_length (bs : List Byte) : ∀ (dst : List Byte) (off : Nat),
    (memcpy dst off bs).length = dst.length := by
  induction bs with
  | nil => intro dst off; rfl
  | cons b bs ih => intro dst off; simp [memcpy, ih]

theorem memcpy_getElem (bs : List Byte) : ∀ (dst : List Byte) (off i : Nat),
    (memcpy dst off bs)[i]? =
      if off ≤ i ∧ i < off + bs.length ∧ i < dst.length then bs[i - off]? else dst[i]? := by
  induction bs with
  | nil =>
    intro dst off i
    have h : ¬ (off ≤ i ∧ i < off + ([] : List Byte).length ∧ i < dst.length) := by
      simp only [List.length_nil]; omega
    rw [if_neg h]; rfl
  | cons b bs ih =>
    intro dst off i
    simp only [memcpy, ih, List.length_set, List.length_cons]
    by_cases h1 : off + 1 ≤ i ∧ i < off + 1 + bs.length ∧ i < dst.length
    · have h2 : off ≤ i ∧ i < off + (bs.length + 1) ∧ i < dst.length := by omega
      rw [if_pos h1, if_pos h2]
      have : i - off = (i - (off + 1)) + 1 := by omega
      rw [this, List.getElem?_cons_succ]
    · rw [if_neg h1]
      by_cases h3 : off = i
      · subst h3
        by_cases h4 : off < dst.length
        · have h2 : off ≤ off ∧ off < off + (bs.length + 1) ∧ off < dst.length := by omega
          rw [if_pos h2]
          simp [List.getElem?_set, h4]
        · have h2 : ¬ (off ≤ off ∧ off < off + (bs.length + 1) ∧ off < dst.length) := by omega
          rw [if_neg h2]
          simp [List.getElem?_set, h4]
          omega
      · have h2 : ¬ (off ≤ i ∧ i < off + (bs.length + 1) ∧ i < dst.length) := by omega
        rw [if_neg h2]
        simp [List.getElem?_set, h3]

theorem readBytes_length (src : List Byte) (off n : Nat) : (readBytes src off n).length = n := by
  simp [readBytes]

theorem readBytes_memcpy_same (dst bs : List Byte) (off : Nat)
    (h : off + bs.length ≤ dst.length) :
    readBytes (memcpy dst off bs) off bs.length = bs := by
  apply List.ext_getElem?
  intro i
  by_cases hi : i < bs.length
  · simp only [readBytes, List.getElem?_map, List.getElem?_range hi, Option.map_some',
      List.getD_eq_getElem?_getD, memcpy_getElem]
    have h2 : off ≤ off + i ∧ off + i < off + bs.length ∧ off + i < dst.length := by omega
    rw [if_pos h2]
    simp [hi]
  · rw [List.getElem?_eq_none (by simp [readBytes]; omega), List.getElem?_eq_none (by omega)]

theorem readBytes_memcpy_disjoint (dst bs : List Byte) (off p n : Nat)
    (h : p + n ≤ off ∨ off + bs.length ≤ p) :
    readBytes (memcpy dst off bs) p n = readBytes dst p n := by
  simp only [readBytes]
  apply List.map_congr_left
  intro i hi
  rw [List.mem_range] at hi
  simp only [List.getD_eq_getElem?_getD, memcpy_getElem]
  have h2 : ¬ (off ≤ p + i ∧ p + i < off + bs.length ∧ p + i < dst.length) := by omega
  rw [if_neg h2]

theorem toLE_length (w n : Nat) : (toLE w n).length = w := by
  induction w generalizing n with
  | zero => rfl
  | succ w ih => simp [toLE, ih]

theorem fromLE_toLE (w n : Nat) : fromLE (toLE w n) = n % 256 ^ w := by
  induction w generalizing n with
  | zero => simp [toLE, fromLE, Nat.mod_one]
  | succ w ih =>
    simp only [toLE, fromLE, ih]
    rw [pow_succ, Nat.mul_comm (256 ^ w) 256, Nat.mod_mul]

theorem readBytes_readBytes (src : List Byte) (m p n : Nat) (h : p + n ≤ m) :
    readBytes (readBytes src 0 m) p n = readBytes src p n := by
  simp only [readBytes]
  apply List.map_congr_left
  intro i hi
  rw [List.mem_range] at hi
  have h2 : p + i < m := by omega
  simp only [List.getD_eq_getElem?_getD, List.getElem?_map, List.getElem?_range h2,
    Option.map_some', Option.getD_some, Nat.zero_add]

theorem readBytes_self (d : List Byte) : readBytes d 0 d.length = d := by
  apply List.ext_getElem?
  intro i
  by_cases hi : i < d.length
  · simp [readBytes, List.getElem?_range hi, List.getD_eq_getElem?_getD, hi]
  · rw [List.getElem?_eq_none (by simp [readBytes]; omega), List.getElem?_eq_none (by omega)]

theorem insert_fixed (v : variant) (s : wmemory_t) (hfix : v.index.isFixed = true) :
    wmemory_t.insert v s =
      if (s.m_lens + v.index.sizeof) % 2 ^ 64 > s.m_size then .error .runtime_error
      else .ok { s with
        buffer := memcpy s.buffer s.m_lens (toLE v.index.sizeof v.bits)
        m_lens := (s.m_lens + v.index.sizeof) % 2 ^ 64 } := by
  cases v <;> first | rfl | (simp [variant.index, support_t.isFixed] at hfix)

theorem sizeof_fixed (T : support_t) (hfix : T.isFixed = true) :
    1 ≤ T.sizeof ∧ T.sizeof ≤ 8 := by
  cases T <;> simp [support_t.sizeof, support_t.isFixed] at hfix ⊢

theorem toSigned_encodeInt_1 (v : Int) (h : -128 ≤ v ∧ v < 128) :
    toSigned 1 (encodeInt 1 v % 256 ^ 1) = v := by
  have e1 : ((2 : Int) ^ (8 * 1)) = 256 := by norm_num
  have e2 : ((2 : Nat) ^ (8 * 1 - 1)) = 128 := by norm_num
  have e3 : ((256 : Nat) ^ 1) = 256 := by norm_num
  simp only [toSigned, encodeInt, e1, e2, e3]
  split_ifs <;> omega

theorem toSigned_encodeInt_2 (v : Int) (h : -32768 ≤ v ∧ v < 32768) :
    toSigned 2 (encodeInt 2 v % 256 ^ 2) = v := by
  have e1 : ((2 : Int) ^ (8 * 2)) = 65536 := by norm_num
  have e2 : ((2 : Nat) ^ (8 * 2 - 1)) = 32768 := by norm_num
  have e3 : ((256 : Nat) ^ 2) = 65536 := by norm_num
  simp only [toSigned, encodeInt, e1, e2, e3]
  split_ifs <;> omega

theorem toSigned_encodeInt_4 (v : Int) (h : -2147483648 ≤ v ∧ v < 2147483648) :
    toSigned 4 (encodeInt 4 v % 256 ^ 4) = v := by
  have e1 : ((2 : Int) ^ (8 * 4)) = 4294967296 := by norm_num
  have e2 : ((2 : Nat) ^ (8 * 4 - 1)) = 2147483648 := by norm_num
  have e3 : ((256 : Nat) ^ 4) = 4294967296 := by norm_num
  simp only [toSigned, encodeInt, e1, e2, e3]
  split_ifs <;> omega

theorem toSigned_encodeInt_8 (v : Int)
    (h : -9223372036854775808 ≤ v ∧ v < 9223372036854775808) :
    toSigned 8 (encodeInt 8 v % 256 ^ 8) = v := by
  have e1 : ((2 : Int) ^ (8 * 8)) = 18446744073709551616 := by norm_num
  have e2 : ((2 : Nat) ^ (8 * 8 - 1)) = 9223372036854775808 := by norm_num
  have e3 : ((256 : Nat) ^ 8) = 18446744073709551616 := by norm_num
  simp only [toSigned, encodeInt, e1, e2, e3]
  split_ifs <;> omega

theorem getter_of_load (v : variant) (r : wmemory_t) (hfix : v.index.isFixed = true)
    (hv : v.inRange) (hu : v.index ≠ .variant_uint8) (hne : r.m_size ≠ 0)
    (h : r.load v.index.sizeof = v.bits % 256 ^ v.index.sizeof) :
    ∃ g, wmemory_t.getter v.index = some g ∧ g r = (v, r.advance v.index.sizeof) := by
  cases v with
  | str x => simp [variant.index, support_t.isFixed] at hfix
  | strview x => simp [variant.index, support_t.isFixed] at hfix
  | uint8 x => exact absurd rfl hu
  | int8 x =>
    have h1 : r.load 1 = encodeInt 1 x % 256 ^ 1 := h
    refine ⟨_, rfl, ?_⟩
    simp only [wmemory_t.get_bytes, if_pos hne, h1, toSigned_encodeInt_1 x hv]
    rfl
  | int16 x =>
    have h1 : r.load 2 = encodeInt 2 x % 256 ^ 2 := h
    refine ⟨_, rfl, ?_⟩
    simp only [wmemory_t.get_short, if_pos hne, h1, toSigned_encodeInt_2 x hv]
    rfl
  | int32 x =>
    have h1 : r.load 4 = encodeInt 4 x % 256 ^ 4 := h
    refine ⟨_, rfl, ?_⟩
    simp only [wmemory_t.get_int, if_pos hne, h1, toSigned_encodeInt_4 x hv]
    rfl
  | int64 x =>
    have h1 : r.load 8 = encodeInt 8 x % 256 ^ 8 := h
    refine ⟨_, rfl, ?_⟩
    simp only [wmemory_t.get_llong, if_pos hne, h1, toSigned_encodeInt_8 x hv]
    rfl
  | uint16 x =>
    have h1 : r.load 2 = x % 256 ^ 2 := h
    have h2 : x < 65536 := hv
    have h3 : x % 256 ^ 2 = x := Nat.mod_eq_of_lt (by omega)
    refine ⟨_, rfl, ?_⟩
    simp only [wmemory_t.get_ushort, if_pos hne, h1, h3]
    rfl
  | uint32 x =>
    have h1 : r.load 4 = x % 256 ^ 4 := h
    have h2 : x < 4294967296 := hv
    have h3 : x % 256 ^ 4 = x := Nat.mod_eq_of_lt (by omega)
    refine ⟨_, rfl, ?_⟩
    simp only [wmemory_t.get_uint, if_pos hne, h1, h3]
    rfl
  | uint64 x =>
    have h1 : r.load 8 = x % 256 ^ 8 := h
    have h2 : x < 18446744073709551616 := hv
    have h3 : x % 256 ^ 8 = x := Nat.mod_eq_of_lt (by omega)
    refine ⟨_, rfl, ?_⟩
    simp only [wmemory_t.get_uint64, if_pos hne, h1, h3]
    rfl
  | float x =>
    have h1 : r.load 4 = x % 256 ^ 4 := h
    have h2 : x < 4294967296 := hv
    have h3 : x % 256 ^ 4 = x := Nat.mod_eq_of_lt (by omega)
    refine ⟨_, rfl, ?_⟩
    simp only [wmemory_t.get_float, if_pos hne, h1, h3]
    rfl
  | double x =>
    have h1 : r.load 8 = x % 256 ^ 8 := h
    have h2 : x < 18446744073709551616 := hv
    have h3 : x % 256 ^ 8 = x := Nat.mod_eq_of_lt (by omega)
    refine ⟨_, rfl, ?_⟩
    simp only [wmemory_t.get_double, if_pos hne, h1, h3]
    rfl
  | bool x =>
    have h1 : r.load 1 = (if x then 1 else 0) % 256 ^ 1 := h
    refine ⟨_, rfl, ?_⟩
    simp only [wmemory_t.get_bool, if_pos hne, h1]
    cases x <;> rfl

theorem skip_fresh (r : wmemory_t) (c : Nat) (h0 : r.m_lens = 0) (hc : c < 2 ^ 64) :
    r.skip c = { r with m_lens := c } := by
  unfold wmemory_t.skip
  split_ifs with h
  · have : c = 0 := by omega
    subst this
    cases r
    simp_all
  · rw [h0, Nat.zero_add, Nat.mod_eq_of_lt hc]

theorem data_of_ne_nil (s : wmemory_t) (h : 0 < s.buffer.length) : s.data = some s.buffer := by
  unfold wmemory_t.data
  rw [if_neg]
  intro e
  rw [e] at h
  exact Nat.lt_irrefl 0 h

theorem put_eq_insert (v : variant) (s : wmemory_t) :
    wmemory_t.put v s = wmemory_t.insert v s := by
  cases v <;> rfl

/-! ## The representation invariant holds in every state the interface produces -/

theorem wf_ctor :
    wmemory_t.wf wmemory_t.ctor_nullptr ∧
    (∀ n s, n < 2 ^ 64 → wmemory_t.ctor_size n = .ok s → wmemory_t.wf s) ∧
    (∀ con s, con.length < 2 ^ 64 → wmemory_t.ctor_vector con = .ok s → wmemory_t.wf s) ∧
    (∀ d n s, n < 2 ^ 64 → wmemory_t.ctor_data d n = .ok s → wmemory_t.wf s) := by
  refine ⟨⟨Nat.le_refl 0, Nat.two_pow_pos 64, Nat.two_pow_pos 64⟩, ?_, ?_, ?_⟩
  · intro n s hn h
    simp only [wmemory_t.ctor_size] at h
    split_ifs at h
    have e := Except.ok.inj h
    subst e
    exact ⟨by simp, hn, Nat.two_pow_pos 64⟩
  · intro con s hn h
    have e := Except.ok.inj h
    subst e
    exact ⟨by simp, hn, Nat.two_pow_pos 64⟩
  · intro d n s hn h
    cases d with
    | none => cases h
    | some d =>
      simp only [wmemory_t.ctor_data] at h
      split_ifs at h
      have e := Except.ok.inj h
      subst e
      exact ⟨by simp [readBytes_length], hn, Nat.two_pow_pos 64⟩

theorem wf_advance (s : wmemory_t) (w : Nat) (h : wmemory_t.wf s) :
    wmemory_t.wf (s.advance w) :=
  ⟨h.1, h.2.1, Nat.mod_lt _ (by decide)⟩

theorem wf_step (op : wmemory_t.Op) (s s1 : wmemory_t) (h : wmemory_t.wf s)
    (hstep : wmemory_t.step op s = .ok s1) : wmemory_t.wf s1 := by
  have hm : ∀ n : Nat, n % 2 ^ 64 < 2 ^ 64 := fun n => Nat.mod_lt _ (by decide)
  cases op with
  | put v =>
    simp only [wmemory_t.step, put_eq_insert] at hstep
    by_cases hfix : v.index.isFixed = true
    · rw [insert_fixed v s hfix] at hstep
      split_ifs at hstep
      have e := Except.ok.inj hstep
      subst e
      exact ⟨by simp only [memcpy_length]; exact h.1, h.2.1, hm _⟩
    · cases v with
      | str x =>
        simp only [wmemory_t.insert] at hstep
        split_ifs at hstep
        have e := Except.ok.inj hstep
        subst e
        exact ⟨by simp only [memcpy_length]; exact h.1, h.2.1, hm _⟩
      | strview x =>
        simp only [wmemory_t.insert] at hstep
        split_ifs at hstep
        have e := Except.ok.inj hstep
        subst e
        exact ⟨by simp only [memcpy_length]; exact h.1, h.2.1, hm _⟩
      | _ => exact absurd rfl hfix
  | skip n =>
    have e := Except.ok.inj hstep
    subst e
    unfold wmemory_t.skip
    split_ifs
    · exact h
    · exact ⟨h.1, h.2.1, hm _⟩
  | cleanup =>
    have e := Except.ok.inj hstep
    subst e
    unfold wmemory_t.cleanup
    split_ifs
    · exact ⟨Nat.zero_le _, Nat.two_pow_pos 64, Nat.two_pow_pos 64⟩
    · exact h
  | _ =>
    have e := Except.ok.inj hstep
    subst e
    simp only [wmemory_t.get_bytes, wmemory_t.get_short, wmemory_t.get_int,
      wmemory_t.get_long, wmemory_t.get_llong, wmemory_t.get_ushort, wmemory_t.get_uint,
      wmemory_t.get_uint64, wmemory_t.get_bool, wmemory_t.get_float, wmemory_t.get_double,
      wmemory_t.get_string, wmemory_t.get_string_view]
    split_ifs
    · first
        | exact wf_advance _ _ h
        | exact wf_advance _ _ (wf_advance _ _ h)
    · exact h

/-! ## C1: fixed-width round trip -/

/-- C1, as stated, fails: on a fresh buffer of capacity 8 (remaining capacity 8, at
least `sizeof(uint32_t)`), `setUInt(42)` succeeds and moves the cursor to 4;
`get_uint()` called next on the same buffer reads the four bytes that follow the
written value and returns 0, not 42. -/
theorem C1_counterexample :
    wmemory_t.ctor_size 8 = .ok ⟨List.replicate 8 0, 8, 0⟩ ∧
    wmemory_t.setUInt 42 ⟨List.replicate 8 0, 8, 0⟩ = .ok ⟨[42, 0, 0, 0, 0, 0, 0, 0], 8, 4⟩ ∧
    wmemory_t.get_uint ⟨[42, 0, 0, 0, 0, 0, 0, 0], 8, 4⟩
      = (0, ⟨[42, 0, 0, 0, 0, 0, 0, 0], 8, 8⟩) :=
  ⟨rfl, rfl, rfl⟩

/-- C1, amended: for every fixed-width alternative and every value `v` in the range of
its type, on a buffer with cursor `c` whose remaining capacity is at least `sizeof(T)`
the setter succeeds and moves the cursor to `c + sizeof(T)`; the buffer
`wmemory_t(data(), lens())` is constructed from the written storage without error;
and, for every alternative but `uint8_t`, the public getter of that type, called on
that buffer positioned at `c` by `skip(c)`, returns `v` and leaves the cursor at
`c + sizeof(T)`.  For `uint8_t` there is a setter and no getter.  The hypotheses `hbuf`
and `hsz` are the representation invariant `wf`, which every state produced by the
constructors and the operations satisfies. -/
theorem C1_roundtrip_through_copy (v : variant) (s : wmemory_t)
    (hfix : v.index.isFixed = true) (hv : v.inRange)
    (hcap : s.m_lens + v.index.sizeof ≤ s.m_size)
    (hbuf : s.m_size ≤ s.buffer.length) (hsz : s.m_size < 2 ^ 64) :
    ∃ s1 r, wmemory_t.put v s = .ok s1 ∧
      s1.m_lens = s.m_lens + v.index.sizeof ∧
      wmemory_t.ctor_data s1.data s1.lens = .ok r ∧
      (v.index ≠ .variant_uint8 →
        ∃ g, wmemory_t.getter v.index = some g ∧
          g (r.skip s.m_lens) = (v, { r with m_lens := s.m_lens + v.index.sizeof })) ∧
      (v.index = .variant_uint8 → wmemory_t.getter v.index = none) := by
  obtain ⟨hw1, hw8⟩ := sizeof_fixed _ hfix
  have hins := insert_fixed v s hfix
  rw [← put_eq_insert v s] at hins
  have hmod : (s.m_lens + v.index.sizeof) % 2 ^ 64 = s.m_lens + v.index.sizeof :=
    Nat.mod_eq_of_lt (by omega)
  rw [hmod, if_neg (by omega)] at hins
  have hlen : (memcpy s.buffer s.m_lens (toLE v.index.sizeof v.bits)).length
      = s.buffer.length := memcpy_length _ _ _
  have hctor : wmemory_t.ctor_data
      (wmemory_t.data { s with
        buffer := memcpy s.buffer s.m_lens (toLE v.index.sizeof v.bits)
        m_lens := s.m_lens + v.index.sizeof })
      (wmemory_t.lens { s with
        buffer := memcpy s.buffer s.m_lens (toLE v.index.sizeof v.bits)
        m_lens := s.m_lens + v.index.sizeof })
      = .ok { buffer := readBytes (memcpy s.buffer s.m_lens (toLE v.index.sizeof v.bits)) 0
                (s.m_lens + v.index.sizeof)
              m_size := s.m_lens + v.index.sizeof
              m_lens := 0 } := by
    rw [data_of_ne_nil _ (by rw [hlen]; omega)]
    simp only [wmemory_t.ctor_data, wmemory_t.lens]
    rw [if_pos (by omega)]
  refine ⟨_, _, hins, rfl, hctor, ?_, ?_⟩
  · intro hu
    rw [skip_fresh _ _ rfl (by omega)]
    have hload : wmemory_t.load
        { buffer := readBytes (memcpy s.buffer s.m_lens (toLE v.index.sizeof v.bits)) 0
                  (s.m_lens + v.index.sizeof)
          m_size := s.m_lens + v.index.sizeof
          m_lens := s.m_lens } v.index.sizeof = v.bits % 256 ^ v.index.sizeof := by
      simp only [wmemory_t.load]
      rw [readBytes_readBytes _ _ _ _ (Nat.le_refl _)]
      have h2 := readBytes_memcpy_same s.buffer (toLE v.index.sizeof v.bits) s.m_lens
        (by rw [toLE_length]; omega)
      rw [toLE_length] at h2
      rw [h2, fromLE_toLE]
    obtain ⟨g, hg, hgr⟩ := getter_of_load v _ hfix hv hu (by simp only; omega) hload
    refine ⟨g, hg, ?_⟩
    rw [hgr]
    simp only [wmemory_t.advance]
    rw [hmod]
  · intro hu
    rw [hu]
    rfl

/-- C1 witness: `int` value -5 written at cursor 3 of a 16-byte buffer. -/
theorem C1_roundtrip_through_copy_witness :
    (variant.int32 (-5)).index.isFixed = true ∧ (variant.int32 (-5)).inRange ∧
    ∃ s1 r, wmemory_t.put (.int32 (-5)) ⟨List.replicate 16 0, 16, 3⟩ = .ok s1 ∧
      s1.m_lens = 3 + 4 ∧
      wmemory_t.ctor_data s1.data s1.lens = .ok r ∧
      (variant.index (.int32 (-5)) ≠ .variant_uint8 →
        ∃ g, wmemory_t.getter .variant_int32 = some g ∧
          g (r.skip 3) = (.int32 (-5), { r with m_lens := 3 + 4 })) ∧
      (variant.index (.int32 (-5)) = .variant_uint8 →
        wmemory_t.getter .variant_int32 = none) :=
  ⟨rfl, by decide,
    C1_roundtrip_through_copy (.int32 (-5)) ⟨List.replicate 16 0, 16, 3⟩ rfl (by decide)
      (by decide) (by decide) (by decide)⟩

/-! ## C2: string round trip -/

theorem insert_strview_ok (str : List Byte) (s : wmemory_t)
    (hcap : s.m_lens + 8 + str.length ≤ s.m_size) (hsz : s.m_size < 2 ^ 64) :
    wmemory_t.insert (.strview str) s = .ok { s with
      buffer := memcpy (memcpy s.buffer s.m_lens (toLE 8 str.length)) (s.m_lens + 8) str
      m_lens := s.m_lens + 8 + str.length } := by
  have h1 : (s.m_lens + str.length) % 2 ^ 64 = s.m_lens + str.length :=
    Nat.mod_eq_of_lt (by omega)
  have h2 : (s.m_lens + 8) % 2 ^ 64 = s.m_lens + 8 := Nat.mod_eq_of_lt (by omega)
  have h3 : (s.m_lens + 8 + str.length) % 2 ^ 64 = s.m_lens + 8 + str.length :=
    Nat.mod_eq_of_lt (by omega)
  simp only [wmemory_t.insert, h1, h2, h3]
  rw [if_neg (by omega)]

theorem get_string_at (buf str : List Byte) (c m : Nat)
    (hlen : str.length < 2 ^ 64) (hc : c + 8 < 2 ^ 64) (hm : m ≠ 0)
    (hpre : readBytes buf c 8 = toLE 8 str.length)
    (hpay : readBytes buf (c + 8) str.length = str) :
    wmemory_t.get_string ⟨buf, m, c⟩ = (str, ⟨buf, m, (c + 8 + str.length) % 2 ^ 64⟩) := by
  have h2 : (c + 8) % 2 ^ 64 = c + 8 := Nat.mod_eq_of_lt hc
  have h256 : (256 : Nat) ^ 8 = 2 ^ 64 := by norm_num
  have hl : fromLE (readBytes buf c 8) = str.length := by
    rw [hpre, fromLE_toLE, h256, Nat.mod_eq_of_lt hlen]
  simp only [wmemory_t.get_string, wmemory_t.load, wmemory_t.advance, hl, h2, hpay]
  rw [if_pos hm]

/-- C2, as stated, fails: on a fresh buffer of capacity 32, `setString("h")` succeeds and
moves the cursor to 9; `get_string()` called on that buffer decodes the eight zero
bytes after the cursor as length 0 and returns the empty string, of length 0, not 1. -/
theorem C2_counterexample :
    wmemory_t.setString [104] ⟨List.replicate 32 0, 32, 0⟩
      = .ok ⟨[1, 0, 0, 0, 0, 0, 0, 0, 104] ++ List.replicate 23 0, 32, 9⟩ ∧
    wmemory_t.get_string ⟨[1, 0, 0, 0, 0, 0, 0, 0, 104] ++ List.replicate 23 0, 32, 9⟩
      = ([], ⟨[1, 0, 0, 0, 0, 0, 0, 0, 104] ++ List.replicate 23 0, 32, 17⟩) :=
  ⟨by rfl, by rfl⟩

/-- C2, amended: for every byte string `str` of any length `L` (0, 1 and 4096 included)
and every buffer with cursor `c` and at least `8 + L` bytes of remaining capacity,
`setString` succeeds and moves the cursor to `c + 8 + L`; `get_string` on the buffer
constructed from the written bytes, `wmemory_t(data(), lens())`, positioned at `c` by
`skip(c)`, yields `str` itself, hence a string of length `L` with the same bytes, and
leaves that buffer's cursor at `c + 8 + L`.  The hypotheses `hbuf` and `hsz` are the
representation invariant `wf`. -/
theorem C2_string_roundtrip (str : List Byte) (s : wmemory_t)
    (hcap : s.m_lens + 8 + str.length ≤ s.m_size)
    (hbuf : s.m_size ≤ s.buffer.length) (hsz : s.m_size < 2 ^ 64) :
    ∃ s1 r, wmemory_t.setString str s = .ok s1 ∧
      s1.m_lens = s.m_lens + 8 + str.length ∧
      wmemory_t.ctor_data s1.data s1.lens = .ok r ∧
      (wmemory_t.get_string (r.skip s.m_lens)).1 = str ∧
      (wmemory_t.get_string (r.skip s.m_lens)).1.length = str.length ∧
      (wmemory_t.get_string (r.skip s.m_lens)).2.m_lens = s.m_lens + 8 + str.length := by
  have hins := insert_strview_ok str s hcap hsz
  have hl1 : (memcpy s.buffer s.m_lens (toLE 8 str.length)).length = s.buffer.length :=
    memcpy_length _ _ _
  have hl2 : (memcpy (memcpy s.buffer s.m_lens (toLE 8 str.length)) (s.m_lens + 8) str).length
      = s.buffer.length := by rw [memcpy_length, hl1]
  have hctor : wmemory_t.ctor_data
      (wmemory_t.data { s with
        buffer := memcpy (memcpy s.buffer s.m_lens (toLE 8 str.length)) (s.m_lens + 8) str
        m_lens := s.m_lens + 8 + str.length })
      (wmemory_t.lens { s with
        buffer := memcpy (memcpy s.buffer s.m_lens (toLE 8 str.length)) (s.m_lens + 8) str
        m_lens := s.m_lens + 8 + str.length })
      = .ok { buffer := readBytes
                (memcpy (memcpy s.buffer s.m_lens (toLE 8 str.length)) (s.m_lens + 8) str) 0
                (s.m_lens + 8 + str.length)
              m_size := s.m_lens + 8 + str.length
              m_lens := 0 } := by
    rw [data_of_ne_nil _ (by rw [hl2]; omega)]
    simp only [wmemory_t.ctor_data, wmemory_t.lens]
    rw [if_pos (by omega)]
  have hpre : readBytes (readBytes
      (memcpy (memcpy s.buffer s.m_lens (toLE 8 str.length)) (s.m_lens + 8) str) 0
      (s.m_lens + 8 + str.length)) s.m_lens 8 = toLE 8 str.length := by
    rw [readBytes_readBytes _ _ _ _ (by omega),
      readBytes_memcpy_disjoint _ _ _ _ _ (Or.inl (Nat.le_refl _))]
    have h := readBytes_memcpy_same s.buffer (toLE 8 str.length) s.m_lens
      (by rw [toLE_length]; omega)
    rw [toLE_length] at h
    exact h
  have hpay : readBytes (readBytes
      (memcpy (memcpy s.buffer s.m_lens (toLE 8 str.length)) (s.m_lens + 8) str) 0
      (s.m_lens + 8 + str.length)) (s.m_lens + 8) str.length = str := by
    rw [readBytes_readBytes _ _ _ _ (Nat.le_refl _)]
    exact readBytes_memcpy_same _ str (s.m_lens + 8) (by rw [hl1]; omega)
  have hget := get_string_at _ str s.m_lens (s.m_lens + 8 + str.length)
    (by omega) (by omega) (by omega) hpre hpay
  refine ⟨_, _, hins, rfl, hctor, ?_⟩
  rw [skip_fresh _ _ rfl (by omega), hget]
  exact ⟨rfl, rfl, Nat.mod_eq_of_lt (by omega)⟩

/-- C2 witness: the one-byte string "h" written at the start of a 16-byte buffer. -/
theorem C2_string_roundtrip_witness :
    ∃ s1 r, wmemory_t.setString [104] ⟨List.replicate 16 0, 16, 0⟩ = .ok s1 ∧
      s1.m_lens = 0 + 8 + 1 ∧
      wmemory_t.ctor_data s1.data s1.lens = .ok r ∧
      (wmemory_t.get_string (r.skip 0)).1 = [104] ∧
      (wmemory_t.get_string (r.skip 0)).1.length = 1 ∧
      (wmemory_t.get_string (r.skip 0)).2.m_lens = 0 + 8 + 1 :=
  C2_string_roundtrip [104] ⟨List.replicate 16 0, 16, 0⟩ (by decide) (by decide) (by decide)
theorem put_fixed_cases (v : variant) (s : wmemory_t) (hfix : v.index.isFixed = true)
    (hwrap : s.m_lens + v.index.sizeof < 2 ^ 64) :
    wmemory_t.put v s =
      if s.m_lens + v.index.sizeof > s.m_size then .error .runtime_error
      else .ok { s with
        buffer := memcpy s.buffer s.m_lens (toLE v.index.sizeof v.bits)
        m_lens := s.m_lens + v.index.sizeof } := by
  rw [put_eq_insert, insert_fixed v s hfix, Nat.mod_eq_of_lt hwrap]

theorem puts_append (vs ws : List variant) : ∀ s : wmemory_t,
    wmemory_t.puts (vs ++ ws) s =
      match wmemory_t.puts vs s with
      | .ok s1 => wmemory_t.puts ws s1
      | .error e => .error e := by
  induction vs with
  | nil => intro s; rfl
  | cons v vs ih =>
    intro s
    simp only [List.cons_append, wmemory_t.puts]
    cases wmemory_t.put v s with
    | ok s1 => exact ih s1
    | error e => rfl

theorem puts_fixed_ok (vs : List variant) : ∀ s : wmemory_t,
    (∀ x ∈ vs, x.index.isFixed = true) →
    s.m_lens + wmemory_t.totalSize vs ≤ s.m_size →
    s.m_lens + wmemory_t.totalSize vs < 2 ^ 64 →
    ∃ s1, wmemory_t.puts vs s = .ok s1 ∧ s1.m_lens = s.m_lens + wmemory_t.totalSize vs ∧
      s1.m_size = s.m_size ∧ s1.buffer.length = s.buffer.length := by
  induction vs with
  | nil => intro s _ _ _; exact ⟨s, rfl, rfl, rfl, rfl⟩
  | cons v vs ih =>
    intro s hfix hcap hwrap
    simp only [wmemory_t.totalSize] at hcap hwrap
    have hv := hfix v (List.mem_cons_self v vs)
    have hput := put_fixed_cases v s hv (by omega)
    rw [if_neg (by omega)] at hput
    obtain ⟨s1, h1, h2, h3, h4⟩ := ih
      { s with
        buffer := memcpy s.buffer s.m_lens (toLE v.index.sizeof v.bits)
        m_lens := s.m_lens + v.index.sizeof }
      (fun x hx => hfix x (List.mem_cons_of_mem v hx))
      (by show s.m_lens + v.index.sizeof + wmemory_t.totalSize vs ≤ s.m_size; omega)
      (by show s.m_lens + v.index.sizeof + wmemory_t.totalSize vs < 2 ^ 64; omega)
    refine ⟨s1, ?_, ?_, h3, ?_⟩
    · simp only [wmemory_t.puts, hput]; exact h1
    · rw [h2]; simp only [wmemory_t.totalSize]; omega
    · rw [h4]; exact memcpy_length _ _ _

/-! ## C3: capacity test of the fixed-width setters -/

/-- C3: the code at the failing input, and what the code does in general.  On a buffer
of capacity 8 whose cursor `skip(2^64 - 1)` has moved to `2^64 - 1`, `c + sizeof(int)`
exceeds the capacity, yet `setInt(7)` raises no error and leaves the cursor at 3:
`insert` tests `m_lens + sizeof(T) > m_size` in `uintmax_t`, where the sum wraps.  In
every state a fixed-width setter raises the capacity error exactly when
`(c + sizeof(T)) mod 2^64 > C`, and it raises no other error.  In every state with
cursor `c` and capacity `C` in which `c + sizeof(T)` does not wrap
(`c + sizeof(T) < 2^64`), the setter raises the capacity error if and only if
`c + sizeof(T) > C`; a failing call returns before any write; a succeeding call leaves
the capacity as it was, moves the cursor to exactly `c + sizeof(T)`, stores the
little-endian object representation of `v` at `[c, c + sizeof(T))` and leaves every
byte outside that range as it was.  Hence in a run of fixed-width puts on a buffer of
capacity `C` the puts succeed as long as the cumulative size fits, the cursor then
being `c` plus that size and at most `C`, and the next put raises the error exactly
when it would cross `C`. -/
theorem C3_put_capacity :
    (wmemory_t.skip ⟨List.replicate 8 0, 8, 0⟩ 18446744073709551615
        = ⟨List.replicate 8 0, 8, 18446744073709551615⟩ ∧
      18446744073709551615 + support_t.sizeof .variant_int32 > 8 ∧
      ∃ s1, wmemory_t.setInt 7 ⟨List.replicate 8 0, 8, 18446744073709551615⟩ = .ok s1 ∧
        s1.m_lens = 3 ∧ s1.m_size = 8) ∧
    (∀ (v : variant) (s : wmemory_t), v.index.isFixed = true →
      (wmemory_t.put v s = .error .runtime_error ↔
        (s.m_lens + v.index.sizeof) % 2 ^ 64 > s.m_size) ∧
      (∀ e, wmemory_t.put v s = .error e → e = .runtime_error)) ∧
    (∀ (v : variant) (s : wmemory_t), v.index.isFixed = true →
      s.m_lens + v.index.sizeof < 2 ^ 64 →
      (wmemory_t.put v s = .error .runtime_error ↔ s.m_lens + v.index.sizeof > s.m_size) ∧
      (∀ e, wmemory_t.put v s = .error e → e = .runtime_error) ∧
      (∀ s1, wmemory_t.put v s = .ok s1 →
        s1.m_lens = s.m_lens + v.index.sizeof ∧ s1.m_size = s.m_size ∧
        s1.m_lens ≤ s1.m_size ∧ s1.buffer.length = s.buffer.length ∧
        (s.m_size ≤ s.buffer.length →
          readBytes s1.buffer s.m_lens v.index.sizeof = toLE v.index.sizeof v.bits) ∧
        (∀ i, i < s.m_lens ∨ s.m_lens + v.index.sizeof ≤ i →
          s1.buffer.getD i 0 = s.buffer.getD i 0))) ∧
    (∀ (vs : List variant) (v : variant) (s : wmemory_t),
      (∀ x ∈ vs, x.index.isFixed = true) → v.index.isFixed = true →
      s.m_lens + wmemory_t.totalSize vs ≤ s.m_size →
      s.m_lens + wmemory_t.totalSize vs + v.index.sizeof < 2 ^ 64 →
      ∃ s1, wmemory_t.puts vs s = .ok s1 ∧
        s1.m_lens = s.m_lens + wmemory_t.totalSize vs ∧ s1.m_lens ≤ s.m_size ∧
        (s.m_lens + wmemory_t.totalSize vs + v.index.sizeof > s.m_size →
          wmemory_t.puts (vs ++ [v]) s = .error .runtime_error) ∧
        (s.m_lens + wmemory_t.totalSize vs + v.index.sizeof ≤ s.m_size →
          ∃ s2, wmemory_t.puts (vs ++ [v]) s = .ok s2 ∧
            s2.m_lens = s.m_lens + wmemory_t.totalSize vs + v.index.sizeof ∧
            s2.m_lens ≤ s.m_size)) := by
  refine ⟨⟨rfl, by decide, _, rfl, rfl, rfl⟩, ?_, ?_, ?_⟩
  · intro v s hfix
    have hput := insert_fixed v s hfix
    rw [← put_eq_insert v s] at hput
    by_cases hgt : (s.m_lens + v.index.sizeof) % 2 ^ 64 > s.m_size
    · rw [if_pos hgt] at hput
      refine ⟨⟨fun _ => hgt, fun _ => hput⟩, ?_⟩
      intro e he
      rw [hput] at he
      exact (Except.error.inj he).symm
    · rw [if_neg hgt] at hput
      refine ⟨⟨fun h => ?_, fun h => absurd h hgt⟩, ?_⟩
      · rw [hput] at h
        cases h
      · intro e he
        rw [hput] at he
        cases he
  · intro v s hfix hwrap
    have hput := put_fixed_cases v s hfix hwrap
    by_cases hgt : s.m_lens + v.index.sizeof > s.m_size
    · rw [if_pos hgt] at hput
      refine ⟨⟨fun _ => hgt, fun _ => hput⟩, ?_, ?_⟩
      · intro e he
        rw [hput] at he
        exact (Except.error.inj he).symm
      · intro s1 h1
        rw [hput] at h1
        cases h1
    · rw [if_neg hgt] at hput
      refine ⟨⟨fun h => ?_, fun h => absurd h hgt⟩, ?_, ?_⟩
      · rw [hput] at h
        cases h
      · intro e he
        rw [hput] at he
        cases he
      · intro s1 h1
        rw [hput] at h1
        have h2 := Except.ok.inj h1
        subst h2
        refine ⟨rfl, rfl, by simp only; omega, memcpy_length _ _ _, ?_, ?_⟩
        · intro hbuf
          have h := readBytes_memcpy_same s.buffer (toLE v.index.sizeof v.bits) s.m_lens
            (by rw [toLE_length]; omega)
          rw [toLE_length] at h
          exact h
        · intro i hi
          simp only [List.getD_eq_getElem?_getD, memcpy_getElem, toLE_length]
          rw [if_neg (by omega)]
  · intro vs v s hvs hv hcap hwrap
    obtain ⟨s1, h1, h2, h3, _⟩ := puts_fixed_ok vs s hvs hcap (by omega)
    have hput := put_fixed_cases v s1 hv (by rw [h2]; exact hwrap)
    refine ⟨s1, h1, h2, by omega, ?_, ?_⟩
    · intro hgt
      rw [puts_append, h1]
      simp only [wmemory_t.puts]
      rw [hput, if_pos (by omega)]
    · intro hle
      rw [puts_append, h1]
      simp only [wmemory_t.puts]
      rw [hput, if_neg (by omega)]
      exact ⟨_, rfl, by simp only; omega, by simp only; omega⟩

/-- C3 witness: `setUInt` at cursor 6 of an 8-byte buffer, and the run `setUInt`,
`setBytes` followed by `setInt` on a fresh 8-byte buffer. -/
theorem C3_put_capacity_witness :
    ((6 : Nat) + 4 < 2 ^ 64 ∧
      (wmemory_t.put (.uint32 42) ⟨List.replicate 8 0, 8, 6⟩ = .error .runtime_error
        ↔ 6 + 4 > 8)) ∧
    ((0 : Nat) + 5 ≤ 8 ∧
      ∃ s1, wmemory_t.puts [.uint32 1, .int8 2] ⟨List.replicate 8 0, 8, 0⟩ = .ok s1 ∧
        s1.m_lens = 0 + 5 ∧ s1.m_lens ≤ 8 ∧
        (0 + 5 + 4 > 8 →
          wmemory_t.puts ([.uint32 1, .int8 2] ++ [.int32 3]) ⟨List.replicate 8 0, 8, 0⟩
            = .error .runtime_error) ∧
        (0 + 5 + 4 ≤ 8 →
          ∃ s2, wmemory_t.puts ([.uint32 1, .int8 2] ++ [.int32 3])
              ⟨List.replicate 8 0, 8, 0⟩ = .ok s2 ∧
            s2.m_lens = 0 + 5 + 4 ∧ s2.m_lens ≤ 8)) :=
  ⟨⟨by decide,
    (C3_put_capacity.2.2.1 (.uint32 42) ⟨List.replicate 8 0, 8, 6⟩ rfl (by decide)).1⟩,
   ⟨by decide,
    C3_put_capacity.2.2.2 [.uint32 1, .int8 2] (.int32 3) ⟨List.replicate 8 0, 8, 0⟩
      (by decide) rfl (by decide) (by decide)⟩⟩

/-! ## C4: capacity test of the string setters -/

theorem insert_strview_error_iff (str : List Byte) (s : wmemory_t) :
    wmemory_t.insert (.strview str) s = .error .runtime_error ↔
      (s.m_lens + str.length) % 2 ^ 64 > s.m_size := by
  by_cases h : (s.m_lens + str.length) % 2 ^ 64 > s.m_size
  · have e : wmemory_t.insert (.strview str) s = .error .runtime_error := by
      simp only [wmemory_t.insert, if_pos h]
    exact ⟨fun _ => h, fun _ => e⟩
  · refine ⟨fun e => ?_, fun e => absurd e h⟩
    simp only [wmemory_t.insert, if_neg h] at e
    cases e

/-- C4: the code at the failing input.  On a fresh buffer of capacity 8, `setString("hi")`
and `setStringView("hi")` need `0 + 8 + 2 = 10 > 8` bytes, yet neither raises the
capacity error: the 8-byte prefix is written and the cursor ends at 10, past the
capacity.  In every state the two setters fail exactly when `m_lens + length`, without
the 8 bytes of the prefix, exceeds `m_size`. -/
theorem C4_string_prefix_not_counted :
    (0 + 8 + [(104 : Byte), 105].length > 8 ∧
      wmemory_t.setString [104, 105] ⟨List.replicate 8 0, 8, 0⟩
        = .ok ⟨[2, 0, 0, 0, 0, 0, 0, 0], 8, 10⟩ ∧
      wmemory_t.setStringView [104, 105] ⟨List.replicate 8 0, 8, 0⟩
        = .ok ⟨[2, 0, 0, 0, 0, 0, 0, 0], 8, 10⟩) ∧
    (∀ (str : List Byte) (s : wmemory_t),
      (wmemory_t.setString str s = .error .runtime_error ↔
        (s.m_lens + str.length) % 2 ^ 64 > s.m_size) ∧
      (wmemory_t.setStringView str s = .error .runtime_error ↔
        (s.m_lens + str.length) % 2 ^ 64 > s.m_size)) :=
  ⟨⟨by decide, rfl, rfl⟩,
    fun str s => ⟨insert_strview_error_iff str s, insert_strview_error_iff str s⟩⟩

/-! ## C5: the cursor invariant -/

/-- C7, as stated, fails for the unsigned getters: on the empty buffer `get_ushort()`
returns 65535 (`-1` converted to `uint16_t`), which is not -1. -/
theorem C7_counterexample :
    wmemory_t.ctor_nullptr.m_size = 0 ∧
    wmemory_t.get_ushort wmemory_t.ctor_nullptr = (65535, wmemory_t.ctor_nullptr) ∧
    ((wmemory_t.get_ushort wmemory_t.ctor_nullptr).1 : Int) ≠ -1 :=
  ⟨rfl, rfl, by decide⟩

/-- C7, amended: on a buffer whose capacity is 0 every getter returns its sentinel and
leaves the buffer, cursor included, as it was: -1 for the signed getters `get_bytes`,
`get_short`, `get_int`, `get_long`, `get_llong`; -1 converted to the unsigned return
type for the unsigned getters, that is 65535 for `get_ushort`, 4294967295 for
`get_uint` and 18446744073709551615 for `get_uint64`; the bit pattern of 0.0 for
`get_float` and `get_double`; `false` for `get_bool`; the empty string for `get_string`
and `get_string_view`. -/
theorem C7_empty_sentinels (s : wmemory_t) (h : s.m_size = 0) :
    wmemory_t.get_bytes s = (-1, s) ∧ wmemory_t.get_short s = (-1, s) ∧
    wmemory_t.get_int s = (-1, s) ∧ wmemory_t.get_long s = (-1, s) ∧
    wmemory_t.get_llong s = (-1, s) ∧
    wmemory_t.get_ushort s = (65535, s) ∧ wmemory_t.get_uint s = (4294967295, s) ∧
    wmemory_t.get_uint64 s = (18446744073709551615, s) ∧
    wmemory_t.get_float s = (0, s) ∧ wmemory_t.get_double s = (0, s) ∧
    wmemory_t.get_bool s = (false, s) ∧
    wmemory_t.get_string s = ([], s) ∧ wmemory_t.get_string_view s = ([], s) := by
  have hn : ¬ s.m_size ≠ 0 := fun c => c h
  simp only [wmemory_t.get_bytes, wmemory_t.get_short, wmemory_t.get_int, wmemory_t.get_long,
    wmemory_t.get_llong, wmemory_t.get_ushort, wmemory_t.get_uint, wmemory_t.get_uint64,
    wmemory_t.get_float, wmemory_t.get_double, wmemory_t.get_bool, wmemory_t.get_string,
    wmemory_t.get_string_view, if_neg hn]
  refine ⟨?_, ?_, ?_, ?_, ?_, ?_, ?_, ?_, ?_, ?_, ?_, ?_, ?_⟩ <;> trivial

/-- C7 witness: the buffer built by `wmemory_t(nullptr)`; its cursor stays 0. -/
theorem C7_empty_sentinels_witness :
    wmemory_t.ctor_nullptr.m_size = 0 ∧
    wmemory_t.get_int wmemory_t.ctor_nullptr = (-1, wmemory_t.ctor_nullptr) ∧
    (wmemory_t.get_int wmemory_t.ctor_nullptr).2.m_lens = 0 :=
  ⟨rfl, (C7_empty_sentinels wmemory_t.ctor_nullptr rfl).2.2.1,
    congrArg (fun p => p.2.m_lens) (C7_empty_sentinels wmemory_t.ctor_nullptr rfl).2.2.1⟩

/-! ## C8: the 64-byte scenario -/

/-- C8, as stated, fails: after `setUInt(42)`, `setBool(true)`, `setString("hi")` on a
fresh buffer of capacity 64 the cursor is 15, and `get_uint`, `get_bool`, `get_string`
called on that buffer read the zero bytes after the cursor: they yield 0, `false`
and the empty string, and leave the cursor at 28. -/
theorem C8_counterexample :
    ∃ s0 s1 s2 s3 : wmemory_t,
      wmemory_t.ctor_size 64 = .ok s0 ∧ wmemory_t.setUInt 42 s0 = .ok s1 ∧
      wmemory_t.setBool true s1 = .ok s2 ∧ wmemory_t.setString [104, 105] s2 = .ok s3 ∧
      s3.m_lens = 15 ∧
      (wmemory_t.get_uint s3).1 = 0 ∧
      (wmemory_t.get_bool (wmemory_t.get_uint s3).2).1 = false ∧
      (wmemory_t.get_string (wmemory_t.get_bool (wmemory_t.get_uint s3).2).2).1 = [] ∧
      (wmemory_t.get_string (wmemory_t.get_bool (wmemory_t.get_uint s3).2).2).2.m_lens = 28 :=
  ⟨⟨List.replicate 64 0, 64, 0⟩,
   ⟨[42, 0, 0, 0] ++ List.replicate 60 0, 64, 4⟩,
   ⟨[42, 0, 0, 0, 1] ++ List.replicate 59 0, 64, 5⟩,
   ⟨[42, 0, 0, 0, 1, 2, 0, 0, 0, 0, 0, 0, 0, 104, 105] ++ List.replicate 49 0, 64, 15⟩,
   by rfl, by rfl, by rfl, by rfl, by rfl, by rfl, by rfl, by rfl, by rfl⟩

/-- C8, amended: on a buffer constructed with capacity 64, `setUInt(42)`,
`setBool(true)`, `setString("hi")` all succeed and leave the cursor at
`4 + 1 + 8 + 2 = 15`; on the buffer constructed from the written bytes,
`wmemory_t(data(), lens())`, `get_uint`, `get_bool`, `get_string` in that order yield
42, `true` and "hi", and leave its cursor at 15. -/
theorem C8_scenario_through_copy :
    ∃ s0 s1 s2 s3 r : wmemory_t,
      wmemory_t.ctor_size 64 = .ok s0 ∧ wmemory_t.setUInt 42 s0 = .ok s1 ∧
      wmemory_t.setBool true s1 = .ok s2 ∧ wmemory_t.setString [104, 105] s2 = .ok s3 ∧
      s3.m_lens = 4 + 1 + 8 + 2 ∧
      wmemory_t.ctor_data s3.data s3.lens = .ok r ∧
      (wmemory_t.get_uint r).1 = 42 ∧
      (wmemory_t.get_bool (wmemory_t.get_uint r).2).1 = true ∧
      (wmemory_t.get_string (wmemory_t.get_bool (wmemory_t.get_uint r).2).2).1 = [104, 105] ∧
      (wmemory_t.get_string (wmemory_t.get_bool (wmemory_t.get_uint r).2).2).2.m_lens = 15 :=
  ⟨⟨List.replicate 64 0, 64, 0⟩,
   ⟨[42, 0, 0, 0] ++ List.replicate 60 0, 64, 4⟩,
   ⟨[42, 0, 0, 0, 1] ++ List.replicate 59 0, 64, 5⟩,
   ⟨[42, 0, 0, 0, 1, 2, 0, 0, 0, 0, 0, 0, 0, 104, 105] ++ List.replicate 49 0, 64, 15⟩,
   ⟨[42, 0, 0, 0, 1, 2, 0, 0, 0, 0, 0, 0, 0, 104, 105], 15, 0⟩,
   by rfl, by rfl, by rfl, by rfl, by rfl, by rfl, by rfl, by rfl, by rfl, by rfl⟩

/-! ## C9: construction from a byte source -/

/-- C9, as stated, fails for the `std::vector<uint8_t>` constructor: on an empty source
it does not fail but returns the empty buffer, and on the source `1, 2, 3` it returns
three zero bytes, not the source bytes. -/
theorem C9_counterexample :
    wmemory_t.ctor_vector [] = .ok ⟨[], 0, 0⟩ ∧
    wmemory_t.ctor_vector [1, 2, 3] = .ok ⟨[0, 0, 0], 3, 0⟩ ∧
    ([0, 0, 0] : List Byte) ≠ [1, 2, 3] :=
  ⟨rfl, rfl, by decide⟩

/-- C9, amended: the `(pointer, size)` constructor, given a non-null pointer to a
non-empty source and that source's length, yields a buffer whose capacity is the
source length, whose bytes are the source bytes and whose cursor is 0; it fails with
`std::invalid_argument` when the size is 0 or the pointer is null.  The
`std::vector<uint8_t>` constructor never fails, an empty source included, and yields
a buffer whose capacity is the source length and whose cursor is 0. -/
theorem C9_construct_from_source :
    (∀ d : List Byte, d ≠ [] →
      wmemory_t.ctor_data (some d) d.length = .ok ⟨d, d.length, 0⟩) ∧
    (∀ d : List Byte, wmemory_t.ctor_data (some d) 0 = .error .invalid_argument) ∧
    (∀ n : Nat, wmemory_t.ctor_data none n = .error .invalid_argument) ∧
    (∀ con : List Byte, ∃ s, wmemory_t.ctor_vector con = .ok s ∧
      s.m_size = con.length ∧ s.m_lens = 0 ∧ s.buffer.length = con.length) := by
  refine ⟨?_, fun d => rfl, fun n => rfl, fun con => ⟨_, rfl, rfl, rfl, ?_⟩⟩
  · intro d hd
    have hlen : d.length ≥ 1 := by
      cases d with
      | nil => exact absurd rfl hd
      | cons a t => simp
    simp only [wmemory_t.ctor_data, if_pos hlen, readBytes_self]
  · simp

/-- C9 witness: the `(pointer, size)` constructor on the three bytes `1, 2, 3`. -/
theorem C9_construct_from_source_witness :
    ([1, 2, 3] : List Byte) ≠ [] ∧
    wmemory_t.ctor_data (some [1, 2, 3]) 3 = .ok ⟨[1, 2, 3], 3, 0⟩ :=
  ⟨by decide, C9_construct_from_source.1 [1, 2, 3] (by decide)⟩

/-! ## C10: `is_enough` -/

/-- C10: the code at the failing input.  On a buffer of capacity 8 with cursor 1 (a fresh
buffer after `setBytes`), `is_enough(2^64 - 1)` returns `true` although the exact sum
`1 + (2^64 - 1)` exceeds 8: the sum is taken modulo `2^64`.  The call returns a value
only, so no state changes. -/
theorem C10_is_enough_wraps :
    wmemory_t.setBytes 97 ⟨List.replicate 8 0, 8, 0⟩ = .ok ⟨[97, 0, 0, 0, 0, 0, 0, 0], 8, 1⟩ ∧
    wmemory_t.is_enough ⟨[97, 0, 0, 0, 0, 0, 0, 0], 8, 1⟩ 18446744073709551615 = true ∧
    ¬ (1 + 18446744073709551615 ≤ 8) ∧
    (∀ (s : wmemory_t) (n : Nat),
      wmemory_t.is_enough s n = true ↔ (s.m_lens + n) % 2 ^ 64 ≤ s.m_size) :=
  ⟨rfl, by decide, by decide, fun s n => by simp [wmemory_t.is_enough]⟩

/-! ## Allocator lemmas -/

theorem and_mask (x : Nat) (hx : x < 2 ^ 64) : x &&& (2 ^ 64 - 1 - 7) = x / 8 * 8 := by
  apply Nat.eq_of_testBit_eq
  intro i
  have hm : (2 ^ 64 - 1 - 7 : Nat) = (2 ^ 61 - 1) <<< 3 := by decide
  have hd : x / 8 * 8 = (x >>> 3) <<< 3 := by
    simp [Nat.shiftLeft_eq, Nat.shiftRight_eq_div_pow]
  rw [Nat.testBit_and, hm, hd, Nat.testBit_shiftLeft, Nat.testBit_shiftLeft,
    Nat.testBit_two_pow_sub_one, Nat.testBit_shiftRight]
  by_cases h : 3 ≤ i
  · have e : 3 + (i - 3) = i := by omega
    rw [e]
    by_cases h2 : i < 64
    · simp [h]; omega
    · have : x.testBit i = false := by
        apply Nat.testBit_lt_two_pow
        calc x < 2 ^ 64 := hx
          _ ≤ 2 ^ i := Nat.pow_le_pow_right (by decide) (by omega)
      simp [this]
  · simp [h]

theorem align_eq (size : Nat) : align size = (size + 7) % 2 ^ 64 / 8 * 8 := by
  have h := and_mask ((size + 7) % 2 ^ 64) (Nat.mod_lt _ (by decide))
  simpa [align, ALIGNMENT] using h

theorem align_dvd (size : Nat) : 8 ∣ align size := by
  rw [align_eq]
  exact Nat.dvd_mul_left 8 _

theorem align_exact (size : Nat) (h : size + 7 < 2 ^ 64) : align size = roundUp8 size := by
  rw [align_eq, Nat.mod_eq_of_lt h, roundUp8]

theorem roundUp8_bounds (size : Nat) : size ≤ roundUp8 size ∧ roundUp8 size < size + 8 := by
  unfold roundUp8
  omega

theorem align_lt (size : Nat) : align size < 2 ^ 64 := by
  rw [align_eq]
  have := Nat.mod_lt (size + 7) (show 2 ^ 64 > 0 by decide)
  omega

theorem span_append (l1 l2 : List BlockHeader) : span (l1 ++ l2) = span l1 + span l2 := by
  induction l1 with
  | nil => simp [span]
  | cons b r ih => simp only [List.cons_append, List.append_eq, span, ih]; omega

theorem chain_append (l1 l2 : List BlockHeader) : ∀ s : Nat,
    Chain s (l1 ++ l2) ↔ Chain s l1 ∧ Chain (s + span l1) l2 := by
  induction l1 with
  | nil => intro s; simp [Chain, span]
  | cons b r ih =>
    intro s
    simp only [List.cons_append, List.append_eq, Chain, span, ih]
    have e : s + sizeof_BlockHeader + b.size + span r
        = s + (sizeof_BlockHeader + b.size + span r) := by omega
    rw [e]
    exact and_assoc.symm

theorem chain_bounds (l : List BlockHeader) : ∀ s : Nat, Chain s l →
    ∀ x ∈ l, s ≤ x.addr ∧ x.addr + sizeof_BlockHeader + x.size ≤ s + span l := by
  induction l with
  | nil => intro s _ x hx; cases hx
  | cons b r ih =>
    intro s hc x hx
    obtain ⟨h1, h2⟩ := hc
    simp only [span]
    rcases List.mem_cons.mp hx with rfl | hx
    · omega
    · have := ih _ h2 x hx
      omega

theorem alloc_loop_none (a : Nat) (l : List BlockHeader) :
    alloc_loop a l = none ↔ ∀ b ∈ l, ¬ (b.is_free = true ∧ a ≤ b.size) := by
  induction l with
  | nil => simp [alloc_loop]
  | cons c r ih =>
    by_cases hfit : c.is_free = true ∧ c.size ≥ a
    · constructor
      · intro h
        simp only [alloc_loop, if_pos hfit] at h
        split_ifs at h
      · intro h
        exact absurd hfit (h c (List.mem_cons_self c r))
    · simp only [alloc_loop, if_neg hfit]
      constructor
      · intro h b hb
        rcases List.mem_cons.mp hb with rfl | hb
        · exact hfit
        · cases hr : alloc_loop a r with
          | none => exact (ih.mp hr) b hb
          | some v => rw [hr] at h; cases h
      · intro h
        have hr : alloc_loop a r = none :=
          ih.mpr (fun b hb => h b (List.mem_cons_of_mem c hb))
        rw [hr]

/-- The part of the chain `alloc_` puts in place of the chosen block `b` for the aligned
size `a`. -/
theorem alloc_loop_some (a : Nat) (l : List BlockHeader) : ∀ (p : Nat) (l1 : List BlockHeader),
    alloc_loop a l = some (p, l1) →
    ∃ pre b post, l = pre ++ b :: post ∧
      (∀ x ∈ pre, ¬ (x.is_free = true ∧ a ≤ x.size)) ∧
      b.is_free = true ∧ a ≤ b.size ∧ p = b.addr + sizeof_BlockHeader ∧
      l1 = pre ++
        (if b.size ≥ (a + sizeof_BlockHeader + ALIGNMENT) % 2 ^ 64 then
          [{ b with size := a, is_free := false },
            { addr := b.addr + sizeof_BlockHeader + a
              size := (b.size - a + 2 ^ 64 - sizeof_BlockHeader) % 2 ^ 64
              is_free := true }]
        else [{ b with is_free := false }]) ++ post := by
  induction l with
  | nil => intro p l1 h; cases h
  | cons c r ih =>
    intro p l1 h
    by_cases hfit : c.is_free = true ∧ c.size ≥ a
    · simp only [alloc_loop, if_pos hfit] at h
      refine ⟨[], c, r, rfl, (fun x hx => by cases hx), hfit.1, hfit.2, ?_⟩
      split_ifs at h with hs
      · obtain ⟨e1, e2⟩ := Prod.mk.inj (Option.some.inj h)
        rw [if_pos hs]
        exact ⟨e1.symm, e2.symm⟩
      · obtain ⟨e1, e2⟩ := Prod.mk.inj (Option.some.inj h)
        rw [if_neg hs]
        exact ⟨e1.symm, e2.symm⟩
    · simp only [alloc_loop, if_neg hfit] at h
      cases hr : alloc_loop a r with
      | none => rw [hr] at h; cases h
      | some v =>
        obtain ⟨p1, r1⟩ := v
        rw [hr] at h
        obtain ⟨e1, e2⟩ := Prod.mk.inj (Option.some.inj h)
        obtain ⟨pre, b, post, h1, h2, h3, h4, h5, h6⟩ := ih p1 r1 hr
        refine ⟨c :: pre, b, post, by rw [h1]; rfl, ?_, h3, h4, ?_, ?_⟩
        · intro x hx
          rcases List.mem_cons.mp hx with rfl | hx
          · exact hfit
          · exact h2 x hx
        · rw [← h5]; exact e1.symm
        · rw [← e2, h6]; rfl
theorem inv_replace (pre post mid : List BlockHeader) (b : BlockHeader) (live : List Nat)
    (hinv : Inv (pre ++ b :: post) live) (hbf : b.is_free = true)
    (m1 : Chain b.addr mid) (m1s : span mid = sizeof_BlockHeader + b.size)
    (m2 : ∀ x ∈ mid, 8 ∣ x.addr ∧ 8 ∣ x.size)
    (m3 : ∀ x ∈ mid, (x.addr = b.addr ∧ x.is_free = false) ∨
      (x.is_free = true ∧ b.addr < x.addr ∧ x.addr < b.addr + sizeof_BlockHeader + b.size))
    (m4 : ∃ x ∈ mid, x.addr = b.addr)
    (m5 : mid.countP (fun x => x.is_free) ≤ 1) :
    Inv (pre ++ mid ++ post) ((b.addr + sizeof_BlockHeader) :: live) := by
  obtain ⟨_, hch, hsp⟩ := hinv.tiles
  rw [chain_append] at hch
  obtain ⟨hc1, hb, hc2⟩ := hch
  rw [span_append] at hsp
  simp only [span] at hsp
  have hpre : ∀ x ∈ pre, x.addr < b.addr := by
    intro x hx
    have := chain_bounds pre 0 hc1 x hx
    simp only [sizeof_BlockHeader] at this
    omega
  have hpost : ∀ x ∈ post, b.addr + sizeof_BlockHeader + b.size ≤ x.addr := by
    intro x hx
    have := chain_bounds post _ hc2 x hx
    omega
  have hbl : b.addr + sizeof_BlockHeader ∉ live := by
    intro hm
    have := (hinv.alloc_live b (by simp)).mpr hm
    rw [hbf] at this
    cases this
  have hold : ∀ y ∈ pre ++ b :: post, y ∈ pre ∨ y = b ∨ y ∈ post := by
    intro y hy
    rcases List.mem_append.mp hy with h | h
    · exact Or.inl h
    · rcases List.mem_cons.mp h with h | h
      · exact Or.inr (Or.inl h)
      · exact Or.inr (Or.inr h)
  refine ⟨⟨?_, ?_, ?_⟩, ?_, ?_, ?_, ?_, ?_⟩
  · obtain ⟨x, hx, _⟩ := m4
    intro e
    have : x ∈ pre ++ mid ++ post := by simp [hx]
    rw [e] at this
    cases this
  · rw [chain_append, chain_append]
    refine ⟨⟨hc1, ?_⟩, ?_⟩
    · rw [← hb]; exact m1
    · rw [span_append, m1s]
      have e : 0 + (span pre + (sizeof_BlockHeader + b.size))
          = 0 + span pre + sizeof_BlockHeader + b.size := by omega
      rw [e]; exact hc2
  · rw [span_append, span_append, m1s]; omega
  · intro x hx
    rcases List.mem_append.mp hx with h | h
    · rcases List.mem_append.mp h with h | h
      · exact hinv.aligned x (by simp [h])
      · exact m2 x h
    · exact hinv.aligned x (by simp [h])
  · intro x hx
    rw [List.mem_cons]
    rcases List.mem_append.mp hx with h | h
    · rcases List.mem_append.mp h with h | h
      · have h1 := hinv.alloc_live x (by simp [h])
        have h2 := hpre x h
        constructor
        · intro hf; exact Or.inr (h1.mp hf)
        · intro hm
          rcases hm with hm | hm
          · omega
          · exact h1.mpr hm
      · rcases m3 x h with ⟨ha, hf⟩ | ⟨hf, hlo, hhi⟩
        · constructor
          · intro _; exact Or.inl (by rw [ha])
          · intro _; exact hf
        · constructor
          · intro hc; rw [hf] at hc; cases hc
          · intro hm
            exfalso
            rcases hm with hm | hm
            · omega
            · obtain ⟨y, hy, hya⟩ := hinv.live_block _ hm
              rcases hold y hy with h3 | h3 | h3
              · have := hpre y h3; omega
              · rw [h3] at hya; omega
              · have := hpost y h3; omega
    · have h1 := hinv.alloc_live x (by simp [h])
      have h2 := hpost x h
      constructor
      · intro hf; exact Or.inr (h1.mp hf)
      · intro hm
        rcases hm with hm | hm
        · simp only [sizeof_BlockHeader] at h2 hm; omega
        · exact h1.mpr hm
  · intro h hh
    rcases List.mem_cons.mp hh with hh | hh
    · obtain ⟨x, hx, hxa⟩ := m4
      exact ⟨x, by simp [hx], by rw [hxa, hh]⟩
    · obtain ⟨y, hy, hya⟩ := hinv.live_block h hh
      rcases hold y hy with h3 | h3 | h3
      · exact ⟨y, by simp [h3], hya⟩
      · rw [h3] at hya; rw [← hya] at hh; exact absurd hh hbl
      · exact ⟨y, by simp [h3], hya⟩
  · exact List.nodup_cons.mpr ⟨hbl, hinv.nodup⟩
  · have h1 := hinv.one_free
    rw [List.countP_append, List.countP_cons] at h1
    simp only [hbf, if_true] at h1
    rw [List.countP_append, List.countP_append]
    omega
theorem inv_size_le (l : List BlockHeader) (live : List Nat) (hinv : Inv l live) :
    ∀ b ∈ l, b.addr + sizeof_BlockHeader + b.size ≤ HEAP_SIZE := by
  intro b hb
  obtain ⟨_, hch, hsp⟩ := hinv.tiles
  have := chain_bounds l 0 hch b hb
  omega

theorem inv_alloc_loop (a : Nat) (l l1 : List BlockHeader) (live : List Nat) (p : Nat)
    (hinv : Inv l live) (ha : 8 ∣ a) (h : alloc_loop a l = some (p, l1)) :
    Inv l1 (p :: live) := by
  obtain ⟨pre, b, post, hl, _, hbf, hab, hp, hl1⟩ := alloc_loop_some a l p l1 h
  subst hl
  have hsz := inv_size_le _ _ hinv b (by simp)
  have hal := hinv.aligned b (by simp)
  simp only [sizeof_BlockHeader, HEAP_SIZE, ALIGNMENT] at hsz hl1 hp
  have hmod : (a + 24 + 8) % 2 ^ 64 = a + 24 + 8 := Nat.mod_eq_of_lt (by omega)
  rw [hmod] at hl1
  rw [hl1, hp]
  by_cases hs : b.size ≥ a + 24 + 8
  · rw [if_pos hs]
    have hnew : (b.size - a + 2 ^ 64 - 24) % 2 ^ 64 = b.size - a - 24 := by omega
    rw [hnew]
    apply inv_replace pre post _ b live hinv hbf
    · simp [Chain, sizeof_BlockHeader]
    · simp only [span, sizeof_BlockHeader]; omega
    · intro x hx
      simp only [List.mem_cons, List.mem_singleton, List.not_mem_nil, or_false] at hx
      rcases hx with rfl | rfl
      · exact ⟨hal.1, ha⟩
      · simp only
        constructor <;> omega
    · intro x hx
      simp only [List.mem_cons, List.mem_singleton, List.not_mem_nil, or_false] at hx
      rcases hx with rfl | rfl
      · exact Or.inl ⟨rfl, rfl⟩
      · refine Or.inr ⟨rfl, ?_, ?_⟩ <;> simp only [sizeof_BlockHeader] <;> omega
    · exact ⟨_, List.mem_cons_self _ _, rfl⟩
    · simp [List.countP_cons]
  · rw [if_neg hs]
    apply inv_replace pre post _ b live hinv hbf
    · simp [Chain]
    · simp only [span]; omega
    · intro x hx
      simp only [List.mem_singleton] at hx
      subst hx
      exact hal
    · intro x hx
      simp only [List.mem_singleton] at hx
      subst hx
      exact Or.inl ⟨rfl, rfl⟩
    · exact ⟨_, List.mem_cons_self _ _, rfl⟩
    · simp [List.countP_cons]

theorem inv_initialize : Inv initialize_ [] := by
  refine ⟨⟨by simp [initialize_], ?_, ?_⟩, ?_, ?_, ?_, List.nodup_nil, ?_⟩
  · simp [initialize_, Chain]
  · simp [initialize_, span, HEAP_SIZE, sizeof_BlockHeader]
  · intro b hb
    simp only [initialize_, List.mem_singleton] at hb
    subst hb
    simp only [HEAP_SIZE, sizeof_BlockHeader]
    constructor <;> omega
  · intro b hb
    simp only [initialize_, List.mem_singleton] at hb
    subst hb
    simp
  · intro h hh; cases hh
  · simp [initialize_, List.countP_cons]
theorem coalesce_chain (rest : List BlockHeader) : ∀ (cur : BlockHeader) (s : Nat),
    Chain s (cur :: rest) → s + span (cur :: rest) < 2 ^ 64 →
    Chain s (coalesce cur rest) ∧ span (coalesce cur rest) = span (cur :: rest) := by
  induction rest with
  | nil => intro cur s hc _; exact ⟨hc, rfl⟩
  | cons n r ih =>
    intro cur s hc hb
    obtain ⟨h1, h2, h3⟩ := hc
    simp only [span, sizeof_BlockHeader] at hb
    by_cases hf : n.is_free = true
    · simp only [coalesce, if_pos hf]
      have e : (cur.size + (n.size + sizeof_BlockHeader) % 2 ^ 64) % 2 ^ 64
          = cur.size + n.size + sizeof_BlockHeader := by
        simp only [sizeof_BlockHeader]; omega
      rw [e]
      have hc2 : Chain s ({ cur with size := cur.size + n.size + sizeof_BlockHeader } :: r) := by
        refine ⟨h1, ?_⟩
        have e2 : s + sizeof_BlockHeader + (cur.size + n.size + sizeof_BlockHeader)
            = s + sizeof_BlockHeader + cur.size + sizeof_BlockHeader + n.size := by omega
        simp only [e2]
        exact h3
      obtain ⟨i1, i2⟩ := ih _ s hc2 (by simp only [span, sizeof_BlockHeader]; omega)
      refine ⟨i1, ?_⟩
      rw [i2]
      simp only [span]
      omega
    · simp only [coalesce, if_neg hf]
      obtain ⟨i1, i2⟩ := ih n (s + sizeof_BlockHeader + cur.size) ⟨h2, h3⟩
        (by simp only [span, sizeof_BlockHeader]; omega)
      refine ⟨⟨h1, i1⟩, ?_⟩
      simp only [span] at i2 ⊢
      omega

theorem coalesce_shape (rest : List BlockHeader) : ∀ cur : BlockHeader,
    ∃ c tl, coalesce cur rest = c :: tl ∧ c.addr = cur.addr ∧ c.is_free = cur.is_free ∧
      ∀ x ∈ tl, x.is_free = false := by
  induction rest with
  | nil => intro cur; exact ⟨cur, [], rfl, rfl, rfl, fun x hx => by cases hx⟩
  | cons n r ih =>
    intro cur
    by_cases hf : n.is_free = true
    · simp only [coalesce, if_pos hf]
      exact ih _
    · simp only [coalesce, if_neg hf]
      obtain ⟨c, tl, h1, _, h3, h4⟩ := ih n
      refine ⟨cur, c :: tl, by rw [h1], rfl, rfl, ?_⟩
      intro x hx
      rcases List.mem_cons.mp hx with rfl | hx
      · rw [h3]; exact Bool.eq_false_iff.mpr hf
      · exact h4 x hx

theorem coalesce_origin (rest : List BlockHeader) : ∀ cur : BlockHeader,
    ∀ y ∈ coalesce cur rest, ∃ x ∈ cur :: rest, x.addr = y.addr ∧ x.is_free = y.is_free := by
  induction rest with
  | nil =>
    intro cur y hy
    exact ⟨y, hy, rfl, rfl⟩
  | cons n r ih =>
    intro cur y hy
    by_cases hf : n.is_free = true
    · simp only [coalesce, if_pos hf] at hy
      obtain ⟨x, hx, h1, h2⟩ := ih _ y hy
      rcases List.mem_cons.mp hx with rfl | hx
      · exact ⟨cur, List.mem_cons_self _ _, h1, h2⟩
      · exact ⟨x, List.mem_cons_of_mem _ (List.mem_cons_of_mem _ hx), h1, h2⟩
    · simp only [coalesce, if_neg hf] at hy
      rcases List.mem_cons.mp hy with rfl | hy
      · exact ⟨y, List.mem_cons_self _ _, rfl, rfl⟩
      · obtain ⟨x, hx, h1, h2⟩ := ih n y hy
        exact ⟨x, List.mem_cons_of_mem _ hx, h1, h2⟩

theorem coalesce_keeps (rest : List BlockHeader) : ∀ cur : BlockHeader,
    ∀ x ∈ cur :: rest, (x = cur ∨ x.is_free = false) →
      ∃ y ∈ coalesce cur rest, y.addr = x.addr ∧ y.is_free = x.is_free := by
  induction rest with
  | nil =>
    intro cur x hx _
    exact ⟨x, hx, rfl, rfl⟩
  | cons n r ih =>
    intro cur x hx hk
    by_cases hf : n.is_free = true
    · simp only [coalesce, if_pos hf]
      have hcur : ∃ y ∈ coalesce
          { cur with
            size := (cur.size + (n.size + sizeof_BlockHeader) % 2 ^ 64) % 2 ^ 64 } r,
          y.addr = cur.addr ∧ y.is_free = cur.is_free := by
        obtain ⟨y, hy, h1, h2⟩ := ih
          { cur with
            size := (cur.size + (n.size + sizeof_BlockHeader) % 2 ^ 64) % 2 ^ 64 }
          { cur with
            size := (cur.size + (n.size + sizeof_BlockHeader) % 2 ^ 64) % 2 ^ 64 }
          (List.mem_cons_self _ _) (Or.inl rfl)
        exact ⟨y, hy, h1, h2⟩
      rcases hk with rfl | hk
      · exact hcur
      · rcases List.mem_cons.mp hx with rfl | hx
        · exact hcur
        · rcases List.mem_cons.mp hx with rfl | hx
          · rw [hf] at hk; cases hk
          · exact ih _ x (List.mem_cons_of_mem _ hx) (Or.inr hk)
    · simp only [coalesce, if_neg hf]
      have hcur : ∀ z, z = cur → ∃ y ∈ cur :: coalesce n r,
          y.addr = z.addr ∧ y.is_free = z.is_free := by
        intro z hz
        subst hz
        exact ⟨z, List.mem_cons_self _ _, rfl, rfl⟩
      rcases hk with hk | hk
      · exact hcur x hk
      · rcases List.mem_cons.mp hx with hx | hx
        · exact hcur x hx
        · obtain ⟨y, hy, h1, h2⟩ := ih n x hx (Or.inr hk)
          exact ⟨y, List.mem_cons_of_mem _ hy, h1, h2⟩

theorem coalesce_aligned (rest : List BlockHeader) : ∀ cur : BlockHeader,
    (∀ x ∈ cur :: rest, 8 ∣ x.addr ∧ 8 ∣ x.size) →
    ∀ y ∈ coalesce cur rest, 8 ∣ y.addr ∧ 8 ∣ y.size := by
  induction rest with
  | nil =>
    intro cur h y hy
    exact h y hy
  | cons n r ih =>
    intro cur h y hy
    have hc := h cur (List.mem_cons_self _ _)
    have hn := h n (List.mem_cons_of_mem _ (List.mem_cons_self _ _))
    by_cases hf : n.is_free = true
    · simp only [coalesce, if_pos hf] at hy
      refine ih _ ?_ y hy
      intro x hx
      rcases List.mem_cons.mp hx with rfl | hx
      · refine ⟨hc.1, ?_⟩
        simp only [sizeof_BlockHeader]
        omega
      · exact h x (List.mem_cons_of_mem _ (List.mem_cons_of_mem _ hx))
    · simp only [coalesce, if_neg hf] at hy
      rcases List.mem_cons.mp hy with rfl | hy
      · exact hc
      · exact ih n (fun x hx => h x (List.mem_cons_of_mem _ hx)) y hy

theorem mark_free_chain (k : Nat) (l : List BlockHeader) : ∀ s : Nat,
    (Chain s (mark_free k l) ↔ Chain s l) ∧ span (mark_free k l) = span l := by
  induction l with
  | nil => intro s; exact ⟨Iff.rfl, rfl⟩
  | cons b r ih =>
    intro s
    have i := ih (s + sizeof_BlockHeader + b.size)
    unfold mark_free at i ⊢
    by_cases hb : b.addr = k
    · simp only [List.map_cons, if_pos hb, Chain, span]
      exact ⟨and_congr Iff.rfl i.1, by rw [i.2]⟩
    · simp only [List.map_cons, if_neg hb, Chain, span]
      exact ⟨and_congr Iff.rfl i.1, by rw [i.2]⟩

theorem mark_free_mem (k : Nat) (l : List BlockHeader) (y : BlockHeader) :
    y ∈ mark_free k l ↔
      ∃ x ∈ l, (if x.addr = k then { x with is_free := true } else x) = y := by
  unfold mark_free
  exact List.mem_map

theorem chain_addr_inj (l : List BlockHeader) : ∀ s : Nat, Chain s l →
    ∀ x ∈ l, ∀ y ∈ l, x.addr = y.addr → x = y := by
  induction l with
  | nil => intro s _ x hx; cases hx
  | cons b r ih =>
    intro s hc x hx y hy hxy
    obtain ⟨h1, h2⟩ := hc
    rcases List.mem_cons.mp hx with ex | hxr
    · rcases List.mem_cons.mp hy with ey | hyr
      · rw [ex, ey]
      · have := chain_bounds r _ h2 y hyr
        simp only [sizeof_BlockHeader] at this
        rw [ex] at hxy
        omega
    · rcases List.mem_cons.mp hy with ey | hyr
      · have := chain_bounds r _ h2 x hxr
        simp only [sizeof_BlockHeader] at this
        rw [ey] at hxy
        omega
      · exact ih _ h2 x hxr y hyr hxy

theorem inv_free (l : List BlockHeader) (live : List Nat) (h : Nat)
    (hinv : Inv l live) (hh : h ∈ live) :
    sizeof_BlockHeader ≤ h ∧
    ∃ cur rest, mark_free (h - sizeof_BlockHeader) l = cur :: rest ∧
      Inv (coalesce cur rest) (live.erase h) := by
  obtain ⟨hne, hch, hsp⟩ := hinv.tiles
  obtain ⟨b0, hb0, hb0a⟩ := hinv.live_block h hh
  have hge : sizeof_BlockHeader ≤ h := by omega
  refine ⟨hge, ?_⟩
  have hk : ∀ x : BlockHeader, x.addr = h - sizeof_BlockHeader ↔ x.addr + sizeof_BlockHeader = h := by
    intro x; omega
  cases hm : mark_free (h - sizeof_BlockHeader) l with
  | nil =>
    exfalso
    unfold mark_free at hm
    exact hne (List.map_eq_nil_iff.mp hm)
  | cons cur rest =>
    refine ⟨cur, rest, rfl, ?_⟩
    have hmc := mark_free_chain (h - sizeof_BlockHeader) l 0
    rw [hm] at hmc
    have hc2 : Chain 0 (cur :: rest) := hmc.1.mpr hch
    have hs2 : span (cur :: rest) = HEAP_SIZE := by rw [hmc.2, hsp]
    obtain ⟨i1, i2⟩ := coalesce_chain rest cur 0 hc2 (by rw [hs2]; simp only [HEAP_SIZE]; omega)
    obtain ⟨c, tl, s1, s2, s3, s4⟩ := coalesce_shape rest cur
    have hmem : ∀ y ∈ cur :: rest, ∃ x ∈ l,
        (if x.addr = h - sizeof_BlockHeader then { x with is_free := true } else x) = y := by
      intro y hy
      rw [← hm] at hy
      exact (mark_free_mem _ _ _).mp hy
    refine ⟨⟨?_, i1, by rw [i2, hs2]⟩, ?_, ?_, ?_, hinv.nodup.erase h, ?_⟩
    · rw [s1]; exact List.cons_ne_nil _ _
    · apply coalesce_aligned rest cur
      intro y hy
      obtain ⟨x, hx, hxy⟩ := hmem y hy
      have := hinv.aligned x hx
      split_ifs at hxy <;> subst hxy <;> exact this
    · intro y hy
      obtain ⟨z, hz, hza, hzf⟩ := coalesce_origin rest cur y hy
      obtain ⟨x, hx, hxz⟩ := hmem z hz
      rw [hinv.nodup.mem_erase_iff]
      have hal := hinv.alloc_live x hx
      by_cases hxa : x.addr = h - sizeof_BlockHeader
      · rw [if_pos hxa] at hxz
        subst hxz
        simp only at hza hzf
        constructor
        · intro hf; rw [← hzf] at hf; cases hf
        · intro hm2
          exfalso
          apply hm2.1
          rw [← hza]
          exact (hk x).mp hxa
      · rw [if_neg hxa] at hxz
        subst hxz
        rw [← hzf, ← hza]
        constructor
        · intro hf
          exact ⟨fun e => hxa ((hk x).mpr e), hal.mp hf⟩
        · intro hm2
          exact hal.mpr hm2.2
    · intro h2 hh2
      rw [hinv.nodup.mem_erase_iff] at hh2
      obtain ⟨x, hx, hxa⟩ := hinv.live_block h2 hh2.2
      have hxf : x.is_free = false := (hinv.alloc_live x hx).mpr (by rw [hxa]; exact hh2.2)
      have hxk : ¬ x.addr = h - sizeof_BlockHeader := by
        intro e
        exact hh2.1 (by rw [← hxa]; exact (hk x).mp e)
      have hxm : x ∈ cur :: rest := by
        rw [← hm]
        exact (mark_free_mem _ _ _).mpr ⟨x, hx, by rw [if_neg hxk]⟩
      obtain ⟨y, hy, hya, _⟩ := coalesce_keeps rest cur x hxm (Or.inr hxf)
      exact ⟨y, hy, by rw [hya, hxa]⟩
    · rw [s1, List.countP_cons]
      have : List.countP (fun b => b.is_free) tl = 0 := by
        rw [List.countP_eq_zero]
        intro x hx
        rw [s4 x hx]
        simp
      rw [this]
      split_ifs <;> omega
theorem lazy_init_initialized (st : Arena) : (lazy_init st).initialized = true := by
  unfold lazy_init
  split_ifs with h
  · exact h
  · rfl

theorem lazy_init_of_initialized (st : Arena) (h : st.initialized = true) :
    lazy_init st = st := by
  unfold lazy_init
  rw [if_pos h]

theorem alloc_cases (size : Nat) (st : Arena) :
    ((size = 0 ∨ alloc_loop (align size) (lazy_init st).free_list = none) ∧
      alloc_ size st = (none, lazy_init st)) ∨
    (size ≠ 0 ∧ ∃ p chain,
      alloc_loop (align size) (lazy_init st).free_list = some (p, chain) ∧
      alloc_ size st = (some p, { lazy_init st with free_list := chain })) := by
  by_cases h0 : size = 0
  · left
    exact ⟨Or.inl h0, by simp only [alloc_, if_pos h0]⟩
  · cases hl : alloc_loop (align size) (lazy_init st).free_list with
    | none =>
      left
      exact ⟨Or.inr rfl, by simp only [alloc_, if_neg h0, hl]⟩
    | some v =>
      right
      obtain ⟨p, chain⟩ := v
      exact ⟨h0, p, chain, rfl, by simp only [alloc_, if_neg h0, hl]⟩

theorem lazy_init_inv (st : Arena) (live : List Nat)
    (h : (st = Arena.fresh ∧ live = []) ∨ (st.initialized = true ∧ Inv st.free_list live)) :
    Inv (lazy_init st).free_list live := by
  rcases h with ⟨h1, h2⟩ | ⟨h1, h2⟩
  · subst h1 h2
    exact inv_initialize
  · rw [lazy_init_of_initialized st h1]
    exact h2

theorem alloc_inv (size : Nat) (st : Arena) (live : List Nat)
    (h : Inv (lazy_init st).free_list live) :
    (alloc_ size st).2.initialized = true ∧
    Inv (alloc_ size st).2.free_list
      (match (alloc_ size st).1 with
        | some p => p :: live
        | none => live) := by
  rcases alloc_cases size st with ⟨_, e⟩ | ⟨_, p, chain, hl, e⟩
  · rw [e]
    exact ⟨lazy_init_initialized st, h⟩
  · rw [e]
    exact ⟨lazy_init_initialized st, inv_alloc_loop _ _ _ _ _ h (align_dvd size) hl⟩

theorem free_inv (st : Arena) (live : List Nat) (h : Nat)
    (hinv : Inv st.free_list live) (hh : h ∈ live) :
    (free_ (some h) st).initialized = st.initialized ∧
    Inv (free_ (some h) st).free_list (live.erase h) := by
  obtain ⟨hge, cur, rest, hm, hi⟩ := inv_free st.free_list live h hinv hh
  have e : free_ (some h) st = { st with free_list := coalesce cur rest } := by
    simp only [free_, if_pos hge, hm]
  rw [e]
  exact ⟨rfl, hi⟩

theorem reachable_inv (st : Arena) (live : List Nat) (hr : Reachable st live) :
    (st = Arena.fresh ∧ live = []) ∨ (st.initialized = true ∧ Inv st.free_list live) := by
  induction hr with
  | fresh => exact Or.inl ⟨rfl, rfl⟩
  | alloc st live size _ _ ih =>
    exact Or.inr (alloc_inv size st live (lazy_init_inv st live ih))
  | free st live h _ hh ih =>
    rcases ih with ⟨_, h2⟩ | ⟨h1, h2⟩
    · rw [h2] at hh; cases hh
    · obtain ⟨f1, f2⟩ := free_inv st live h h2 hh
      exact Or.inr ⟨by rw [f1]; exact h1, f2⟩

theorem reachable_lazy_inv (st : Arena) (live : List Nat) (hr : Reachable st live) :
    Inv (lazy_init st).free_list live :=
  lazy_init_inv st live (reachable_inv st live hr)

theorem alloc_null_iff (size : Nat) (st : Arena) :
    (alloc_ size st).1 = none ↔
      size = 0 ∨ ∀ b ∈ (lazy_init st).free_list, ¬ (b.is_free = true ∧ align size ≤ b.size) := by
  rcases alloc_cases size st with ⟨h, e⟩ | ⟨h0, p, chain, hl, e⟩
  · rw [e]
    refine ⟨fun _ => ?_, fun _ => rfl⟩
    rcases h with h | h
    · exact Or.inl h
    · exact Or.inr ((alloc_loop_none _ _).mp h)
  · rw [e]
    constructor
    · intro h; cases h
    · intro h
      rcases h with h | h
      · exact absurd h h0
      · rw [(alloc_loop_none _ _).mpr h] at hl
        cases hl

theorem alloc_null_state (size : Nat) (st : Arena) (h : (alloc_ size st).1 = none) :
    (alloc_ size st).2 = lazy_init st := by
  rcases alloc_cases size st with ⟨_, e⟩ | ⟨_, p, chain, _, e⟩
  · rw [e]
  · rw [e] at h; cases h

theorem alloc_some_loop (size : Nat) (st : Arena) (h : Nat) (hret : (alloc_ size st).1 = some h) :
    ∃ chain, alloc_loop (align size) (lazy_init st).free_list = some (h, chain) ∧
      (alloc_ size st).2 = { lazy_init st with free_list := chain } := by
  rcases alloc_cases size st with ⟨_, e⟩ | ⟨_, p, chain, hl, e⟩
  · rw [e] at hret; cases hret
  · rw [e] at hret
    have hp : p = h := Option.some.inj hret
    subst hp
    exact ⟨chain, hl, by rw [e]⟩

theorem alloc_some_block (size : Nat) (st : Arena) (live : List Nat) (h : Nat)
    (hinv : Inv (lazy_init st).free_list live) (hret : (alloc_ size st).1 = some h) :
    Inv (alloc_ size st).2.free_list (h :: live) ∧
    ∃ b ∈ (alloc_ size st).2.free_list, b.addr + sizeof_BlockHeader = h ∧ b.is_free = false ∧
      align size ≤ b.size ∧ h + b.size ≤ HEAP_SIZE := by
  obtain ⟨chain, hl, e⟩ := alloc_some_loop size st h hret
  have hi : Inv chain (h :: live) := inv_alloc_loop _ _ _ _ _ hinv (align_dvd size) hl
  rw [e]
  refine ⟨hi, ?_⟩
  obtain ⟨pre, b, post, hpre, _, hbf, hab, hp, hc⟩ := alloc_loop_some _ _ _ _ hl
  have hbs := inv_size_le _ _ hinv b (by rw [hpre]; simp)
  simp only [sizeof_BlockHeader, HEAP_SIZE, ALIGNMENT] at hbs hc hp ⊢
  by_cases hs : b.size ≥ (align size + 24 + 8) % 2 ^ 64
  · rw [if_pos hs] at hc
    refine ⟨{ b with size := align size, is_free := false }, by rw [hc]; simp, ?_, rfl, ?_, ?_⟩
    · simp only; omega
    · exact Nat.le_refl _
    · simp only; omega
  · rw [if_neg hs] at hc
    refine ⟨{ b with is_free := false }, by rw [hc]; simp, ?_, rfl, hab, ?_⟩
    · simp only; omega
    · simp only; omega

/-! ## C11: when `alloc_` returns the null pointer -/

/-- C11: the code at the failing input, and what the code does in general.  On the
arena before the first call, `alloc_(2^64 - 1)` returns the pointer 24 although no
block of the initialised chain has a size of at least the request rounded up to a
multiple of 8 (which is `2^64`): `align` wraps and yields 0.  In every reachable
state and for every `size_t` argument, `alloc_` returns the null pointer if and only
if the argument is 0 or no block of the chain is free with a size of at least
`align(size)`; a call returning null leaves the chain as lazy initialisation made it;
a call returning a pointer returns the payload address of an allocated block of the
chain that ends inside the arena; and `align(size)` is the size rounded up to a
multiple of 8 whenever `size + 7` does not wrap. -/
theorem C11_alloc_null_iff :
    ((alloc_ 18446744073709551615 Arena.fresh).1 = some 24 ∧
      roundUp8 18446744073709551615 = 2 ^ 64 ∧
      align 18446744073709551615 = 0 ∧
      ∀ b ∈ (lazy_init Arena.fresh).free_list,
        ¬ (b.is_free = true ∧ roundUp8 18446744073709551615 ≤ b.size)) ∧
    (∀ (st : Arena) (live : List Nat) (size : Nat), Reachable st live → size < 2 ^ 64 →
      ((alloc_ size st).1 = none ↔
        size = 0 ∨
          ∀ b ∈ (lazy_init st).free_list, ¬ (b.is_free = true ∧ align size ≤ b.size)) ∧
      ((alloc_ size st).1 = none → (alloc_ size st).2 = lazy_init st) ∧
      (∀ h, (alloc_ size st).1 = some h →
        ∃ b ∈ (alloc_ size st).2.free_list, b.addr + sizeof_BlockHeader = h ∧
          b.is_free = false ∧ h + b.size ≤ HEAP_SIZE) ∧
      (size + 7 < 2 ^ 64 → align size = roundUp8 size)) := by
  refine ⟨⟨by decide, by decide, by decide, by decide⟩, ?_⟩
  intro st live size hr _
  refine ⟨alloc_null_iff size st, alloc_null_state size st, ?_, align_exact size⟩
  intro h hret
  obtain ⟨_, b, hb, h1, h2, _, h4⟩ :=
    alloc_some_block size st live h (reachable_lazy_inv st live hr) hret
  exact ⟨b, hb, h1, h2, h4⟩

/-- C11 witness: `alloc_(0)` and `alloc_(100)` on the arena before the first call. -/
theorem C11_alloc_null_iff_witness :
    Reachable Arena.fresh [] ∧ (0 : Nat) < 2 ^ 64 ∧
    ((alloc_ 0 Arena.fresh).1 = none ↔
      (0 : Nat) = 0 ∨
        ∀ b ∈ (lazy_init Arena.fresh).free_list, ¬ (b.is_free = true ∧ align 0 ≤ b.size)) ∧
    (∀ h, (alloc_ 100 Arena.fresh).1 = some h →
      ∃ b ∈ (alloc_ 100 Arena.fresh).2.free_list, b.addr + sizeof_BlockHeader = h ∧
        b.is_free = false ∧ h + b.size ≤ HEAP_SIZE) :=
  ⟨Reachable.fresh, by decide,
    (C11_alloc_null_iff.2 Arena.fresh [] 0 Reachable.fresh (by decide)).1,
    (C11_alloc_null_iff.2 Arena.fresh [] 100 Reachable.fresh (by decide)).2.2.1⟩

/-! ## C12: first fit -/

/-- C12: whenever `alloc_(size)` returns a pointer `h`, the chain it searched splits as
`pre ++ b :: post` where `b` was free with `size` field at least the aligned request
`align(size)` and `h` is the payload address of `b`; every block of `pre` was
allocated or smaller than the aligned request, and `pre` (like `post`) is in the
chain after the call unchanged, only `b` being replaced. -/
theorem C12_first_fit (st : Arena) (size h : Nat) (hret : (alloc_ size st).1 = some h) :
    ∃ pre b post mid, (lazy_init st).free_list = pre ++ b :: post ∧
      (∀ x ∈ pre, x.is_free = false ∨ x.size < align size) ∧
      b.is_free = true ∧ align size ≤ b.size ∧ h = b.addr + sizeof_BlockHeader ∧
      (alloc_ size st).2.free_list = pre ++ mid ++ post ∧
      (∀ x ∈ mid, b.addr ≤ x.addr) ∧
      ∃ x ∈ mid, x.addr = b.addr ∧ x.is_free = false := by
  obtain ⟨chain, hl, e⟩ := alloc_some_loop size st h hret
  obtain ⟨pre, b, post, hpre, hno, hbf, hab, hp, hc⟩ := alloc_loop_some _ _ _ _ hl
  refine ⟨pre, b, post, _, hpre, ?_, hbf, hab, hp, by rw [e]; exact hc, ?_, ?_⟩
  · intro x hx
    have := hno x hx
    by_cases hf : x.is_free = true
    · right
      have : ¬ align size ≤ x.size := fun hle => this ⟨hf, hle⟩
      omega
    · left
      exact Bool.eq_false_iff.mpr hf
  · intro x hx
    split_ifs at hx
    · simp only [List.mem_cons, List.mem_singleton, List.not_mem_nil, or_false] at hx
      rcases hx with rfl | rfl
      · exact Nat.le_refl _
      · simp only; omega
    · simp only [List.mem_singleton] at hx
      subst hx
      exact Nat.le_refl _
  · split_ifs
    · exact ⟨_, List.mem_cons_self _ _, rfl, rfl⟩
    · exact ⟨_, List.mem_cons_self _ _, rfl, rfl⟩

/-- C12 witness: the third `alloc_(100)` of the scenario `alloc_(100)`, `alloc_(100)`,
`free_` of the first pointer. -/
theorem C12_first_fit_witness :
    (alloc_ 100 ⟨true, [⟨0, 104, true⟩, ⟨128, 1048424, false⟩]⟩).1 = some 24 ∧
    ∃ pre b post mid,
      (lazy_init ⟨true, [⟨0, 104, true⟩, ⟨128, 1048424, false⟩]⟩).free_list = pre ++ b :: post ∧
      (∀ x ∈ pre, x.is_free = false ∨ x.size < align 100) ∧
      b.is_free = true ∧ align 100 ≤ b.size ∧ 24 = b.addr + sizeof_BlockHeader ∧
      (alloc_ 100 ⟨true, [⟨0, 104, true⟩, ⟨128, 1048424, false⟩]⟩).2.free_list
        = pre ++ mid ++ post ∧
      (∀ x ∈ mid, b.addr ≤ x.addr) ∧
      ∃ x ∈ mid, x.addr = b.addr ∧ x.is_free = false :=
  ⟨by decide, C12_first_fit ⟨true, [⟨0, 104, true⟩, ⟨128, 1048424, false⟩]⟩ 100 24 (by decide)⟩
theorem alloc_decompose (st : Arena) (live : List Nat) (size h : Nat)
    (hinv : Inv (lazy_init st).free_list live) (hret : (alloc_ size st).1 = some h) :
    ∃ pre b post, (lazy_init st).free_list = pre ++ b :: post ∧
      (∀ x ∈ pre, ¬ (x.is_free = true ∧ align size ≤ x.size)) ∧
      b.is_free = true ∧ align size ≤ b.size ∧ h = b.addr + sizeof_BlockHeader ∧
      (b.size ≥ align size + sizeof_BlockHeader + ALIGNMENT →
        (alloc_ size st).2.free_list = pre ++
          [{ addr := b.addr, size := align size, is_free := false },
            { addr := b.addr + sizeof_BlockHeader + align size
              size := b.size - align size - sizeof_BlockHeader
              is_free := true }] ++ post) ∧
      (b.size < align size + sizeof_BlockHeader + ALIGNMENT →
        (alloc_ size st).2.free_list = pre ++
          [{ addr := b.addr, size := b.size, is_free := false }] ++ post) := by
  obtain ⟨chain, hl, e⟩ := alloc_some_loop size st h hret
  obtain ⟨pre, b, post, hpre, hno, hbf, hab, hp, hc⟩ := alloc_loop_some _ _ _ _ hl
  have hbs := inv_size_le _ _ hinv b (by rw [hpre]; simp)
  refine ⟨pre, b, post, hpre, hno, hbf, hab, hp, ?_, ?_⟩
  · intro hs
    rw [e]
    simp only [sizeof_BlockHeader, HEAP_SIZE, ALIGNMENT] at hbs hc hs ⊢
    have hmod : (align size + 24 + 8) % 2 ^ 64 = align size + 24 + 8 :=
      Nat.mod_eq_of_lt (by omega)
    have hnew : (b.size - align size + 2 ^ 64 - 24) % 2 ^ 64 = b.size - align size - 24 := by
      omega
    rw [hmod, if_pos hs, hnew] at hc
    exact hc
  · intro hs
    rw [e]
    simp only [sizeof_BlockHeader, HEAP_SIZE, ALIGNMENT] at hbs hc hs ⊢
    have hmod : (align size + 24 + 8) % 2 ^ 64 = align size + 24 + 8 :=
      Nat.mod_eq_of_lt (by omega)
    rw [hmod, if_neg (by omega)] at hc
    exact hc

/-! ## C13: the splitting policy -/

/-- C13, as stated, fails at the boundary: on the initialised arena the free block has
size `S = 1048552`, the request 1048520 is already aligned (`r = 1048520`), and
`S = r + 24 + 8` does not exceed `r + sizeof(BlockHeader) + ALIGNMENT`; yet `alloc_`
splits the block, into an allocated part of size `r` and a free block of size 8. -/
theorem C13_counterexample :
    (lazy_init Arena.fresh).free_list = [⟨0, 1048552, true⟩] ∧
    align 1048520 = 1048520 ∧
    ¬ (1048552 > 1048520 + sizeof_BlockHeader + ALIGNMENT) ∧
    alloc_ 1048520 Arena.fresh
      = (some 24, ⟨true, [⟨0, 1048520, false⟩, ⟨1048544, 8, true⟩]⟩) :=
  ⟨by decide, by decide, by decide, by decide⟩

/-- C13, amended: in every reachable state, when `alloc_` chooses the free block `b` of
size `S` for the aligned request `r = align(size)`, it splits `b` if and only if
`S ≥ r + sizeof(BlockHeader) + ALIGNMENT`: the chain then holds, in place of `b`, an
allocated block of size exactly `r` at `b`'s address followed by a new free block of
size `S - r - sizeof(BlockHeader)` at `b.addr + sizeof(BlockHeader) + r`, which is
followed by `b`'s old successors; otherwise the chain holds `b` itself, of size `S`,
marked allocated. -/
theorem C13_split_policy (st : Arena) (live : List Nat) (size h : Nat)
    (hr : Reachable st live) (hret : (alloc_ size st).1 = some h) :
    ∃ pre b post, (lazy_init st).free_list = pre ++ b :: post ∧
      (∀ x ∈ pre, ¬ (x.is_free = true ∧ align size ≤ x.size)) ∧
      b.is_free = true ∧ align size ≤ b.size ∧ h = b.addr + sizeof_BlockHeader ∧
      (b.size ≥ align size + sizeof_BlockHeader + ALIGNMENT →
        (alloc_ size st).2.free_list = pre ++
          [{ addr := b.addr, size := align size, is_free := false },
            { addr := b.addr + sizeof_BlockHeader + align size
              size := b.size - align size - sizeof_BlockHeader
              is_free := true }] ++ post) ∧
      (b.size < align size + sizeof_BlockHeader + ALIGNMENT →
        (alloc_ size st).2.free_list = pre ++
          [{ addr := b.addr, size := b.size, is_free := false }] ++ post) := by
  exact alloc_decompose st live size h (reachable_lazy_inv st live hr) hret

/-- C13 witness: `alloc_(1048520)` on the arena before the first call. -/
theorem C13_split_policy_witness :
    Reachable Arena.fresh [] ∧ (alloc_ 1048520 Arena.fresh).1 = some 24 ∧
    ∃ pre b post, (lazy_init Arena.fresh).free_list = pre ++ b :: post ∧
      (∀ x ∈ pre, ¬ (x.is_free = true ∧ align 1048520 ≤ x.size)) ∧
      b.is_free = true ∧ align 1048520 ≤ b.size ∧ 24 = b.addr + sizeof_BlockHeader ∧
      (b.size ≥ align 1048520 + sizeof_BlockHeader + ALIGNMENT →
        (alloc_ 1048520 Arena.fresh).2.free_list = pre ++
          [{ addr := b.addr, size := align 1048520, is_free := false },
            { addr := b.addr + sizeof_BlockHeader + align 1048520
              size := b.size - align 1048520 - sizeof_BlockHeader
              is_free := true }] ++ post) ∧
      (b.size < align 1048520 + sizeof_BlockHeader + ALIGNMENT →
        (alloc_ 1048520 Arena.fresh).2.free_list = pre ++
          [{ addr := b.addr, size := b.size, is_free := false }] ++ post) :=
  ⟨Reachable.fresh, by decide,
    C13_split_policy Arena.fresh [] 1048520 24 Reachable.fresh (by decide)⟩

/-! ## C14: the block handed out -/

/-- C14: in every reachable state and for every requested size `n` with
`1 ≤ n ≤ HEAP_SIZE`, if `alloc_(n)` returns a pointer `h` then the chain after the call
has a block whose header sits at `h - sizeof(BlockHeader)`, and every such block has
`is_free = false` and a `size` field of at least `n` rounded up to the next multiple
of 8, which is at least `n`. -/
theorem C14_handed_out_block (st : Arena) (live : List Nat) (n h : Nat)
    (hr : Reachable st live) (h1 : 1 ≤ n) (h2 : n ≤ HEAP_SIZE)
    (hret : (alloc_ n st).1 = some h) :
    (∃ b ∈ (alloc_ n st).2.free_list, b.addr + sizeof_BlockHeader = h) ∧
    (∀ b ∈ (alloc_ n st).2.free_list, b.addr + sizeof_BlockHeader = h →
      b.is_free = false ∧ roundUp8 n ≤ b.size ∧ n ≤ roundUp8 n) := by
  obtain ⟨hi, b, hb, hba, hbf, hbs, _⟩ :=
    alloc_some_block n st live h (reachable_lazy_inv st live hr) hret
  refine ⟨⟨b, hb, hba⟩, ?_⟩
  intro x hx hxa
  have hxb : x = b :=
    chain_addr_inj _ 0 hi.tiles.2.1 x hx b hb (by omega)
  subst hxb
  have hn : n + 7 < 2 ^ 64 := by
    simp only [HEAP_SIZE] at h2
    omega
  rw [align_exact n hn] at hbs
  exact ⟨hbf, hbs, (roundUp8_bounds n).1⟩

/-- C14 witness: `alloc_(100)` on the arena before the first call. -/
theorem C14_handed_out_block_witness :
    Reachable Arena.fresh [] ∧ 1 ≤ 100 ∧ 100 ≤ HEAP_SIZE ∧
    (alloc_ 100 Arena.fresh).1 = some 24 ∧
    (∃ b ∈ (alloc_ 100 Arena.fresh).2.free_list, b.addr + sizeof_BlockHeader = 24) ∧
    (∀ b ∈ (alloc_ 100 Arena.fresh).2.free_list, b.addr + sizeof_BlockHeader = 24 →
      b.is_free = false ∧ roundUp8 100 ≤ b.size ∧ 100 ≤ roundUp8 100) :=
  ⟨Reachable.fresh, by decide, by decide, by decide,
    C14_handed_out_block Arena.fresh [] 100 24 Reachable.fresh (by decide) (by decide)
      (by decide)⟩

/-! ## C15: alignment -/

/-- C15: in every state reachable from the arena before the first call by `alloc_` calls
and `free_` calls on live handles, every header of the chain sits at an offset that is
a multiple of 8 and every `size` field is a multiple of 8; every live handle, and
every pointer a further `alloc_` call returns, is at an offset that is a multiple of
8 (`heap` itself being 8-byte aligned and `sizeof(BlockHeader)` being 24). -/
theorem C15_alignment (st : Arena) (live : List Nat) (hr : Reachable st live) :
    (∀ b ∈ st.free_list, 8 ∣ b.addr ∧ 8 ∣ b.size) ∧
    (∀ h ∈ live, 8 ∣ h) ∧
    (∀ size h, (alloc_ size st).1 = some h → 8 ∣ h) := by
  have hli := reachable_lazy_inv st live hr
  refine ⟨?_, ?_, ?_⟩
  · rcases reachable_inv st live hr with ⟨h1, _⟩ | ⟨_, h2⟩
    · subst h1
      intro b hb
      simp only [Arena.fresh, List.mem_singleton] at hb
      subst hb
      exact ⟨Nat.dvd_zero 8, Nat.dvd_zero 8⟩
    · exact h2.aligned
  · intro h hh
    obtain ⟨b, hb, hba⟩ := hli.live_block h hh
    have := (hli.aligned b hb).1
    simp only [sizeof_BlockHeader] at hba
    omega
  · intro size h hret
    obtain ⟨hi, b, hb, hba, _⟩ := alloc_some_block size st live h hli hret
    have := (hi.aligned b hb).1
    simp only [sizeof_BlockHeader] at hba
    omega

/-- C15 witness: the state after `alloc_(100)` on the arena before the first call. -/
theorem C15_alignment_witness :
    Reachable (alloc_ 100 Arena.fresh).2 [24] ∧
    (∀ b ∈ (alloc_ 100 Arena.fresh).2.free_list, 8 ∣ b.addr ∧ 8 ∣ b.size) ∧
    (∀ h ∈ [24], 8 ∣ h) ∧
    (∀ size h, (alloc_ size (alloc_ 100 Arena.fresh).2).1 = some h → 8 ∣ h) :=
  ⟨Reachable.alloc Arena.fresh [] 100 Reachable.fresh (by decide),
    C15_alignment (alloc_ 100 Arena.fresh).2 [24]
      (Reachable.alloc Arena.fresh [] 100 Reachable.fresh (by decide))⟩
/-! ## C16: the chain tiles the arena -/

theorem chain_pairwise (l : List BlockHeader) : ∀ s : Nat, Chain s l →
    l.Pairwise (fun x y => x.addr < y.addr) := by
  induction l with
  | nil => intro s _; exact List.Pairwise.nil
  | cons b r ih =>
    intro s hc
    obtain ⟨h1, h2⟩ := hc
    refine List.pairwise_cons.mpr ⟨?_, ih _ h2⟩
    intro y hy
    have := chain_bounds r _ h2 y hy
    simp only [sizeof_BlockHeader] at this
    omega

theorem chain_last (l : List BlockHeader) : ∀ s : Nat, Chain s l →
    ∀ b, l.getLast? = some b → b.addr + sizeof_BlockHeader + b.size = s + span l := by
  induction l with
  | nil => intro s _ b hb; cases hb
  | cons c r ih =>
    intro s hc b hb
    obtain ⟨h1, h2⟩ := hc
    cases r with
    | nil =>
      simp only [List.getLast?_singleton, Option.some.injEq] at hb
      subst hb
      simp only [span]
      omega
    | cons d t =>
      rw [List.getLast?_cons_cons] at hb
      have := ih _ h2 b hb
      simp only [span] at this ⊢
      omega

theorem chain_cover (l : List BlockHeader) : ∀ s : Nat, Chain s l →
    ∀ i, s ≤ i → i < s + span l →
      ∃ b ∈ l, b.addr ≤ i ∧ i < b.addr + sizeof_BlockHeader + b.size := by
  induction l with
  | nil =>
    intro s _ i h1 h2
    simp only [span] at h2
    omega
  | cons c r ih =>
    intro s hc i h1 h2
    obtain ⟨hc1, hc2⟩ := hc
    simp only [span] at h2
    by_cases hi : i < s + sizeof_BlockHeader + c.size
    · exact ⟨c, List.mem_cons_self _ _, by omega, by omega⟩
    · obtain ⟨b, hb, hb1, hb2⟩ := ih _ hc2 i (by omega) (by omega)
      exact ⟨b, List.mem_cons_of_mem _ hb, hb1, hb2⟩

theorem chain_disjoint (l : List BlockHeader) : ∀ s : Nat, Chain s l →
    ∀ x ∈ l, ∀ y ∈ l, ∀ i, x.addr ≤ i → i < x.addr + sizeof_BlockHeader + x.size →
      y.addr ≤ i → i < y.addr + sizeof_BlockHeader + y.size → x = y := by
  induction l with
  | nil => intro s _ x hx; cases hx
  | cons b r ih =>
    intro s hc x hx y hy i hx1 hx2 hy1 hy2
    obtain ⟨h1, h2⟩ := hc
    rcases List.mem_cons.mp hx with ex | hxr
    · rcases List.mem_cons.mp hy with ey | hyr
      · rw [ex, ey]
      · have := chain_bounds r _ h2 y hyr
        rw [ex] at hx2
        omega
    · rcases List.mem_cons.mp hy with ey | hyr
      · have := chain_bounds r _ h2 x hxr
        rw [ey] at hy2
        omega
      · exact ih _ h2 x hxr y hyr i hx1 hx2 hy1 hy2

/-- C16: in every initialised state reachable by `alloc_` calls and `free_` calls on live
handles, the chain threaded from `free_list` tiles the arena: its first header is at
offset 0, each next header is at its predecessor's offset plus
`sizeof(BlockHeader)` plus the predecessor's size, so the offsets increase strictly,
the last block ends exactly at `HEAP_SIZE`, the sum over all blocks of
`sizeof(BlockHeader) + size` is `HEAP_SIZE`, and every byte of the arena lies in
exactly one block. -/
theorem C16_chain_tiles_arena (st : Arena) (live : List Nat) (hr : Reachable st live)
    (hinit : st.initialized = true) :
    (∃ first rest, st.free_list = first :: rest ∧ first.addr = 0) ∧
    Chain 0 st.free_list ∧
    st.free_list.Pairwise (fun x y => x.addr < y.addr) ∧
    (∀ b, st.free_list.getLast? = some b →
      b.addr + sizeof_BlockHeader + b.size = HEAP_SIZE) ∧
    span st.free_list = HEAP_SIZE ∧
    (∀ i, i < HEAP_SIZE →
      ∃! b, b ∈ st.free_list ∧ b.addr ≤ i ∧ i < b.addr + sizeof_BlockHeader + b.size) := by
  have hinv : Inv st.free_list live := by
    rcases reachable_inv st live hr with ⟨h1, _⟩ | ⟨_, h2⟩
    · subst h1
      cases hinit
    · exact h2
  obtain ⟨hne, hch, hsp⟩ := hinv.tiles
  refine ⟨?_, hch, chain_pairwise _ 0 hch, ?_, hsp, ?_⟩
  · cases hl : st.free_list with
    | nil => exact absurd hl hne
    | cons first rest =>
      rw [hl] at hch
      exact ⟨first, rest, rfl, hch.1⟩
  · intro b hb
    have := chain_last _ 0 hch b hb
    omega
  · intro i hi
    obtain ⟨b, hb, hb1, hb2⟩ := chain_cover _ 0 hch i (Nat.zero_le i) (by omega)
    refine ⟨b, ⟨hb, hb1, hb2⟩, ?_⟩
    intro y hy
    exact chain_disjoint _ 0 hch y hy.1 b hb i hy.2.1 hy.2.2 hb1 hb2

/-- C16 witness: the state after `alloc_(100)` on the arena before the first call. -/
theorem C16_chain_tiles_arena_witness :
    Reachable (alloc_ 100 Arena.fresh).2 [24] ∧
    (alloc_ 100 Arena.fresh).2.initialized = true ∧
    (alloc_ 100 Arena.fresh).2.free_list = [⟨0, 104, false⟩, ⟨128, 1048424, true⟩] ∧
    span (alloc_ 100 Arena.fresh).2.free_list = HEAP_SIZE :=
  ⟨Reachable.alloc Arena.fresh [] 100 Reachable.fresh (by decide), by decide, by decide,
    (C16_chain_tiles_arena (alloc_ 100 Arena.fresh).2 [24]
      (Reachable.alloc Arena.fresh [] 100 Reachable.fresh (by decide)) (by decide)).2.2.2.2.1⟩

/-! ## C17: allocated blocks and coalescing -/

/-- C17: the code at the failing input, and what the code keeps.  After `alloc_(100)`
(pointer 24) and `alloc_(100)` (pointer 152) the chain is an allocated block of size
104 at 0, an allocated block of size 104 at 128 and a free block of size 1048296 at
256.  `free_` of the first pointer then folds the free block at 256 into the
allocated block at 128, which is not the block being released: that block stays
allocated but its size grows from 104 to 1048424 and its successor is gone from the
chain; the space is lost to `alloc_(200)`, which returns null.  In every reachable
state, `free_` of a live handle keeps every other allocated block in the chain, at
its address and with `is_free = false`. -/
theorem C17_allocated_block_absorbs :
    (alloc_ 100 Arena.fresh = (some 24, ⟨true, [⟨0, 104, false⟩, ⟨128, 1048424, true⟩]⟩) ∧
      alloc_ 100 ⟨true, [⟨0, 104, false⟩, ⟨128, 1048424, true⟩]⟩
        = (some 152, ⟨true, [⟨0, 104, false⟩, ⟨128, 104, false⟩, ⟨256, 1048296, true⟩]⟩) ∧
      free_ (some 24) ⟨true, [⟨0, 104, false⟩, ⟨128, 104, false⟩, ⟨256, 1048296, true⟩]⟩
        = ⟨true, [⟨0, 104, true⟩, ⟨128, 1048424, false⟩]⟩ ∧
      (alloc_ 200 ⟨true, [⟨0, 104, true⟩, ⟨128, 1048424, false⟩]⟩).1 = none) ∧
    (∀ (st : Arena) (live : List Nat) (p : Nat), Reachable st live → p ∈ live →
      ∀ b ∈ st.free_list, b.is_free = false → b.addr + sizeof_BlockHeader ≠ p →
        ∃ c ∈ (free_ (some p) st).free_list, c.addr = b.addr ∧ c.is_free = false) := by
  refine ⟨⟨by decide, by decide, by decide, by decide⟩, ?_⟩
  intro st live p hr hp b hb hbf hbp
  rcases reachable_inv st live hr with ⟨_, h2⟩ | ⟨_, hinv⟩
  · rw [h2] at hp; cases hp
  · obtain ⟨_, f2⟩ := free_inv st live p hinv hp
    have hbl : b.addr + sizeof_BlockHeader ∈ live.erase p :=
      (hinv.nodup.mem_erase_iff).mpr ⟨hbp, (hinv.alloc_live b hb).mp hbf⟩
    obtain ⟨c, hc, hca⟩ := f2.live_block _ hbl
    refine ⟨c, hc, by omega, ?_⟩
    exact (f2.alloc_live c hc).mpr (by rw [hca]; exact hbl)

/-- C17 witness: `free_` of the first pointer after two `alloc_(100)` calls keeps the
second block allocated at offset 128. -/
theorem C17_allocated_block_absorbs_witness :
    Reachable (alloc_ 100 (alloc_ 100 Arena.fresh).2).2 [152, 24] ∧
    ∃ c ∈ (free_ (some 24) (alloc_ 100 (alloc_ 100 Arena.fresh).2).2).free_list,
      c.addr = 128 ∧ c.is_free = false :=
  ⟨Reachable.alloc _ [24] 100 (Reachable.alloc Arena.fresh [] 100 Reachable.fresh (by decide))
      (by decide),
    C17_allocated_block_absorbs.2 (alloc_ 100 (alloc_ 100 Arena.fresh).2).2 [152, 24] 24
      (Reachable.alloc _ [24] 100
        (Reachable.alloc Arena.fresh [] 100 Reachable.fresh (by decide)) (by decide))
      (by decide) ⟨128, 104, false⟩ (by decide) rfl (by decide)⟩

/-! ## C18: full coalescing -/

theorem inv_perm (l : List BlockHeader) (live live1 : List Nat) (hinv : Inv l live)
    (hp : live.Perm live1) : Inv l live1 := by
  refine ⟨hinv.tiles, hinv.aligned, ?_, ?_, hp.nodup_iff.mp hinv.nodup, hinv.one_free⟩
  · intro b hb
    rw [← hp.mem_iff]
    exact hinv.alloc_live b hb
  · intro h hh
    exact hinv.live_block h (hp.mem_iff.mpr hh)

theorem countP_le_one_unique (l : List BlockHeader) (p : BlockHeader → Bool)
    (h : l.countP p ≤ 1) : ∀ x ∈ l, ∀ y ∈ l, p x = true → p y = true → x = y := by
  induction l with
  | nil => intro x hx; cases hx
  | cons c r ih =>
    intro x hx y hy px py
    rw [List.countP_cons] at h
    rcases List.mem_cons.mp hx with ex | hxr
    · rcases List.mem_cons.mp hy with ey | hyr
      · rw [ex, ey]
      · have : 0 < r.countP p := List.countP_pos_iff.mpr ⟨y, hyr, py⟩
        rw [ex] at px
        simp only [px, if_true] at h
        omega
    · have hr : 0 < r.countP p := List.countP_pos_iff.mpr ⟨x, hxr, px⟩
      rcases List.mem_cons.mp hy with ey | hyr
      · rw [ey] at py
        simp only [py, if_true] at h
        omega
      · exact ih (by omega) x hxr y hyr px py

/-- Bytes a run of requests needs: each aligned size plus one header. -/
theorem need_cons (s : Nat) (ss : List Nat) :
    ((s :: ss).map (fun s => roundUp8 s + sizeof_BlockHeader)).sum
      = roundUp8 s + sizeof_BlockHeader
        + (ss.map (fun s => roundUp8 s + sizeof_BlockHeader)).sum := by
  simp

theorem roundUp8_pos (s : Nat) (h : 0 < s) : 8 ≤ roundUp8 s := by
  unfold roundUp8
  omega

theorem alloc_initialized (size : Nat) (st : Arena) : (alloc_ size st).2.initialized = true := by
  rcases alloc_cases size st with ⟨_, e⟩ | ⟨_, p, chain, _, e⟩
  · rw [e]; exact lazy_init_initialized st
  · rw [e]; exact lazy_init_initialized st

theorem allocAll_initialized (sizes : List Nat) : ∀ st : Arena, st.initialized = true →
    (allocAll sizes st).2.initialized = true := by
  induction sizes with
  | nil => intro st h; exact h
  | cons s ss ih =>
    intro st _
    simp only [allocAll]
    exact ih _ (alloc_initialized s st)

theorem allocAll_ok (sizes : List Nat) : ∀ (st : Arena) (live : List Nat),
    Inv (lazy_init st).free_list live → (∀ s ∈ sizes, 0 < s) →
    (sizes = [] ∨ ∃ b ∈ (lazy_init st).free_list, b.is_free = true ∧
      (sizes.map (fun s => roundUp8 s + sizeof_BlockHeader)).sum
        ≤ b.size + sizeof_BlockHeader) →
    ∃ hs, (allocAll sizes st).1 = hs.map some ∧
      Inv (lazy_init (allocAll sizes st).2).free_list (hs ++ live) ∧
      (sizes ≠ [] → (allocAll sizes st).2.initialized = true) := by
  induction sizes with
  | nil =>
    intro st live hinv _ _
    exact ⟨[], rfl, hinv, fun h => absurd rfl h⟩
  | cons s ss ih =>
    intro st live hinv hpos hcap
    rcases hcap with hcap | ⟨b, hb, hbf, hneed⟩
    · cases hcap
    rw [need_cons] at hneed
    have hs0 : 0 < s := hpos s (List.mem_cons_self _ _)
    have hbs := inv_size_le _ _ hinv b hb
    have hru := roundUp8_bounds s
    have hal : align s = roundUp8 s := by
      apply align_exact
      simp only [sizeof_BlockHeader, HEAP_SIZE] at hneed hbs
      omega
    have hsome : ∃ h, (alloc_ s st).1 = some h := by
      cases hr : (alloc_ s st).1 with
      | some h => exact ⟨h, rfl⟩
      | none =>
        exfalso
        rcases (alloc_null_iff s st).mp hr with h0 | hno
        · omega
        · exact hno b hb ⟨hbf, by rw [hal]; omega⟩
    obtain ⟨h, hret⟩ := hsome
    have hinv1 : Inv (alloc_ s st).2.free_list (h :: live) :=
      (alloc_some_block s st live h hinv hret).1
    have hinit1 : (alloc_ s st).2.initialized = true := alloc_initialized s st
    have hlz : lazy_init (alloc_ s st).2 = (alloc_ s st).2 :=
      lazy_init_of_initialized _ hinit1
    have hcap1 : ss = [] ∨ ∃ b1 ∈ (lazy_init (alloc_ s st).2).free_list, b1.is_free = true ∧
        (ss.map (fun s => roundUp8 s + sizeof_BlockHeader)).sum
          ≤ b1.size + sizeof_BlockHeader := by
      cases ss with
      | nil => exact Or.inl rfl
      | cons s1 ss1 =>
        right
        obtain ⟨pre, c, post, hl, _, hcf, _, _, hsplit, _⟩ :=
          alloc_decompose st live s h hinv hret
        have hc : c ∈ (lazy_init st).free_list := by rw [hl]; simp
        have hcb : c = b :=
          countP_le_one_unique _ _ hinv.one_free c hc b hb hcf hbf
        have hp1 := roundUp8_pos s1 (hpos s1 (by simp))
        have hn1 := need_cons s1 ss1
        rw [hn1] at hneed ⊢
        have hsp := hsplit (by
          rw [hcb, hal]
          simp only [sizeof_BlockHeader, ALIGNMENT] at hneed ⊢
          omega)
        rw [hlz, hsp]
        refine ⟨{ addr := c.addr + sizeof_BlockHeader + align s
                  size := c.size - align s - sizeof_BlockHeader
                  is_free := true }, by simp, rfl, ?_⟩
        rw [hcb, hal]
        simp only [sizeof_BlockHeader] at hneed ⊢
        omega
    obtain ⟨hs, e1, e2, _⟩ := ih (alloc_ s st).2 (h :: live) (by rw [hlz]; exact hinv1)
      (fun x hx => hpos x (List.mem_cons_of_mem _ hx)) hcap1
    refine ⟨h :: hs, ?_, ?_, ?_⟩
    · simp only [allocAll, hret, e1, List.map_cons]
    · simp only [allocAll]
      exact inv_perm _ _ _ e2 List.perm_middle
    · intro _
      simp only [allocAll]
      exact allocAll_initialized ss _ hinit1

theorem freeAll_inv (order : List Nat) : ∀ (st : Arena) (live : List Nat),
    st.initialized = true → Inv st.free_list live → order.Perm live →
    (freeAll order st).initialized = true ∧ Inv (freeAll order st).free_list [] := by
  induction order with
  | nil =>
    intro st live hi hinv hp
    have : live = [] := List.perm_nil.mp hp.symm
    subst this
    exact ⟨hi, hinv⟩
  | cons h t ih =>
    intro st live hi hinv hp
    have hh : h ∈ live := hp.subset (List.mem_cons_self _ _)
    obtain ⟨f1, f2⟩ := free_inv st live h hinv hh
    have hp2 : t.Perm (live.erase h) :=
      List.Perm.cons_inv (hp.trans (List.perm_cons_erase hh))
    simp only [freeAll]
    exact ih _ _ (by rw [f1]; exact hi) f2 hp2

theorem inv_nil_single (l : List BlockHeader) (hinv : Inv l []) :
    l = [{ addr := 0, size := HEAP_SIZE - sizeof_BlockHeader, is_free := true }] := by
  have hfree : ∀ b ∈ l, b.is_free = true := by
    intro b hb
    cases hf : b.is_free with
    | true => rfl
    | false =>
      have := (hinv.alloc_live b hb).mp hf
      cases this
  obtain ⟨hne, hch, hsp⟩ := hinv.tiles
  cases l with
  | nil => exact absurd rfl hne
  | cons b r =>
    cases r with
    | nil =>
      have hb := hfree b (List.mem_cons_self _ _)
      obtain ⟨ha, _⟩ := hch
      simp only [span] at hsp
      obtain ⟨a, s, f⟩ := b
      simp only at hb ha hsp
      subst hb ha
      have : s = HEAP_SIZE - sizeof_BlockHeader := by omega
      rw [this]
    | cons c t =>
      exfalso
      have h1 := hinv.one_free
      have hb := hfree b (List.mem_cons_self _ _)
      have hc := hfree c (List.mem_cons_of_mem _ (List.mem_cons_self _ _))
      rw [List.countP_cons, List.countP_cons] at h1
      simp only [hb, hc, if_true] at h1
      omega

/-- C18: for every list of positive sizes whose sizes rounded up to a multiple of 8, plus
one header each, fit in the arena, allocating them in order from the arena before
the first call (or from the arena just initialised) returns a pointer each time; and
after releasing every one of these pointers exactly once, in any order, the chain is
one free block of size `HEAP_SIZE - sizeof(BlockHeader)` at offset 0, so
`alloc_(HEAP_SIZE - sizeof(BlockHeader))` returns a pointer.  (With an empty list of
sizes no call is made, and the arena before the first call is still uninitialised;
the chain is the single free block once `alloc_` has run its lazy initialisation.) -/
theorem C18_full_coalescing (sizes order : List Nat) (st0 : Arena)
    (hst : st0 = Arena.fresh ∨ st0 = lazy_init Arena.fresh)
    (hpos : ∀ s ∈ sizes, 0 < s)
    (hfit : (sizes.map (fun s => roundUp8 s + sizeof_BlockHeader)).sum ≤ HEAP_SIZE)
    (hord : order.Perm ((allocAll sizes st0).1.filterMap id)) :
    (∀ o ∈ (allocAll sizes st0).1, o ≠ none) ∧
    (sizes ≠ [] ∨ st0.initialized = true →
      (freeAll order (allocAll sizes st0).2).free_list
        = [{ addr := 0, size := HEAP_SIZE - sizeof_BlockHeader, is_free := true }]) ∧
    (lazy_init (freeAll order (allocAll sizes st0).2)).free_list
      = [{ addr := 0, size := HEAP_SIZE - sizeof_BlockHeader, is_free := true }] ∧
    (alloc_ (HEAP_SIZE - sizeof_BlockHeader) (freeAll order (allocAll sizes st0).2)).1
      = some sizeof_BlockHeader := by
  have hl0 : lazy_init st0 = lazy_init Arena.fresh := by
    rcases hst with h | h
    · rw [h]
    · rw [h]; rfl
  have hinv0 : Inv (lazy_init st0).free_list [] := by
    rw [hl0]; exact inv_initialize
  obtain ⟨hs, e1, e2, e3⟩ := allocAll_ok sizes st0 [] hinv0 hpos (by
    right
    rw [hl0]
    exact ⟨_, List.mem_cons_self _ _, rfl, by
      simp only [sizeof_BlockHeader, HEAP_SIZE] at hfit ⊢; omega⟩)
  rw [List.append_nil] at e2
  have hfm : (allocAll sizes st0).1.filterMap id = hs := by
    rw [e1, List.filterMap_map]
    simp
  rw [hfm] at hord
  have hnn : ∀ o ∈ (allocAll sizes st0).1, o ≠ none := by
    intro o ho
    rw [e1] at ho
    obtain ⟨x, _, hx⟩ := List.mem_map.mp ho
    rw [← hx]
    exact Option.some_ne_none x
  have hfin : (lazy_init (freeAll order (allocAll sizes st0).2)).free_list
      = [{ addr := 0, size := HEAP_SIZE - sizeof_BlockHeader, is_free := true }] ∧
      ((allocAll sizes st0).2.initialized = true →
        (freeAll order (allocAll sizes st0).2).free_list
          = [{ addr := 0, size := HEAP_SIZE - sizeof_BlockHeader, is_free := true }]) := by
    by_cases hi : (allocAll sizes st0).2.initialized = true
    · rw [lazy_init_of_initialized _ hi] at e2
      obtain ⟨f1, f2⟩ := freeAll_inv order _ hs hi e2 hord
      have := inv_nil_single _ f2
      rw [lazy_init_of_initialized _ f1]
      exact ⟨this, fun _ => this⟩
    · have hsz : sizes = [] := by
        by_contra hne
        exact hi (e3 hne)
      subst hsz
      simp only [allocAll] at e1 hi ⊢
      have hhs : hs = [] := by
        cases hs with
        | nil => rfl
        | cons a t => cases e1
      subst hhs
      have ho : order = [] := List.perm_nil.mp hord
      subst ho
      simp only [freeAll]
      refine ⟨?_, fun h => absurd h hi⟩
      rw [hl0]
      rfl
  refine ⟨hnn, ?_, hfin.1, ?_⟩
  · intro h
    apply hfin.2
    rcases h with h | h
    · exact e3 h
    · rcases hst with h1 | h1
      · rw [h1] at h; cases h
      · cases sizes with
        | nil => simp only [allocAll]; exact h
        | cons s ss => exact e3 (List.cons_ne_nil _ _)
  · have hf := hfin.1
    have : alloc_ (HEAP_SIZE - sizeof_BlockHeader) (freeAll order (allocAll sizes st0).2)
        = (some sizeof_BlockHeader,
            { lazy_init (freeAll order (allocAll sizes st0).2) with
              free_list := [{ addr := 0, size := HEAP_SIZE - sizeof_BlockHeader,
                              is_free := false }] }) := by
      simp only [alloc_, hf]
      rfl
    rw [this]

/-- C18 witness: sizes 100 and 8, released in the order second, first. -/
theorem C18_full_coalescing_witness :
    (allocAll [100, 8] Arena.fresh).1 = [some 24, some 152] ∧
    (freeAll [152, 24] (allocAll [100, 8] Arena.fresh).2).free_list
      = [{ addr := 0, size := HEAP_SIZE - sizeof_BlockHeader, is_free := true }] ∧
    (alloc_ (HEAP_SIZE - sizeof_BlockHeader)
      (freeAll [152, 24] (allocAll [100, 8] Arena.fresh).2)).1 = some sizeof_BlockHeader :=
  ⟨by decide,
    (C18_full_coalescing [100, 8] [152, 24] Arena.fresh (Or.inl rfl) (by decide) (by decide)
      (by decide)).2.1 (Or.inl (by decide)),
    (C18_full_coalescing [100, 8] [152, 24] Arena.fresh (Or.inl rfl) (by decide) (by decide)
      (by decide)).2.2.2⟩

/-! ## C19: requests larger than the arena -/

/-- C19: the code at the failing input, and what the code does below the wrap.  The
request `2^64 - 1` is larger than the usable capacity `HEAP_SIZE - sizeof(BlockHeader)`,
yet on the arena before the first call `alloc_(2^64 - 1)` returns the pointer 24, to a
block whose size is 0: `align` wraps to 0.  For every request with `size + 7 < 2^64`,
in every reachable state, `alloc_` returns null when the request exceeds the usable
capacity, and a pointer it returns is to a block of at least the requested size. -/
theorem C19_huge_request :
    (HEAP_SIZE - sizeof_BlockHeader < 18446744073709551615 ∧
      (18446744073709551615 : Nat) < 2 ^ 64 ∧
      alloc_ 18446744073709551615 Arena.fresh
        = (some 24, ⟨true, [⟨0, 0, false⟩, ⟨24, 1048528, true⟩]⟩)) ∧
    (∀ (st : Arena) (live : List Nat) (size : Nat), Reachable st live →
      size + 7 < 2 ^ 64 →
      (HEAP_SIZE - sizeof_BlockHeader < size → (alloc_ size st).1 = none) ∧
      (∀ h, (alloc_ size st).1 = some h →
        ∃ b ∈ (alloc_ size st).2.free_list, b.addr + sizeof_BlockHeader = h ∧
          size ≤ b.size)) := by
  refine ⟨⟨by decide, by decide, by decide⟩, ?_⟩
  intro st live size hr hw
  have hinv := reachable_lazy_inv st live hr
  have hal := align_exact size hw
  have hru := roundUp8_bounds size
  refine ⟨?_, ?_⟩
  · intro hbig
    apply (alloc_null_iff size st).mpr
    right
    intro b hb hfit
    have := inv_size_le _ _ hinv b hb
    rw [hal] at hfit
    omega
  · intro h hret
    obtain ⟨_, b, hb, h1, _, h3, _⟩ := alloc_some_block size st live h hinv hret
    rw [hal] at h3
    exact ⟨b, hb, h1, by omega⟩

/-- C19 witness: `alloc_(HEAP_SIZE)` on the arena before the first call. -/
theorem C19_huge_request_witness :
    Reachable Arena.fresh [] ∧ HEAP_SIZE + 7 < 2 ^ 64 ∧
    HEAP_SIZE - sizeof_BlockHeader < HEAP_SIZE ∧ (alloc_ HEAP_SIZE Arena.fresh).1 = none :=
  ⟨Reachable.fresh, by decide, by decide,
    (C19_huge_request.2 Arena.fresh [] HEAP_SIZE Reachable.fresh (by decide)).1 (by decide)⟩

/-! ## C20: the reuse scenario -/

/-- C20: on the arena before the first call, `h1 = alloc_(100)` is the pointer 24,
`h2 = alloc_(100)` is the pointer 152, distinct from `h1`, and after `free_(h1)` the
call `h3 = alloc_(100)` returns 24 again: the third allocation reuses the first block
and not a block further into the arena. -/
theorem C20_reuse_first_block :
    ∃ (h1 h2 h3 : Nat) (s1 s2 s3 : Arena),
      alloc_ 100 Arena.fresh = (some h1, s1) ∧
      alloc_ 100 s1 = (some h2, s2) ∧
      h1 ≠ h2 ∧
      alloc_ 100 (free_ (some h1) s2) = (some h3, s3) ∧
      h3 = h1 ∧ h3 < h2 :=
  ⟨24, 152, 24,
    ⟨true, [⟨0, 104, false⟩, ⟨128, 1048424, true⟩]⟩,
    ⟨true, [⟨0, 104, false⟩, ⟨128, 104, false⟩, ⟨256, 1048296, true⟩]⟩,
    ⟨true, [⟨0, 104, false⟩, ⟨128, 1048424, false⟩]⟩,
    by decide, by decide, by decide, by decide, rfl, by decide⟩

/-! ## C23 and C26: what the coalescing walk leaves free -/

theorem free_tail_allocated (st : Arena) (p : Nat) :
    ∀ x ∈ (free_ (some p) st).free_list.tail, x.is_free = false := by
  intro x hx
  simp only [free_] at hx
  split at hx
  · simp at hx
  · rename_i cur rest _
    obtain ⟨c, tl, e, _, _, htl⟩ := coalesce_shape rest cur
    simp only [e, List.tail_cons] at hx
    exact htl x hx

/-- C26: in every state reachable from the arena before the first call by `alloc_`
calls and `free_` calls on live handles, at most one block of the list is free; and
after a `free_` call on a live handle of such a state no block other than the first
block of the list is free. -/
theorem C26_at_most_one_free (st : Arena) (live : List Nat) (hr : Reachable st live) :
    st.free_list.countP (fun b => b.is_free) ≤ 1 ∧
    ∀ h ∈ live, ∀ x ∈ (free_ (some h) st).free_list.tail, x.is_free = false := by
  refine ⟨?_, fun h _ => free_tail_allocated st h⟩
  rcases reachable_inv st live hr with ⟨h1, _⟩ | ⟨_, h2⟩
  · subst h1
    decide
  · exact h2.one_free

/-- C26 witness: the state after two `alloc_(100)` calls, and `free_` of the second
pointer: the allocated first block absorbs the released block and the free block after
it, so no block of the list is free. -/
theorem C26_at_most_one_free_witness :
    Reachable (alloc_ 100 (alloc_ 100 Arena.fresh).2).2 [152, 24] ∧
    (alloc_ 100 (alloc_ 100 Arena.fresh).2).2.free_list.countP (fun b => b.is_free) ≤ 1 ∧
    (free_ (some 152) (alloc_ 100 (alloc_ 100 Arena.fresh).2).2).free_list
      = [⟨0, 1048552, false⟩] :=
  ⟨Reachable.alloc _ [24] 100 (Reachable.alloc Arena.fresh [] 100 Reachable.fresh (by decide))
      (by decide),
    (C26_at_most_one_free (alloc_ 100 (alloc_ 100 Arena.fresh).2).2 [152, 24]
      (Reachable.alloc _ [24] 100
        (Reachable.alloc Arena.fresh [] 100 Reachable.fresh (by decide)) (by decide))).1,
    by decide⟩

/-! ## C25: live allocations do not overlap -/

theorem coalesce_size_le (rest : List BlockHeader) : ∀ (cur : BlockHeader) (s : Nat),
    Chain s (cur :: rest) → s + span (cur :: rest) < 2 ^ 64 →
    ∀ x ∈ cur :: rest, (x = cur ∨ x.is_free = false) →
      ∃ y ∈ coalesce cur rest, y.addr = x.addr ∧ x.size ≤ y.size := by
  induction rest with
  | nil =>
    intro cur s _ _ x hx _
    exact ⟨x, hx, rfl, Nat.le_refl _⟩
  | cons n r ih =>
    intro cur s hc hb x hx hk
    obtain ⟨h1, h2, h3⟩ := hc
    simp only [span, sizeof_BlockHeader] at hb
    by_cases hf : n.is_free = true
    · simp only [coalesce, if_pos hf]
      have e : (cur.size + (n.size + sizeof_BlockHeader) % 2 ^ 64) % 2 ^ 64
          = cur.size + n.size + sizeof_BlockHeader := by
        simp only [sizeof_BlockHeader]; omega
      rw [e]
      have hc2 : Chain s ({ cur with size := cur.size + n.size + sizeof_BlockHeader } :: r) := by
        refine ⟨h1, ?_⟩
        have e2 : s + sizeof_BlockHeader + (cur.size + n.size + sizeof_BlockHeader)
            = s + sizeof_BlockHeader + cur.size + sizeof_BlockHeader + n.size := by omega
        simp only [e2]
        exact h3
      have hb2 : s + span ({ cur with size := cur.size + n.size + sizeof_BlockHeader } :: r)
          < 2 ^ 64 := by
        simp only [span, sizeof_BlockHeader]; omega
      have hcur : ∃ y ∈ coalesce
          { cur with size := cur.size + n.size + sizeof_BlockHeader } r,
          y.addr = cur.addr ∧ cur.size ≤ y.size := by
        obtain ⟨y, hy, a1, a2⟩ := ih
          { cur with size := cur.size + n.size + sizeof_BlockHeader } s hc2 hb2
          { cur with size := cur.size + n.size + sizeof_BlockHeader }
          (List.mem_cons_self _ _) (Or.inl rfl)
        simp only at a1 a2
        exact ⟨y, hy, a1, by omega⟩
      rcases hk with ek | hk
      · rw [ek]; exact hcur
      · rcases List.mem_cons.mp hx with ex | hx
        · rw [ex]; exact hcur
        · rcases List.mem_cons.mp hx with ex | hx
          · rw [ex, hf] at hk; cases hk
          · exact ih _ s hc2 hb2 x (List.mem_cons_of_mem _ hx) (Or.inr hk)
    · simp only [coalesce, if_neg hf]
      have hcur : ∀ z, z = cur → ∃ y ∈ cur :: coalesce n r,
          y.addr = z.addr ∧ z.size ≤ y.size := by
        intro z hz
        subst hz
        exact ⟨z, List.mem_cons_self _ _, rfl, Nat.le_refl _⟩
      rcases hk with hk | hk
      · exact hcur x hk
      · rcases List.mem_cons.mp hx with hx | hx
        · exact hcur x hx
        · obtain ⟨y, hy, a1, a2⟩ := ih n (s + sizeof_BlockHeader + cur.size) ⟨h2, h3⟩
            (by simp only [span, sizeof_BlockHeader]; omega) x hx (Or.inr hk)
          exact ⟨y, List.mem_cons_of_mem _ hy, a1, a2⟩

theorem sized_alloc (size : Nat) (st : Arena) (live : List (Nat × Nat))
    (h1 : 1 ≤ size) (h2 : size ≤ HEAP_SIZE)
    (hinv : Inv (lazy_init st).free_list (live.map Prod.fst))
    (hs : Sized (lazy_init st).free_list live) :
    Inv (alloc_ size st).2.free_list
      ((match (alloc_ size st).1 with
        | some h => (h, align size) :: live
        | none => live).map Prod.fst) ∧
    Sized (alloc_ size st).2.free_list
      (match (alloc_ size st).1 with
        | some h => (h, align size) :: live
        | none => live) := by
  cases hret : (alloc_ size st).1 with
  | none =>
    simp only
    rw [alloc_null_state size st hret]
    exact ⟨hinv, hs⟩
  | some h =>
    simp only [List.map_cons]
    obtain ⟨hi, b, hb, hba, _, hbs, _⟩ := alloc_some_block size st _ h hinv hret
    refine ⟨hi, ?_⟩
    obtain ⟨pre, b0, post, hpre, _, hb0f, _, _, hsplit, hwhole⟩ :=
      alloc_decompose st _ size h hinv hret
    have hpos : 0 < align size := by
      have e := align_exact size (by simp only [HEAP_SIZE] at h2; omega)
      have := roundUp8_bounds size
      omega
    intro p hp
    rcases List.mem_cons.mp hp with ep | hp
    · rw [ep]
      exact ⟨hpos, b, hb, hba, hbs⟩
    · obtain ⟨hp0, x, hx, hxa, hxs⟩ := hs p hp
      refine ⟨hp0, x, ?_, hxa, hxs⟩
      have hxf : x.is_free = false :=
        (hinv.alloc_live x hx).mpr (by rw [hxa]; exact List.mem_map_of_mem _ hp)
      have hx0 : x ≠ b0 := by
        intro e
        rw [e, hb0f] at hxf
        cases hxf
      rw [hpre] at hx
      have hx2 : x ∈ pre ∨ x ∈ post := by
        rcases List.mem_append.mp hx with h | h
        · exact Or.inl h
        · rcases List.mem_cons.mp h with h | h
          · exact absurd h hx0
          · exact Or.inr h
      by_cases hc : b0.size ≥ align size + sizeof_BlockHeader + ALIGNMENT
      · rw [hsplit hc]
        simp only [List.mem_append]
        rcases hx2 with h | h
        · exact Or.inl (Or.inl h)
        · exact Or.inr h
      · rw [hwhole (by omega)]
        simp only [List.mem_append]
        rcases hx2 with h | h
        · exact Or.inl (Or.inl h)
        · exact Or.inr h

theorem sized_free (st : Arena) (live : List (Nat × Nat)) (h : Nat)
    (hinv : Inv st.free_list (live.map Prod.fst)) (hs : Sized st.free_list live)
    (hmem : h ∈ live.map Prod.fst) :
    (free_ (some h) st).initialized = st.initialized ∧
    Inv (free_ (some h) st).free_list ((live.filter (fun p => p.1 != h)).map Prod.fst) ∧
    Sized (free_ (some h) st).free_list (live.filter (fun p => p.1 != h)) := by
  obtain ⟨f1, f2⟩ := free_inv st _ h hinv hmem
  have heq : (live.map Prod.fst).erase h
      = (live.filter (fun p => p.1 != h)).map Prod.fst := by
    rw [hinv.nodup.erase_eq_filter, List.filter_map]
    rfl
  rw [heq] at f2
  refine ⟨f1, f2, ?_⟩
  obtain ⟨hge, cur, rest, hm, _⟩ := inv_free st.free_list _ h hinv hmem
  have e : free_ (some h) st = { st with free_list := coalesce cur rest } := by
    simp only [free_, if_pos hge, hm]
  rw [e]
  obtain ⟨_, hch, hsp⟩ := hinv.tiles
  have hmc := mark_free_chain (h - sizeof_BlockHeader) st.free_list 0
  rw [hm] at hmc
  have hc2 : Chain 0 (cur :: rest) := hmc.1.mpr hch
  have hs2 : span (cur :: rest) = HEAP_SIZE := by rw [hmc.2, hsp]
  intro p hp
  have hp1 : p.1 ≠ h ∧ p.1 ∈ live.map Prod.fst := by
    rw [List.mem_filter] at hp
    exact ⟨by simpa using hp.2, List.mem_map_of_mem Prod.fst hp.1⟩
  obtain ⟨hp0, x, hx, hxa, hxs⟩ := hs p (List.mem_of_mem_filter hp)
  have hxf : x.is_free = false := (hinv.alloc_live x hx).mpr (by rw [hxa]; exact hp1.2)
  have hxk : ¬ x.addr = h - sizeof_BlockHeader := by
    intro ex
    apply hp1.1
    omega
  have hxm : x ∈ cur :: rest := by
    rw [← hm]
    exact (mark_free_mem _ _ _).mpr ⟨x, hx, by rw [if_neg hxk]⟩
  obtain ⟨y, hy, hya, hys⟩ := coalesce_size_le rest cur 0 hc2
    (by rw [hs2]; simp only [HEAP_SIZE]; omega) x hxm (Or.inr hxf)
  exact ⟨hp0, y, hy, by rw [hya, hxa], by omega⟩

theorem reachableSized_inv (st : Arena) (live : List (Nat × Nat))
    (hr : ReachableSized st live) :
    (st = Arena.fresh ∧ live = []) ∨
    (st.initialized = true ∧ Inv st.free_list (live.map Prod.fst) ∧ Sized st.free_list live) := by
  induction hr with
  | fresh => exact Or.inl ⟨rfl, rfl⟩
  | alloc st live size _ h1 h2 ih =>
    right
    have hl : Inv (lazy_init st).free_list (live.map Prod.fst) ∧
        Sized (lazy_init st).free_list live := by
      rcases ih with ⟨e1, e2⟩ | ⟨e1, e2, e3⟩
      · subst e1 e2
        exact ⟨ inv_initialize, fun p hp => by cases hp⟩
      · rw [lazy_init_of_initialized st e1]
        exact ⟨e2, e3⟩
    exact ⟨alloc_initialized size st, sized_alloc size st live h1 h2 hl.1 hl.2⟩
  | free st live h _ hh ih =>
    rcases ih with ⟨_, e2⟩ | ⟨e1, e2, e3⟩
    · rw [e2] at hh; cases hh
    · obtain ⟨f1, f2, f3⟩ := sized_free st live h e2 e3 hh
      exact Or.inr ⟨by rw [f1]; exact e1, f2, f3⟩

/-- C25: in every state reachable from the arena before the first call by `alloc_`
calls with a size between 1 and `HEAP_SIZE` and `free_` calls on live handles, the
regions `[h, h + align(size))` of the live allocations are not empty, are pairwise
disjoint, lie inside the arena after its first header, and contain no byte of the
header of any block of the list. -/
theorem C25_live_regions_disjoint (st : Arena) (live : List (Nat × Nat))
    (hr : ReachableSized st live) :
    (∀ p ∈ live, 0 < p.2) ∧
    live.Pairwise (fun p q => p.1 + p.2 ≤ q.1 ∨ q.1 + q.2 ≤ p.1) ∧
    (∀ p ∈ live, sizeof_BlockHeader ≤ p.1 ∧ p.1 + p.2 ≤ HEAP_SIZE) ∧
    (∀ p ∈ live, ∀ b ∈ st.free_list,
      b.addr + sizeof_BlockHeader ≤ p.1 ∨ p.1 + p.2 ≤ b.addr) := by
  rcases reachableSized_inv st live hr with ⟨_, e2⟩ | ⟨_, hinv, hs⟩
  · subst e2
    exact ⟨(fun p hp => by cases hp), List.Pairwise.nil, (fun p hp => by cases hp),
      (fun p hp => by cases hp)⟩
  · obtain ⟨_, hch, hsp⟩ := hinv.tiles
    have h24 : sizeof_BlockHeader = 24 := rfl
    refine ⟨fun p hp => (hs p hp).1, ?_, ?_, ?_⟩
    · have hnd : live.Pairwise (fun p q => p.1 ≠ q.1) := by
        have := hinv.nodup
        rw [List.Nodup, List.pairwise_map] at this
        exact this
      refine hnd.imp_of_mem ?_
      intro p q hp hq hne
      obtain ⟨hp0, x, hx, hxa, hxs⟩ := hs p hp
      obtain ⟨hq0, y, hy, hya, hys⟩ := hs q hq
      by_contra hcon
      have hxy : x = y := by
        by_cases hle : p.1 ≤ q.1
        · exact chain_disjoint _ 0 hch x hx y hy q.1 (by omega) (by omega) (by omega) (by omega)
        · exact chain_disjoint _ 0 hch x hx y hy p.1 (by omega) (by omega) (by omega) (by omega)
      apply hne
      rw [← hxa, ← hya, hxy]
    · intro p hp
      obtain ⟨_, x, hx, hxa, hxs⟩ := hs p hp
      have := chain_bounds _ 0 hch x hx
      omega
    · intro p hp b hb
      obtain ⟨hp0, x, hx, hxa, hxs⟩ := hs p hp
      by_contra hcon
      have hbx : b = x := by
        by_cases hle : p.1 ≤ b.addr
        · exact chain_disjoint _ 0 hch b hb x hx b.addr (by omega) (by omega) (by omega)
            (by omega)
        · exact chain_disjoint _ 0 hch b hb x hx p.1 (by omega) (by omega) (by omega) (by omega)
      rw [hbx] at hcon
      omega

/-- C25 witness: after `alloc_(100)`, `alloc_(50)` and `free_` of the first pointer the
one live allocation is the region of 56 bytes at 152. -/
theorem C25_live_regions_disjoint_witness :
    ReachableSized (free_ (some 24) (alloc_ 50 (alloc_ 100 Arena.fresh).2).2) [(152, 56)] ∧
    (free_ (some 24) (alloc_ 50 (alloc_ 100 Arena.fresh).2).2).free_list
      = [⟨0, 104, true⟩, ⟨128, 1048424, false⟩] ∧
    ∀ b ∈ (free_ (some 24) (alloc_ 50 (alloc_ 100 Arena.fresh).2).2).free_list,
      b.addr + sizeof_BlockHeader ≤ 152 ∨ 152 + 56 ≤ b.addr :=
  ⟨ReachableSized.free _ [(152, 56), (24, 104)] 24
      (ReachableSized.alloc _ [(24, 104)] 50
        (ReachableSized.alloc Arena.fresh [] 100 ReachableSized.fresh (by decide) (by decide))
        (by decide) (by decide))
      (by decide),
    by decide,
    fun b hb => (C25_live_regions_disjoint _ [(152, 56)]
      (ReachableSized.free _ [(152, 56), (24, 104)] 24
        (ReachableSized.alloc _ [(24, 104)] 50
          (ReachableSized.alloc Arena.fresh [] 100 ReachableSized.fresh (by decide) (by decide))
          (by decide) (by decide))
        (by decide))).2.2.2 (152, 56) (by decide) b hb⟩

/-! ## C21: `group_digit` -/

/-- C21: the code at the failing inputs.  `group_digit` copies the digits into `buffer`
most significant first, with a separator after every third digit counted from the most
significant one and the minus sign last, and then reverses `buffer`; the string it
returns has the digits of the number in reverse order.  `group_digit(12, ',')` is
`"21"`, `group_digit(1000, ',')` is `"0,001"`, `group_digit(1234567, ',')` is
`"7,654,321"`, `group_digit(1234, ',')` is `"4,321"` and `group_digit(-1234, ',')` is
`"-4,321"`; with the NUL character as separator `group_digit(1234, 0)` is `"4"`. -/
theorem C21_group_digit_reversed :
    group_digit 12 ',' = "21" ∧
    group_digit 1000 ',' = "0,001" ∧
    group_digit 1234567 ',' = "7,654,321" ∧
    group_digit 1234 ',' = "4,321" ∧
    group_digit (-1234) ',' = "-4,321" ∧
    group_digit 1234 (Char.ofNat 0) = "4" := by
  refine ⟨by decide, by decide, by decide, by decide, by decide, by decide⟩

/-! ## C22: `format` -/

theorem find_spec (s : List Char) :
    (find s = none → spec_occurrences s = 0) ∧
    (∀ k, find s = some k →
      s = s.take k ++ placeholder ++ s.drop (k + 2) ∧ k + 2 ≤ s.length ∧
      spec_occurrences s = 1 + spec_occurrences (s.drop (k + 2))) := by
  induction s using find.induct with
  | case1 => exact ⟨fun _ => rfl, fun k h => by simp [find] at h⟩
  | case2 c => exact ⟨fun _ => rfl, fun k h => by simp [find] at h⟩
  | case3 c d cs hc =>
    refine ⟨fun h => ?_, fun k h => ?_⟩
    · simp [find, hc] at h
    · simp only [find, if_pos hc, Option.some.injEq] at h
      subst h
      simp only [spec_occurrences, if_pos hc, hc.1, hc.2, placeholder]
      simp
  | case4 c d cs hc ih =>
    refine ⟨fun h => ?_, fun k h => ?_⟩
    · simp only [find, if_neg hc, Option.map_eq_none'] at h
      simp only [spec_occurrences, if_neg hc]
      exact ih.1 h
    · simp only [find, if_neg hc, Option.map_eq_some'] at h
      obtain ⟨j, hj, hjk⟩ := h
      subst hjk
      obtain ⟨i1, i2, i3⟩ := ih.2 j hj
      refine ⟨?_, ?_, ?_⟩
      · exact congrArg (List.cons c) i1
      · simp only [List.length_cons] at i2 ⊢
        omega
      · simp only [spec_occurrences, if_neg hc]
        rw [i3]
        rfl

theorem find_append_le (p rest : List Char) :
    ∃ k, find (p ++ placeholder ++ rest) = some k ∧ k ≤ p.length := by
  induction p with
  | nil => exact ⟨0, by simp [placeholder, find], Nat.le_refl _⟩
  | cons c p ih =>
    obtain ⟨k, hk, hkl⟩ := ih
    cases hp : p ++ placeholder ++ rest with
    | nil => rw [hp] at hk; simp [find] at hk
    | cons d cs =>
      rw [hp] at hk
      simp only [List.cons_append, List.append_assoc] at hp ⊢
      rw [hp]
      by_cases hc : c = Char.ofNat 123 ∧ d = Char.ofNat 125
      · exact ⟨0, by simp only [find, if_pos hc], Nat.zero_le _⟩
      · exact ⟨k + 1, by simp only [find, if_neg hc, hk, Option.map_some'],
          by simp only [List.length_cons]; omega⟩

theorem find_first (p rest : List Char)
    (hmin : ∀ q r : List Char, p ++ placeholder ++ rest = q ++ placeholder ++ r →
      p.length ≤ q.length) :
    find (p ++ placeholder ++ rest) = some p.length := by
  obtain ⟨k, hk, hkl⟩ := find_append_le p rest
  obtain ⟨h1, h2, _⟩ := (find_spec _).2 k hk
  have := hmin _ _ h1
  rw [List.length_take] at this
  have : k = p.length := by omega
  rw [hk, this]

theorem find_minimal (s : List Char) (k : Nat) (h : find s = some k) (q r : List Char)
    (hs : s = q ++ placeholder ++ r) : k ≤ q.length := by
  obtain ⟨j, hj, hjl⟩ := find_append_le q r
  rw [← hs, h] at hj
  cases hj
  exact hjl

theorem format_helper_error (args : List (List Char)) : ∀ fmt : List Char,
    (format_helper fmt args = .error .invalid_argument ↔ spec_occurrences fmt < args.length) ∧
    (∀ e, format_helper fmt args = .error e → e = .invalid_argument) := by
  induction args with
  | nil =>
    intro fmt
    simp [format_helper]
  | cons value args ih =>
    intro fmt
    cases hf : find fmt with
    | none =>
      simp only [format_helper, hf]
      have := (find_spec fmt).1 hf
      refine ⟨?_, fun e he => by cases he; rfl⟩
      simp only [List.length_cons, true_iff]
      omega
    | some k =>
      obtain ⟨_, _, h3⟩ := (find_spec fmt).2 k hf
      obtain ⟨i1, i2⟩ := ih (fmt.drop (k + 2))
      simp only [format_helper, hf]
      cases hr : format_helper (fmt.drop (k + 2)) args with
      | error e =>
        have he := i2 e hr
        subst he
        have := i1.mp hr
        refine ⟨?_, fun e he => by cases he; rfl⟩
        simp only [List.length_cons, true_iff]
        omega
      | ok out =>
        refine ⟨?_, fun e he => by cases he⟩
        have : ¬ spec_occurrences (fmt.drop (k + 2)) < args.length := by
          intro hlt
          rw [i1.mpr hlt] at hr
          cases hr
        simp only [List.length_cons, false_iff, reduceCtorEq]
        omega

theorem format_helper_ok (args : List (List Char)) : ∀ fmt out : List Char,
    format_helper fmt args = .ok out → spec_substituted fmt args out := by
  induction args with
  | nil =>
    intro fmt out h
    simp only [format_helper, Except.ok.injEq] at h
    subst h
    exact spec_substituted.done fmt
  | cons value args ih =>
    intro fmt out h
    cases hf : find fmt with
    | none => simp [format_helper, hf] at h
    | some k =>
      simp only [format_helper, hf] at h
      cases hr : format_helper (fmt.drop (k + 2)) args with
      | error e => simp [hr] at h
      | ok rest =>
        simp only [hr, Except.ok.injEq] at h
        subst h
        obtain ⟨h1, h2, _⟩ := (find_spec fmt).2 k hf
        have hstep := spec_substituted.step (fmt.take k) (fmt.drop (k + 2)) value args rest
          (fun q r hq => by
            have := find_minimal fmt k hf q r (by rw [← hq, ← h1])
            rw [List.length_take]
            omega)
          (ih _ _ hr)
        rw [← h1] at hstep
        exact hstep

theorem format_helper_of_spec (fmt : List Char) (args : List (List Char)) (out : List Char)
    (h : spec_substituted fmt args out) : format_helper fmt args = .ok out := by
  induction h with
  | done fmt => rfl
  | step p rest value args out hmin _ ih =>
    have hf := find_first p rest hmin
    have e1 : (p ++ placeholder ++ rest).take p.length = p := by
      rw [List.append_assoc, List.take_left]
    have e2 : (p ++ placeholder ++ rest).drop (p.length + 2) = rest := by
      have : p.length + 2 = (p ++ placeholder).length := by simp [placeholder]
      rw [this, List.drop_left]
    simp only [format_helper, hf, e1, e2, ih]

/-- C22: `format(fmt, a1..ak)` fails with the invalid-argument error exactly when `fmt`
has fewer than `k` occurrences of the token, scanning left to right without overlap;
otherwise it returns a string, and the string it returns is `fmt` with the first `k`
occurrences of the token replaced in order by the written forms of the arguments and
everything else, further tokens and the characters of the arguments included, left as
it is. -/
theorem C22_format (fmt : List Char) (args : List (List Char)) :
    (format fmt args = .error .invalid_argument ↔ spec_occurrences fmt < args.length) ∧
    (args.length ≤ spec_occurrences fmt → ∃ out, format fmt args = .ok out) ∧
    (∀ out, format fmt args = .ok out ↔ spec_substituted fmt args out) := by
  unfold format
  refine ⟨(format_helper_error args fmt).1, fun hle => ?_, fun out =>
    ⟨format_helper_ok args fmt out, format_helper_of_spec fmt args out⟩⟩
  cases hr : format_helper fmt args with
  | ok out => exact ⟨out, rfl⟩
  | error e =>
    have he := (format_helper_error args fmt).2 e hr
    subst he
    have := (format_helper_error args fmt).1.mp hr
    omega

/-- C22 witness: a format string with three tokens and two arguments, the first of
which is itself the token; the third token and the token inside the first argument stay. -/
theorem C22_format_witness :
    (2 ≤ spec_occurrences "a\x7b\x7db\x7b\x7dc\x7b\x7d".toList) ∧
    format "a\x7b\x7db\x7b\x7dc\x7b\x7d".toList ["\x7b\x7d".toList, "Y".toList]
      = .ok "a\x7b\x7dbYc\x7b\x7d".toList ∧
    spec_substituted "a\x7b\x7db\x7b\x7dc\x7b\x7d".toList ["\x7b\x7d".toList, "Y".toList]
      "a\x7b\x7dbYc\x7b\x7d".toList ∧
    ∃ out, format "a\x7b\x7db\x7b\x7dc\x7b\x7d".toList ["\x7b\x7d".toList, "Y".toList] = .ok out :=
  ⟨by decide, by rfl,
    ((C22_format "a\x7b\x7db\x7b\x7dc\x7b\x7d".toList ["\x7b\x7d".toList, "Y".toList]).2.2
      "a\x7b\x7dbYc\x7b\x7d".toList).mp (by rfl),
    (C22_format "a\x7b\x7db\x7b\x7dc\x7b\x7d".toList ["\x7b\x7d".toList, "Y".toList]).2.1
      (by decide)⟩

/-! ## C24: a run of values read back from a copy -/

theorem memcpy_append (xs ys : List Byte) : ∀ (dst : List Byte) (off : Nat),
    memcpy dst off (xs ++ ys) = memcpy (memcpy dst off xs) (off + xs.length) ys := by
  induction xs with
  | nil => intro dst off; rfl
  | cons x xs ih =>
    intro dst off
    show memcpy (dst.set off x) (off + 1) (xs ++ ys)
      = memcpy (memcpy (dst.set off x) (off + 1) xs) (off + (xs.length + 1)) ys
    rw [ih, Nat.add_assoc, Nat.add_comm 1]

theorem readBytes_add (src : List Byte) (off n m : Nat) :
    readBytes src off (n + m) = readBytes src off n ++ readBytes src (off + n) m := by
  simp only [readBytes, List.range_add, List.map_append, List.map_map]
  congr 1
  apply List.map_congr_left
  intro i _
  simp only [Function.comp, Nat.add_assoc]

theorem encode_length (v : variant) :
    1 ≤ v.encode.length ∧
    (v.index.isFixed = true → v.encode.length = v.index.sizeof) := by
  cases v <;> simp [variant.encode, toLE_length, variant.index, support_t.sizeof,
    support_t.isFixed] <;> omega

theorem put_encode (v : variant) (a : wmemory_t)
    (hcap : a.m_lens + v.encode.length ≤ a.m_size) (hsz : a.m_size < 2 ^ 64) :
    wmemory_t.put v a = .ok { a with
      buffer := memcpy a.buffer a.m_lens v.encode
      m_lens := a.m_lens + v.encode.length } := by
  by_cases hfix : v.index.isFixed = true
  · have hl := (encode_length v).2 hfix
    have he : v.encode = toLE v.index.sizeof v.bits := by
      cases v <;> first | rfl | (simp [variant.index, support_t.isFixed] at hfix)
    rw [put_fixed_cases v a hfix (by omega), if_neg (by omega), he, toLE_length]
  · have hstr : ∀ x : List Byte, a.m_lens + (toLE 8 x.length ++ x).length ≤ a.m_size →
        wmemory_t.insert (.strview x) a = .ok { a with
          buffer := memcpy a.buffer a.m_lens (toLE 8 x.length ++ x)
          m_lens := a.m_lens + (toLE 8 x.length ++ x).length } := by
      intro x hx
      simp only [List.length_append, toLE_length] at hx
      rw [insert_strview_ok x a (by omega) hsz, memcpy_append, toLE_length]
      simp only [List.length_append, toLE_length, Nat.add_assoc]
    cases v with
    | str x => exact hstr x hcap
    | strview x => exact hstr x hcap
    | _ => exact absurd rfl hfix

theorem getter_reads (v : variant) (r : wmemory_t) (hv : v.inRange)
    (hne : v.index ≠ .variant_uint8) (hr : r.m_size ≠ 0)
    (hw : r.m_lens + v.encode.length < 2 ^ 64)
    (hb : readBytes r.buffer r.m_lens v.encode.length = v.encode) :
    ∃ g, wmemory_t.getter v.index = some g ∧
      g r = (v, { r with m_lens := r.m_lens + v.encode.length }) := by
  by_cases hfix : v.index.isFixed = true
  · have hl := (encode_length v).2 hfix
    have he : v.encode = toLE v.index.sizeof v.bits := by
      cases v <;> first | rfl | (simp [variant.index, support_t.isFixed] at hfix)
    have hload : r.load v.index.sizeof = v.bits % 256 ^ v.index.sizeof := by
      have hb2 := hb
      rw [hl, he] at hb2
      simp only [wmemory_t.load]
      rw [hb2, fromLE_toLE]
    obtain ⟨g, hg, hgr⟩ := getter_of_load v r hfix hv hne hr hload
    refine ⟨g, hg, ?_⟩
    rw [hgr]
    simp only [wmemory_t.advance]
    rw [hl, Nat.mod_eq_of_lt (by omega)]
  · have hstr : ∀ x : List Byte, x.length < 2 ^ 64 →
        r.m_lens + (toLE 8 x.length ++ x).length < 2 ^ 64 →
        readBytes r.buffer r.m_lens (toLE 8 x.length ++ x).length = toLE 8 x.length ++ x →
        wmemory_t.get_string r
          = (x, { r with m_lens := r.m_lens + (toLE 8 x.length ++ x).length }) := by
      intro x hx hwx hbx
      simp only [List.length_append, toLE_length] at hwx hbx ⊢
      rw [readBytes_add] at hbx
      obtain ⟨e1, e2⟩ := List.append_inj hbx (by rw [readBytes_length, toLE_length])
      have := get_string_at r.buffer x r.m_lens r.m_size hx (by omega) hr e1 e2
      rw [Nat.mod_eq_of_lt (by omega)] at this
      rw [← Nat.add_assoc]
      exact this
    cases v with
    | str x =>
      refine ⟨_, rfl, ?_⟩
      have := hstr x hv hw hb
      simp only [this]
      rfl
    | strview x =>
      refine ⟨_, rfl, ?_⟩
      have : wmemory_t.get_string_view r = wmemory_t.get_string r := rfl
      have h2 := hstr x hv hw hb
      simp only [this, h2]
      rfl
    | _ => exact absurd rfl hfix

theorem puts_gets (vs : List variant) : ∀ a : wmemory_t,
    (∀ v ∈ vs, v.inRange ∧ v.index ≠ .variant_uint8) →
    a.m_lens + wmemory_t.encodedSize vs ≤ a.m_size →
    a.m_size ≤ a.buffer.length → a.m_size < 2 ^ 64 →
    ∃ a1, wmemory_t.puts vs a = .ok a1 ∧
      a1.m_lens = a.m_lens + wmemory_t.encodedSize vs ∧
      a1.m_size = a.m_size ∧ a1.buffer.length = a.buffer.length ∧
      (∀ p n, p + n ≤ a.m_lens → readBytes a1.buffer p n = readBytes a.buffer p n) ∧
      (∀ r : wmemory_t, r.m_size ≠ 0 → r.m_lens = a.m_lens →
        readBytes r.buffer a.m_lens (wmemory_t.encodedSize vs)
          = readBytes a1.buffer a.m_lens (wmemory_t.encodedSize vs) →
        wmemory_t.gets (vs.map variant.index) r
          = some (vs, { r with m_lens := a.m_lens + wmemory_t.encodedSize vs })) := by
  induction vs with
  | nil =>
    intro a _ _ _ _
    refine ⟨a, rfl, rfl, rfl, rfl, fun _ _ _ => rfl, ?_⟩
    intro r _ hrl _
    simp only [List.map_nil, wmemory_t.gets, wmemory_t.encodedSize, Nat.add_zero, ← hrl]
  | cons v vs ih =>
    intro a hv hcap hbuf hsz
    simp only [wmemory_t.encodedSize] at hcap ⊢
    have hput := put_encode v a (by omega) hsz
    obtain ⟨a1, i1, i2, i3, i4, i5, i6⟩ := ih
      { a with
        buffer := memcpy a.buffer a.m_lens v.encode
        m_lens := a.m_lens + v.encode.length }
      (fun x hx => hv x (List.mem_cons_of_mem _ hx))
      (by show a.m_lens + v.encode.length + wmemory_t.encodedSize vs ≤ a.m_size; omega)
      (by show a.m_size ≤ (memcpy a.buffer a.m_lens v.encode).length
          rw [memcpy_length]; exact hbuf)
      hsz
    simp only at i2 i3 i4 i5 i6
    rw [memcpy_length] at i4
    refine ⟨a1, by simp only [wmemory_t.puts, hput, i1], by omega, i3, i4, ?_, ?_⟩
    · intro p n hpn
      rw [i5 p n (by omega), readBytes_memcpy_disjoint _ _ _ _ _ (Or.inl hpn)]
    · intro r hr hrl hb
      rw [readBytes_add, readBytes_add] at hb
      obtain ⟨e1, e2⟩ := List.append_inj hb (by rw [readBytes_length, readBytes_length])
      have e3 : readBytes a1.buffer a.m_lens v.encode.length = v.encode := by
        rw [i5 _ _ (Nat.le_refl _)]
        exact readBytes_memcpy_same _ _ _ (by omega)
      obtain ⟨g, hg, hgr⟩ := getter_reads v r (hv v (List.mem_cons_self _ _)).1
        (hv v (List.mem_cons_self _ _)).2 hr (by omega) (by rw [hrl, e1, e3])
      have i7 := i6 { r with m_lens := r.m_lens + v.encode.length } hr
        (by show r.m_lens + v.encode.length = a.m_lens + v.encode.length; rw [hrl])
        e2
      simp only [List.map_cons, wmemory_t.gets, hg, hgr, i7]
      simp only [Nat.add_assoc]

/-- C24, as stated, fails.  A `uint8_t` is a supported fixed-width integer with a setter,
`setUBytes`, but no getter returns a `uint8_t`: written as 200 into a fresh buffer of
capacity 8 and read from the copy `wmemory_t(data(), lens())` with the one-byte getter
`get_bytes`, it comes back as the `char` -56.  And a string can be written without
error past the capacity: on a fresh buffer of capacity 8, `setString("hi")` raises no
error and leaves `lens()` at 10, so that the copy constructor is asked for 10 bytes of
a storage of 8, of which the two payload bytes are no part. -/
theorem C24_counterexample :
    (wmemory_t.getter .variant_uint8 = none ∧
      wmemory_t.setUBytes 200 ⟨List.replicate 8 0, 8, 0⟩
        = .ok ⟨[200, 0, 0, 0, 0, 0, 0, 0], 8, 1⟩ ∧
      wmemory_t.ctor_data (wmemory_t.data ⟨[200, 0, 0, 0, 0, 0, 0, 0], 8, 1⟩)
          (wmemory_t.lens ⟨[200, 0, 0, 0, 0, 0, 0, 0], 8, 1⟩)
        = .ok ⟨[200], 1, 0⟩ ∧
      wmemory_t.get_bytes ⟨[200], 1, 0⟩ = (-56, ⟨[200], 1, 1⟩)) ∧
    (wmemory_t.setString [104, 105] ⟨List.replicate 8 0, 8, 0⟩
        = .ok ⟨[2, 0, 0, 0, 0, 0, 0, 0], 8, 10⟩ ∧
      wmemory_t.lens ⟨[2, 0, 0, 0, 0, 0, 0, 0], 8, 10⟩
        > (wmemory_t.mk [2, 0, 0, 0, 0, 0, 0, 0] 8 10).buffer.length) :=
  ⟨⟨rfl, by rfl, by rfl, by rfl⟩, by rfl, by decide⟩

/-- C24, amended: for every non-empty list of values of the types that have a public
getter (every supported type but `uint8_t`), each in the range of its type, and every
buffer `A` with cursor 0 whose capacity holds the bytes of all the values (`8 + length`
for a string, `sizeof` for a fixed-width value), writing the values in order with the
matching setters raises no error and leaves `A.lens()` at that number of bytes, which is
at least 1; the buffer `B = wmemory_t(A.data(), A.lens())` is constructed without
error, and the matching getters called on `B` in the same order return exactly the
written values and leave the cursor of `B` at `A.lens()`.  The hypotheses `hbuf` and
`hsz` are the representation invariant `wf`. -/
theorem C24_sequence_roundtrip (vs : List variant) (a : wmemory_t)
    (hv : ∀ v ∈ vs, v.inRange ∧ v.index ≠ .variant_uint8) (hne : vs ≠ [])
    (h0 : a.m_lens = 0) (hcap : wmemory_t.encodedSize vs ≤ a.m_size)
    (hbuf : a.m_size ≤ a.buffer.length) (hsz : a.m_size < 2 ^ 64) :
    ∃ a1 b b1, wmemory_t.puts vs a = .ok a1 ∧
      a1.lens = wmemory_t.encodedSize vs ∧ 1 ≤ a1.lens ∧
      wmemory_t.ctor_data a1.data a1.lens = .ok b ∧
      wmemory_t.gets (vs.map variant.index) b = some (vs, b1) ∧
      b1.lens = a1.lens := by
  obtain ⟨a1, i1, i2, i3, i4, _, i6⟩ := puts_gets vs a hv (by omega) hbuf hsz
  rw [h0, Nat.zero_add] at i2
  rw [h0] at i6
  have hpos : 1 ≤ wmemory_t.encodedSize vs := by
    cases vs with
    | nil => exact absurd rfl hne
    | cons v vs =>
      have := (encode_length v).1
      simp only [wmemory_t.encodedSize]
      omega
  have hctor : wmemory_t.ctor_data a1.data a1.lens
      = .ok ⟨readBytes a1.buffer 0 (wmemory_t.encodedSize vs), wmemory_t.encodedSize vs, 0⟩ := by
    rw [data_of_ne_nil a1 (by omega)]
    simp only [wmemory_t.ctor_data, wmemory_t.lens, i2]
    rw [if_pos hpos]
  have hg := i6 ⟨readBytes a1.buffer 0 (wmemory_t.encodedSize vs), wmemory_t.encodedSize vs, 0⟩
    (by show wmemory_t.encodedSize vs ≠ 0; omega) rfl
    (readBytes_readBytes _ _ _ _ (by omega))
  exact ⟨a1, _, _, i1, i2, by simp only [wmemory_t.lens]; omega, hctor, hg,
    by simp only [wmemory_t.lens]; omega⟩

/-- C24 witness: the `int` -5, the string "hi", `true` and the 64-bit value 7 written
into a fresh buffer of capacity 32. -/
theorem C24_sequence_roundtrip_witness :
    ∃ a1 b b1,
      wmemory_t.puts [.int32 (-5), .str [104, 105], .bool true, .uint64 7]
        ⟨List.replicate 32 0, 32, 0⟩ = .ok a1 ∧
      a1.lens = wmemory_t.encodedSize [.int32 (-5), .str [104, 105], .bool true, .uint64 7] ∧
      1 ≤ a1.lens ∧
      wmemory_t.ctor_data a1.data a1.lens = .ok b ∧
      wmemory_t.gets
          ([.int32 (-5), .str [104, 105], .bool true, .uint64 7].map variant.index) b
        = some ([.int32 (-5), .str [104, 105], .bool true, .uint64 7], b1) ∧
      b1.lens = a1.lens :=
  C24_sequence_roundtrip [.int32 (-5), .str [104, 105], .bool true, .uint64 7]
    ⟨List.replicate 32 0, 32, 0⟩ (by decide) (by decide) rfl (by decide) (by decide)
    (by decide)

end utils
